import Mathlib

/-!
A verification development for the grouppayback bill-splitting core:
the settlement engine (`src/composables/useSettlements.ts`), the compact
URL-state codec (`src/composables/useUrlState.ts`) and the optimistic-locking
update of the persistence layer (`workers/lib/db.ts`), embedded shallowly.

Modelling conventions, fixed once here:
* JavaScript numbers that hold integer cent amounts, versions and timestamps
  are modelled as `Int` (the code never produces fractional values for them;
  exactness below 2^53 is assumed, matching the documented 8-digit budgets).
* Optional (`?:`) fields become `Option`; a JS truthiness test on a string
  field (`if (x.f)`) becomes "present and nonempty".
* Code that can throw returns `Option`/`Except`; a `try/catch` becomes a
  `match` on that result.
* Platform primitives (`btoa`, `atob`, `encodeURIComponent`,
  `decodeURIComponent`, `JSON.stringify`, `JSON.parse`, `Array.prototype.sort`)
  are modelled from their specified behaviour on the value classes this code
  feeds them; each model notes its scope at its definition.
-/

/-! ## Data model (`src/types/index.ts`) -/

/-- Mirrors `LineItem`: `{ id, name, amountCents }`. -/
structure LineItem where
  id : String
  name : String
  amountCents : Int
deriving DecidableEq

/-- Mirrors `PaymentMethods`: five optional free-text handles. -/
structure PaymentMethods where
  venmo : Option String
  zelle : Option String
  paypal : Option String
  cashapp : Option String
  other : Option String
deriving DecidableEq

/-- Mirrors `Person`: `{ id, name, items, payments? }`. -/
structure Person where
  id : String
  name : String
  items : List LineItem
  payments : Option PaymentMethods
deriving DecidableEq

/-- Mirrors `AppState`: `{ people, currency?, eventName? }`. -/
structure AppState where
  people : List Person
  currency : Option String
  eventName : Option String
deriving DecidableEq

/-- Mirrors `Settlement`: `{ from, to, amountCents }` (`from` is a Lean
keyword, hence the underscore). -/
structure Settlement where
  from_ : String
  to_ : String
  amountCents : Int
deriving DecidableEq

/-! ## Settlement engine (`src/composables/useSettlements.ts`) -/

/-- Mirrors the local `PersonBalance` interface. -/
structure PersonBalance where
  name : String
  balanceCents : Int
deriving DecidableEq

/-- The ECMAScript whitespace set recognised by `String.prototype.trim`:
WhiteSpace (TAB, VT, FF, SP, NBSP, ZWNBSP and the Space_Separator category)
together with LineTerminator (LF, CR, LS, PS). -/
def jsWhitespace (c : Char) : Bool :=
  c.toNat ∈ [0x9, 0xA, 0xB, 0xC, 0xD, 0x20, 0xA0, 0x1680,
    0x2000, 0x2001, 0x2002, 0x2003, 0x2004, 0x2005, 0x2006, 0x2007,
    0x2008, 0x2009, 0x200A, 0x2028, 0x2029, 0x202F, 0x205F, 0x3000, 0xFEFF]

/-- JavaScript `s.trim()`: drop leading and trailing `jsWhitespace`. -/
def jsTrim (s : String) : String :=
  String.mk (((s.data.dropWhile jsWhitespace).reverse.dropWhile jsWhitespace).reverse)

/-- `calculateTotalCents`: `person.items.reduce((sum, item) => sum + item.amountCents, 0)`. -/
def calculateTotalCents (person : Person) : Int :=
  person.items.foldl (fun sum item => sum + item.amountCents) 0

/-- The filter on line 15: `people.filter(p => p.name.trim() !== '')`. -/
def validPeopleOf (people : List Person) : List Person :=
  people.filter (fun p => jsTrim p.name != "")

/-- Line 21: `validPeople.reduce((sum, p) => sum + calculateTotalCents(p), 0)`. -/
def totalCentsOf (people : List Person) : Int :=
  (validPeopleOf people).foldl (fun sum p => sum + calculateTotalCents p) 0

/-- Line 22: `Math.floor(totalCents / validPeople.length)`.  The JS quotient of
two integers, floored, is exact floor division, i.e. `Int.fdiv`. -/
def fairShareCentsOf (people : List Person) : Int :=
  Int.fdiv (totalCentsOf people) ((validPeopleOf people).length : Int)

/-- Lines 24-27: each valid person's name with `paid total - fair share`. -/
def balancesOf (people : List Person) : List PersonBalance :=
  (validPeopleOf people).map (fun person =>
    { name := person.name
      balanceCents := calculateTotalCents person - fairShareCentsOf people })

/-- Stable insertion of one balance into a list already sorted by descending
`balanceCents`: an element moves past the head only when strictly larger, so
equal keys keep their original relative order. -/
def insertDescBal (x : PersonBalance) : List PersonBalance → List PersonBalance
  | [] => [x]
  | h :: t =>
    if h.balanceCents < x.balanceCents then x :: h :: t
    else h :: insertDescBal x t

/-- Models `.sort((a, b) => b.balanceCents - a.balanceCents)`: JS `sort` is
stable (ES2019), and a stable sort by a key is unique, so this stable
insertion sort computes exactly the array `sort` produces. -/
def sortDescBal : List PersonBalance → List PersonBalance
  | [] => []
  | h :: t => insertDescBal h (sortDescBal t)

/-- Lines 29-32: negative balances, made positive with `Math.abs`, sorted
descending. -/
def debtorsOf (people : List Person) : List PersonBalance :=
  sortDescBal
    (((balancesOf people).filter (fun b => b.balanceCents < 0)).map
      (fun b => { b with balanceCents := |b.balanceCents| }))

/-- Lines 34-36: positive balances sorted descending. -/
def creditorsOf (people : List Person) : List PersonBalance :=
  sortDescBal ((balancesOf people).filter (fun b => 0 < b.balanceCents))

/-- The greedy matching loop (lines 40-62), with a step counter for structural
recursion.  The source walks two indices and mutates the remaining balances in
place; here the index advance is the list tail and a partially-settled party is
re-consed with its remaining balance.  In the branch where the debtor is not
exhausted the creditor necessarily is (`amount = min` equals one of its two
arguments), which is why the source's
`if (creditor.balanceCents === 0) creditorIndex++` is an unconditional
creditor advance there. -/
def settleGreedyAux : Nat → List PersonBalance → List PersonBalance → List Settlement
  | _, [], _ => []
  | _, _ :: _, [] => []
  | 0, _ :: _, _ :: _ => []
  | fuel + 1, d :: ds, c :: cs =>
    let amount := min d.balanceCents c.balanceCents
    let step := if 0 < amount then [Settlement.mk d.name c.name amount] else []
    let dRem := d.balanceCents - amount
    let cRem := c.balanceCents - amount
    step ++
      (if dRem = 0 then
        (if cRem = 0 then settleGreedyAux fuel ds cs
         else settleGreedyAux fuel ds ({ name := c.name, balanceCents := cRem } :: cs))
       else settleGreedyAux fuel ({ name := d.name, balanceCents := dRem } :: ds) cs)

/-- The loop of lines 40-62: every iteration advances at least one of the two
indices, so `debtors.length + creditors.length` steps always suffice and the
counter in `settleGreedyAux` never reaches zero (`settleGreedyAux_fuel_free`
below proves the counter irrelevant beyond that bound). -/
def settleGreedy (debtors creditors : List PersonBalance) : List Settlement :=
  settleGreedyAux (debtors.length + creditors.length) debtors creditors

/-- `calculateSettlements` (lines 14-65). -/
def calculateSettlements (people : List Person) : List Settlement :=
  if (validPeopleOf people).length < 2 then []
  else settleGreedy (debtorsOf people) (creditorsOf people)

/-! Derived sums used to state the settlement claims. -/

/-- Total cents moved by a settlement list. -/
def settlementsTotal (ss : List Settlement) : Int :=
  (ss.map Settlement.amountCents).sum

/-- Cents a given name receives across a settlement list. -/
def receivedBy (n : String) (ss : List Settlement) : Int :=
  ((ss.filter (fun s => s.to_ == n)).map Settlement.amountCents).sum

/-- Cents a given name pays out across a settlement list. -/
def paidOutBy (n : String) (ss : List Settlement) : Int :=
  ((ss.filter (fun s => s.from_ == n)).map Settlement.amountCents).sum

/-- A participant's net position after applying the transfers: the engine's
balance, plus what they paid out (reducing a debt), minus what they received
(reducing what they are owed).  Zero means fully settled. -/
def residualOf (people : List Person) (n : String) : Int :=
  ((balancesOf people).filter (fun b => b.name == n)).foldl
    (fun sum b => sum + b.balanceCents) 0
  + paidOutBy n (calculateSettlements people)
  - receivedBy n (calculateSettlements people)

/-- Sum of the balances in a list. -/
def balSum (l : List PersonBalance) : Int :=
  (l.map PersonBalance.balanceCents).sum

/-- Sum of the balances carried by entries with a given name. -/
def balSumName (n : String) (l : List PersonBalance) : Int :=
  ((l.filter (fun b => b.name == n)).map PersonBalance.balanceCents).sum

/-- The spec's concrete settlement scenario: A paid 5000, B paid 1500, C paid
nothing, all names non-blank. -/
def scenarioPeople : List Person :=
  [ { id := "pa", name := "A",
      items := [{ id := "ia", name := "dinner", amountCents := 5000 }], payments := none }
  , { id := "pb", name := "B",
      items := [{ id := "ib", name := "taxi", amountCents := 1500 }], payments := none }
  , { id := "pc", name := "C", items := [], payments := none } ]

/-- Two distinct people who share the name "A" (the first paid everything),
plus a third person: exercises the engine's by-name identification. -/
def dupNamePeople : List Person :=
  [ { id := "p1", name := "A",
      items := [{ id := "i1", name := "all", amountCents := 300 }], payments := none }
  , { id := "p2", name := "A", items := [], payments := none }
  , { id := "p3", name := "B", items := [], payments := none } ]

/-- 100 cents of expenses split three ways. -/
def centSplitPeople : List Person :=
  [ { id := "q1", name := "P",
      items := [{ id := "j1", name := "snack", amountCents := 100 }], payments := none }
  , { id := "q2", name := "Q", items := [], payments := none }
  , { id := "q3", name := "R", items := [], payments := none } ]

/-! ## Byte-level codec primitives (`src/composables/useUrlState.ts`)

The URL codec composes the platform primitives `encodeURIComponent`,
`decodeURIComponent`, `btoa` and `atob`.  They are modelled here on the value
classes the codec feeds them: `encodeURIComponent`/`decodeURIComponent` per the
ECMAScript Encode/Decode algorithms (strict UTF-8, URIError as `none`), `btoa`
on byte-valued strings, and `atob` per WHATWG forgiving-base64. -/

/-- The lowercase hex digit for `n < 16` (`Number.prototype.toString(16)`). -/
def lowerHexDigit (n : Nat) : Char :=
  if n < 10 then Char.ofNat (48 + n) else Char.ofNat (87 + n)

/-- The uppercase hex digit for `n < 16` (as emitted by `encodeURIComponent`). -/
def upperHexDigit (n : Nat) : Char :=
  if n < 10 then Char.ofNat (48 + n) else Char.ofNat (55 + n)

/-- Hex digit value, either case (as accepted by `decodeURIComponent`). -/
def hexDigitVal (c : Char) : Option Nat :=
  if 48 ≤ c.toNat ∧ c.toNat ≤ 57 then some (c.toNat - 48)
  else if 97 ≤ c.toNat ∧ c.toNat ≤ 102 then some (c.toNat - 87)
  else if 65 ≤ c.toNat ∧ c.toNat ≤ 70 then some (c.toNat - 55)
  else none

/-- Hex digit value, uppercase only (the `[0-9A-F]` class used by the
`toBase64Url` regex). -/
def upperHexVal (c : Char) : Option Nat :=
  if 48 ≤ c.toNat ∧ c.toNat ≤ 57 then some (c.toNat - 48)
  else if 65 ≤ c.toNat ∧ c.toNat ≤ 70 then some (c.toNat - 55)
  else none

/-- The UTF-8 bytes of one character. -/
def utf8EncodeChar (c : Char) : List Nat :=
  let n := c.toNat
  if n < 0x80 then [n]
  else if n < 0x800 then [0xC0 + n / 64, 0x80 + n % 64]
  else if n < 0x10000 then [0xE0 + n / 4096, 0x80 + n / 64 % 64, 0x80 + n % 64]
  else [0xF0 + n / 262144, 0x80 + n / 4096 % 64, 0x80 + n / 64 % 64, 0x80 + n % 64]

/-- `encodeURIComponent`'s unreserved set: ASCII alphanumerics and
`- _ . ! ~ * ' ( )`; every other character is percent-escaped byte-wise. -/
def uriUnreserved (c : Char) : Bool :=
  (65 ≤ c.toNat && c.toNat ≤ 90) || (97 ≤ c.toNat && c.toNat ≤ 122)
  || (48 ≤ c.toNat && c.toNat ≤ 57)
  || c.toNat ∈ [45, 95, 46, 33, 126, 42, 39, 40, 41]

/-- `encodeURIComponent`: unreserved characters pass through, every other
character becomes `%XX` escapes of its UTF-8 bytes, uppercase hex. -/
def encodeURIComponentL (cs : List Char) : List Char :=
  cs.flatMap (fun c =>
    if uriUnreserved c then [c]
    else (utf8EncodeChar c).flatMap
      (fun b => ['%', upperHexDigit (b / 16), upperHexDigit (b % 16)]))

/-- `decodeURIComponent` (ECMAScript Decode): `%XX` escape runs are decoded as
strict UTF-8 (lead-byte class, continuation checks, no overlongs, no
surrogates, max U+10FFFF), every other character passes through; any
violation throws `URIError`, modelled as `none`.  The recursion is driven by
a fuel argument; every step consumes at least one input character, so fuel
equal to the input length always suffices and the zero-fuel arm is
unreachable from `decodeURIComponentL`. -/
def decodeURIAux : Nat → List Char → Option (List Char)
  | _, [] => some []
  | 0, _ :: _ => none
  | fuel + 1, c :: rest =>
    if c = '%' then
      match rest with
      | h :: l :: rest1 =>
        match hexDigitVal h, hexDigitVal l with
        | some hv, some lv =>
          let b0 := 16 * hv + lv
          if b0 < 0x80 then
            (decodeURIAux fuel rest1).map (fun t => Char.ofNat b0 :: t)
          else if b0 < 0xC2 then none
          else if b0 < 0xE0 then
            match rest1 with
            | '%' :: h1 :: l1 :: rest2 =>
              match hexDigitVal h1, hexDigitVal l1 with
              | some hv1, some lv1 =>
                let b1 := 16 * hv1 + lv1
                if 0x80 ≤ b1 ∧ b1 < 0xC0 then
                  (decodeURIAux fuel rest2).map
                    (fun t => Char.ofNat ((b0 - 0xC0) * 64 + (b1 - 0x80)) :: t)
                else none
              | _, _ => none
            | _ => none
          else if b0 < 0xF0 then
            match rest1 with
            | '%' :: h1 :: l1 :: '%' :: h2 :: l2 :: rest2 =>
              match hexDigitVal h1, hexDigitVal l1, hexDigitVal h2, hexDigitVal l2 with
              | some hv1, some lv1, some hv2, some lv2 =>
                let b1 := 16 * hv1 + lv1
                let b2 := 16 * hv2 + lv2
                let n := (b0 - 0xE0) * 4096 + (b1 - 0x80) * 64 + (b2 - 0x80)
                if (0x80 ≤ b1 ∧ b1 < 0xC0) ∧ (0x80 ≤ b2 ∧ b2 < 0xC0)
                    ∧ 0x800 ≤ n ∧ ¬ (0xD800 ≤ n ∧ n < 0xE000) then
                  (decodeURIAux fuel rest2).map (fun t => Char.ofNat n :: t)
                else none
              | _, _, _, _ => none
            | _ => none
          else if b0 < 0xF5 then
            match rest1 with
            | '%' :: h1 :: l1 :: '%' :: h2 :: l2 :: '%' :: h3 :: l3 :: rest2 =>
              match hexDigitVal h1, hexDigitVal l1, hexDigitVal h2, hexDigitVal l2,
                  hexDigitVal h3, hexDigitVal l3 with
              | some hv1, some lv1, some hv2, some lv2, some hv3, some lv3 =>
                let b1 := 16 * hv1 + lv1
                let b2 := 16 * hv2 + lv2
                let b3 := 16 * hv3 + lv3
                let n := (b0 - 0xF0) * 262144 + (b1 - 0x80) * 4096
                    + (b2 - 0x80) * 64 + (b3 - 0x80)
                if (0x80 ≤ b1 ∧ b1 < 0xC0) ∧ (0x80 ≤ b2 ∧ b2 < 0xC0)
                    ∧ (0x80 ≤ b3 ∧ b3 < 0xC0)
                    ∧ 0x10000 ≤ n ∧ n < 0x110000 then
                  (decodeURIAux fuel rest2).map (fun t => Char.ofNat n :: t)
                else none
              | _, _, _, _, _, _ => none
            | _ => none
          else none
        | _, _ => none
      | _ => none
    else (decodeURIAux fuel rest).map (fun t => c :: t)

/-- `decodeURIComponent` itself: run the decoder with enough fuel. -/
def decodeURIComponentL (cs : List Char) : Option (List Char) :=
  decodeURIAux cs.length cs

/-- The `.replace(/%([0-9A-F]{2})/g, (_, p1) => String.fromCharCode(parseInt(p1, 16)))`
pass of `toBase64Url`: rewrite every uppercase-hex escape into the character
with that code, scanning left to right. -/
def replaceHexEscapes : List Char → List Char
  | '%' :: h :: l :: rest =>
    match upperHexVal h, upperHexVal l with
    | some hv, some lv => Char.ofNat (16 * hv + lv) :: replaceHexEscapes rest
    | _, _ => '%' :: replaceHexEscapes (h :: l :: rest)
  | c :: rest => c :: replaceHexEscapes rest
  | [] => []

/-- The standard base64 alphabet. -/
def b64Alphabet : List Char :=
  "ABCDEFGHIJKLMNOPQRSTUVWXYZabcdefghijklmnopqrstuvwxyz0123456789+/".data

/-- The base64 character for a 6-bit value. -/
def b64Char (i : Nat) : Char := b64Alphabet.getD i '?'

def b64IndexAux : List Char → Nat → Char → Option Nat
  | [], _, _ => none
  | a :: t, i, c => if a = c then some i else b64IndexAux t (i + 1) c

/-- The 6-bit value of a base64 character, `none` outside the alphabet. -/
def b64Index (c : Char) : Option Nat := b64IndexAux b64Alphabet 0 c

/-- The unpadded base64 encoding of a byte list. -/
def b64EncodeCore : List Nat → List Char
  | b0 :: b1 :: b2 :: rest =>
    b64Char (b0 / 4) :: b64Char (b0 % 4 * 16 + b1 / 16)
      :: b64Char (b1 % 16 * 4 + b2 / 64) :: b64Char (b2 % 64)
      :: b64EncodeCore rest
  | [b0, b1] => [b64Char (b0 / 4), b64Char (b0 % 4 * 16 + b1 / 16), b64Char (b1 % 16 * 4)]
  | [b0] => [b64Char (b0 / 4), b64Char (b0 % 4 * 16)]
  | [] => []

/-- The `=` padding `btoa` appends for a byte list of the given length. -/
def b64Pad (len : Nat) : List Char :=
  if len % 3 = 1 then ['=', '=']
  else if len % 3 = 2 then ['=']
  else []

/-- `btoa` on a list of char codes: standard base64 with padding; throws
(`none`) if any code exceeds 0xFF. -/
def btoa (codes : List Nat) : Option (List Char) :=
  if codes.all (fun b => b < 256) then
    some (b64EncodeCore codes ++ b64Pad codes.length)
  else none

/-- The ASCII whitespace the forgiving-base64 decoder strips. -/
def b64Whitespace (c : Char) : Bool :=
  c.toNat ∈ [0x9, 0xA, 0xC, 0xD, 0x20]

/-- Strip the up-to-two trailing `=` of a length-divisible-by-4 input
(forgiving-base64 step 2). -/
def stripB64Pad (cs : List Char) : List Char :=
  if cs.length % 4 = 0 then
    match cs.reverse with
    | '=' :: '=' :: r => r.reverse
    | '=' :: r => r.reverse
    | _ => cs
  else cs

/-- Decode 6-bit groups: a trailing group of two or three characters yields
one or two bytes (leftover bits discarded), a trailing single character is an
error, as is any character outside the alphabet. -/
def b64DecodeChunks : List Char → Option (List Nat)
  | [] => some []
  | [c0, c1] =>
    match b64Index c0, b64Index c1 with
    | some i0, some i1 => some [i0 * 4 + i1 / 16]
    | _, _ => none
  | [c0, c1, c2] =>
    match b64Index c0, b64Index c1, b64Index c2 with
    | some i0, some i1, some i2 => some [i0 * 4 + i1 / 16, i1 % 16 * 16 + i2 / 4]
    | _, _, _ => none
  | c0 :: c1 :: c2 :: c3 :: rest =>
    match b64Index c0, b64Index c1, b64Index c2, b64Index c3 with
    | some i0, some i1, some i2, some i3 =>
      (b64DecodeChunks rest).map
        (fun bs => (i0 * 4 + i1 / 16) :: (i1 % 16 * 16 + i2 / 4) :: (i2 % 4 * 64 + i3) :: bs)
    | _, _, _, _ => none
  | [_] => none

/-- `atob` per WHATWG forgiving-base64: strip ASCII whitespace, strip proper
trailing padding, reject a leftover length of 1 mod 4 or any character
outside the alphabet, and decode; returns the byte (char-code) list. -/
def atobCodes (cs : List Char) : Option (List Nat) :=
  let cleaned := cs.filter (fun c => ! b64Whitespace c)
  let body := stripB64Pad cleaned
  if body.length % 4 = 1 then none else b64DecodeChunks body

/-- `+`→`-` and `/`→`_` (the two `.replace` calls of `toBase64Url`). -/
def b64UrlRemapChar (c : Char) : Char :=
  if c = '+' then '-' else if c = '/' then '_' else c

/-- `-`→`+` and `_`→`/` (the two `.replace` calls of `fromBase64Url`). -/
def b64UrlUnremapChar (c : Char) : Char :=
  if c = '-' then '+' else if c = '_' then '/' else c

/-- `.replace(/=+$/, '')`: drop every trailing `=`. -/
def stripTrailingEq (cs : List Char) : List Char :=
  (cs.reverse.dropWhile (fun c => c == '=')).reverse

/-- Re-pad to a multiple of four with `=` (`fromBase64Url` lines 131-134). -/
def padB64 (cs : List Char) : List Char :=
  if cs.length % 4 = 0 then cs else cs ++ List.replicate (4 - cs.length % 4) '='

/-- `toBase64Url` (lines 116-125): UTF-8 bytes via the
`encodeURIComponent`/`replace` idiom, then `btoa`, then URL-safe remapping and
padding removal.  `btoa` cannot actually throw here (the bytes are below
0x100), hence the `Option` is always `some`. -/
def toBase64Url (s : String) : Option String :=
  let utf8 := replaceHexEscapes (encodeURIComponentL s.data)
  (btoa (utf8.map Char.toNat)).map
    (fun b64 => String.mk (stripTrailingEq (b64.map b64UrlRemapChar)))

/-- `fromBase64Url` (lines 127-140): restore `+`/`/`, re-pad, `atob`, then
percent-escape every byte (lowercase hex) and `decodeURIComponent`. -/
def fromBase64Url (s : String) : Option String :=
  let base64 := padB64 (s.data.map b64UrlUnremapChar)
  match atobCodes base64 with
  | none => none
  | some bytes =>
    let escaped := bytes.flatMap
      (fun b => ['%', lowerHexDigit (b / 16), lowerHexDigit (b % 16)])
    (decodeURIComponentL escaped).map String.mk

/-! ## JSON (`JSON.stringify` / `JSON.parse` on the codec's value fragment)

The codec serialises objects, arrays, strings and integer-valued numbers.
`Json` covers that fragment plus `null` and booleans.  The renderer mirrors
`JSON.stringify` exactly on it (no spacing, insertion-ordered keys, the
standard escapes, lowercase `\u00xx` for other control characters); the
parser mirrors `JSON.parse` on it (whitespace, all string escapes except
surrogate pairs, integer numerals).  Fractional/exponent numerals and
surrogate `\u` escapes never arise from this codec and are parsed as
failures. -/

inductive Json where
  | null : Json
  | bool (b : Bool) : Json
  | num (n : Int) : Json
  | str (s : String) : Json
  | arr (elems : List Json) : Json
  | obj (members : List (String × Json)) : Json

/-- `{`, kept out of character-literal position. -/
def lbrace : Char := Char.ofNat 123

/-- `}`, kept out of character-literal position. -/
def rbrace : Char := Char.ofNat 125

/-- Decimal digits of `n`, most significant first, onto `acc`; the counter
only bounds the recursion (`n < fuel` always holds at call sites). -/
def natDigitsGo : Nat → Nat → List Char → List Char
  | 0, _, acc => acc
  | fuel + 1, n, acc =>
    if n < 10 then Char.ofNat (48 + n) :: acc
    else natDigitsGo fuel (n / 10) (Char.ofNat (48 + n % 10) :: acc)

/-- The decimal digit characters of a natural number. -/
def natDecimal (n : Nat) : List Char := natDigitsGo (n + 1) n []

/-- The decimal form of an integer, as `JSON.stringify` prints the codec's
integer-valued numbers. -/
def intDecimal (i : Int) : List Char :=
  (if i < 0 then ['-'] else []) ++ natDecimal i.natAbs

/-- One string character, escaped as `JSON.stringify` does: `\"`, `\\`, the
five short escapes, `\u00xx` for remaining control characters, everything
else verbatim. -/
def escapeJsonChar (c : Char) : List Char :=
  if c = '"' then ['\\', '"']
  else if c = '\\' then ['\\', '\\']
  else if c.toNat = 8 then ['\\', 'b']
  else if c.toNat = 9 then ['\\', 't']
  else if c.toNat = 10 then ['\\', 'n']
  else if c.toNat = 12 then ['\\', 'f']
  else if c.toNat = 13 then ['\\', 'r']
  else if c.toNat < 0x20 then
    ['\\', 'u', '0', '0', lowerHexDigit (c.toNat / 16), lowerHexDigit (c.toNat % 16)]
  else [c]

/-- A rendered JSON string literal. -/
def renderJString (s : String) : List Char :=
  '"' :: s.data.flatMap escapeJsonChar ++ ['"']

mutual

/-- `JSON.stringify` of a value, as characters. -/
def renderJsonL : Json → List Char
  | .null => "null".data
  | .bool true => "true".data
  | .bool false => "false".data
  | .num n => intDecimal n
  | .str s => renderJString s
  | .arr es => '[' :: renderJElems es ++ [']']
  | .obj ms => lbrace :: renderJFields ms ++ [rbrace]

/-- Comma-separated rendered elements. -/
def renderJElems : List Json → List Char
  | [] => []
  | [e] => renderJsonL e
  | e :: es => renderJsonL e ++ ',' :: renderJElems es

/-- Comma-separated rendered `"key":value` members, insertion order. -/
def renderJFields : List (String × Json) → List Char
  | [] => []
  | [(k, v)] => renderJString k ++ ':' :: renderJsonL v
  | (k, v) :: ms => renderJString k ++ ':' :: renderJsonL v ++ ',' :: renderJFields ms

end

/-- `JSON.stringify` of a value, as a string. -/
def renderJson (j : Json) : String := String.mk (renderJsonL j)

/-- JSON insignificant whitespace: space, tab, LF, CR. -/
def jsonWs (c : Char) : Bool := c.toNat ∈ [0x20, 0x9, 0xA, 0xD]

def isDigitCh (c : Char) : Bool := 48 ≤ c.toNat && c.toNat ≤ 57

/-- Split a leading run of decimal digits. -/
def spanDigits : List Char → List Char × List Char
  | c :: cs =>
    if isDigitCh c then
      let (ds, r) := spanDigits cs
      (c :: ds, r)
    else ([], c :: cs)
  | [] => ([], [])

def digitsToNat (ds : List Char) : Nat :=
  ds.foldl (fun a c => 10 * a + (c.toNat - 48)) 0

/-- The single-character escapes `JSON.parse` accepts after a backslash. -/
def unescapeJsonChar (c : Char) : Option Char :=
  if c = '"' then some '"'
  else if c = '\\' then some '\\'
  else if c = '/' then some '/'
  else if c = 'b' then some (Char.ofNat 8)
  else if c = 't' then some (Char.ofNat 9)
  else if c = 'n' then some (Char.ofNat 10)
  else if c = 'f' then some (Char.ofNat 12)
  else if c = 'r' then some (Char.ofNat 13)
  else none

/-- Parse a JSON string body after the opening quote.  Raw control characters
are rejected; `\uXXXX` is accepted outside the surrogate range (surrogate
pairs never occur in this codec's output and are parsed as failures). -/
def parseJStringAux (acc : List Char) : List Char → Option (String × List Char)
  | '"' :: rest => some (String.mk acc.reverse, rest)
  | '\\' :: 'u' :: a :: b :: c :: d :: rest =>
    match hexDigitVal a, hexDigitVal b, hexDigitVal c, hexDigitVal d with
    | some va, some vb, some vc, some vd =>
      let n := ((va * 16 + vb) * 16 + vc) * 16 + vd
      if 0xD800 ≤ n ∧ n < 0xE000 then none
      else parseJStringAux (Char.ofNat n :: acc) rest
    | _, _, _, _ => none
  | '\\' :: e :: rest =>
    match unescapeJsonChar e with
    | some ch => parseJStringAux (ch :: acc) rest
    | none => none
  | c :: rest =>
    if c.toNat < 0x20 then none else parseJStringAux (c :: acc) rest
  | [] => none

/-- Parse an integer numeral (the number fragment this codec emits). -/
def parseJNum (cs : List Char) : Option (Int × List Char) :=
  match cs with
  | '-' :: rest =>
    let (ds, r) := spanDigits rest
    if ds.isEmpty then none else some (-(digitsToNat ds : Int), r)
  | _ =>
    let (ds, r) := spanDigits cs
    if ds.isEmpty then none else some ((digitsToNat ds : Int), r)

mutual

/-- Parse one JSON value; the counter is only for structural recursion and
`input length + 1` always suffices. -/
def parseJVal : Nat → List Char → Option (Json × List Char)
  | 0, _ => none
  | fuel + 1, cs =>
    match cs.dropWhile jsonWs with
    | 'n' :: 'u' :: 'l' :: 'l' :: r => some (.null, r)
    | 't' :: 'r' :: 'u' :: 'e' :: r => some (.bool true, r)
    | 'f' :: 'a' :: 'l' :: 's' :: 'e' :: r => some (.bool false, r)
    | '"' :: r => (parseJStringAux [] r).map (fun p => (.str p.1, p.2))
    | '[' :: r =>
      (match r.dropWhile jsonWs with
       | ']' :: r1 => some (.arr [], r1)
       | r1 => (parseJElems fuel r1).map (fun p => (.arr p.1, p.2)))
    | c :: r =>
      if c = lbrace then
        (match r.dropWhile jsonWs with
         | c1 :: r1 =>
           if c1 = rbrace then some (.obj [], r1)
           else (parseJFields fuel (c1 :: r1)).map (fun p => (.obj p.1, p.2))
         | [] => none)
      else if c = '-' || isDigitCh c then
        (parseJNum (c :: r)).map (fun p => (.num p.1, p.2))
      else none
    | [] => none

/-- One-or-more comma-separated elements, consuming the closing `]`. -/
def parseJElems : Nat → List Char → Option (List Json × List Char)
  | 0, _ => none
  | fuel + 1, cs =>
    match parseJVal fuel cs with
    | none => none
    | some (v, r) =>
      match r.dropWhile jsonWs with
      | ',' :: r1 => (parseJElems fuel r1).map (fun p => (v :: p.1, p.2))
      | ']' :: r1 => some ([v], r1)
      | _ => none

/-- One-or-more comma-separated members, consuming the closing brace. -/
def parseJFields : Nat → List Char → Option (List (String × Json) × List Char)
  | 0, _ => none
  | fuel + 1, cs =>
    match cs.dropWhile jsonWs with
    | '"' :: r =>
      (match parseJStringAux [] r with
       | none => none
       | some (k, r1) =>
         match r1.dropWhile jsonWs with
         | ':' :: r2 =>
           (match parseJVal fuel r2 with
            | none => none
            | some (v, r3) =>
              match r3.dropWhile jsonWs with
              | ',' :: r4 => (parseJFields fuel r4).map (fun p => ((k, v) :: p.1, p.2))
              | c4 :: r4 => if c4 = rbrace then some ([(k, v)], r4) else none
              | [] => none)
         | _ => none)
    | _ => none

end

/-- `JSON.parse`: parse one value, allow trailing whitespace only. -/
def jsonParse (s : String) : Option Json :=
  match parseJVal (s.data.length + 1) s.data with
  | some (j, r) => if (r.dropWhile jsonWs).isEmpty then some j else none
  | none => none

/-! ## Compact state codec (`src/composables/useUrlState.ts` lines 5-112, 142-184) -/

/-- Mirrors `CompactLineItem`: `{ i, n, a }`. -/
structure CompactLineItem where
  i : String
  n : String
  a : Int
deriving DecidableEq

/-- Mirrors `CompactPaymentMethods`: `{ v?, z?, p?, a?, o? }`. -/
structure CompactPaymentMethods where
  v : Option String
  z : Option String
  p : Option String
  a : Option String
  o : Option String
deriving DecidableEq

/-- Mirrors `CompactPerson`: `{ i, n, t, m? }`. -/
structure CompactPerson where
  i : String
  n : String
  t : List CompactLineItem
  m : Option CompactPaymentMethods
deriving DecidableEq

/-- Mirrors `CompactState`: `{ p, c?, e? }`. -/
structure CompactState where
  p : List CompactPerson
  c : Option String
  e : Option String
deriving DecidableEq

/-- JS string truthiness on an optional field: present and nonempty. -/
def truthyStr : Option String → Option String
  | some s => if s = "" then none else some s
  | none => none

/-- `toCompactPayments` (lines 51-60): keep each truthy field; drop the whole
object when no field survives (`Object.keys(compact).length > 0`). -/
def toCompactPayments (payments : Option PaymentMethods) : Option CompactPaymentMethods :=
  match payments with
  | none => none
  | some pm =>
    let compact : CompactPaymentMethods :=
      { v := truthyStr pm.venmo, z := truthyStr pm.zelle, p := truthyStr pm.paypal
        a := truthyStr pm.cashapp, o := truthyStr pm.other }
    if compact = { v := none, z := none, p := none, a := none, o := none } then none
    else some compact

/-- `fromCompactPayments` (lines 62-71), the symmetric expansion. -/
def fromCompactPayments (compact : Option CompactPaymentMethods) : Option PaymentMethods :=
  match compact with
  | none => none
  | some cm =>
    let payments : PaymentMethods :=
      { venmo := truthyStr cm.v, zelle := truthyStr cm.z, paypal := truthyStr cm.p
        cashapp := truthyStr cm.a, other := truthyStr cm.o }
    if payments = { venmo := none, zelle := none, paypal := none
                    cashapp := none, other := none } then none
    else some payments

/-- The per-person body of `toCompact` (lines 75-87). -/
def toCompactPerson (person : Person) : CompactPerson :=
  { i := person.id
    n := person.name
    t := person.items.map (fun item => CompactLineItem.mk item.id item.name item.amountCents)
    m := toCompactPayments person.payments }

/-- `toCompact` (lines 73-92); `c`/`e` are spread in only when truthy. -/
def toCompact (state : AppState) : CompactState :=
  { p := state.people.map toCompactPerson
    c := truthyStr state.currency
    e := truthyStr state.eventName }

/-- The per-person body of `fromCompact` (lines 96-107). -/
def fromCompactPerson (cp : CompactPerson) : Person :=
  { id := cp.i
    name := cp.n
    items := cp.t.map (fun item => LineItem.mk item.i item.n item.a)
    payments := fromCompactPayments cp.m } 

/-- `fromCompact` (lines 94-112). -/
def fromCompact (compact : CompactState) : AppState :=
  { people := compact.p.map fromCompactPerson
    currency := truthyStr compact.c
    eventName := truthyStr compact.e }

/-! JSON views of the two shapes.  `JSON.stringify` serialises the TS objects
with their keys in insertion order and optional keys simply absent; these
functions build exactly that `Json` value. -/

def optField (key : String) (v : Option String) : List (String × Json) :=
  match v with
  | some s => [(key, Json.str s)]
  | none => []

def compactItemJson (it : CompactLineItem) : Json :=
  .obj [("i", .str it.i), ("n", .str it.n), ("a", .num it.a)]

def compactPaymentsJson (m : CompactPaymentMethods) : Json :=
  .obj (optField "v" m.v ++ optField "z" m.z ++ optField "p" m.p
    ++ optField "a" m.a ++ optField "o" m.o)

def compactPersonJson (cp : CompactPerson) : Json :=
  .obj ([("i", .str cp.i), ("n", .str cp.n), ("t", .arr (cp.t.map compactItemJson))]
    ++ (match cp.m with
        | some m => [("m", compactPaymentsJson m)]
        | none => []))

def compactStateJson (cs : CompactState) : Json :=
  .obj (("p", Json.arr (cs.p.map compactPersonJson)) :: optField "c" cs.c ++ optField "e" cs.e)

def paymentMethodsJson (pm : PaymentMethods) : Json :=
  .obj (optField "venmo" pm.venmo ++ optField "zelle" pm.zelle
    ++ optField "paypal" pm.paypal ++ optField "cashapp" pm.cashapp
    ++ optField "other" pm.other)

def lineItemJson (it : LineItem) : Json :=
  .obj [("id", .str it.id), ("name", .str it.name), ("amountCents", .num it.amountCents)]

def personJson (p : Person) : Json :=
  .obj ([("id", .str p.id), ("name", .str p.name),
        ("items", .arr (p.items.map lineItemJson))]
    ++ (match p.payments with
        | some pm => [("payments", paymentMethodsJson pm)]
        | none => []))

/-- The full-key JSON form of an `AppState`, as `JSON.stringify` emits it. -/
def appStateJson (st : AppState) : Json :=
  .obj (("people", Json.arr (st.people.map personJson)) :: optField "currency" st.currency
    ++ optField "eventName" st.eventName)

/-! Reading the two shapes back off a parsed `Json` value.  JS object field
access `o.k` takes the last occurrence of a duplicated key; the decode path
casts the parsed object (`parsed as AppState`, `parsed as CompactState`)
without validation, so a payload whose fields are missing or mistyped yields
either a thrown `TypeError` (caught, `null`) or an ill-typed value.  This
typed model reads each field structurally and rejects (`none`) what the cast
would pass through as junk; on every shape the codec itself produces the two
agree. -/

def jsonFieldsGet : List (String × Json) → String → Option Json
  | [], _ => none
  | (k, v) :: ms, key =>
    match jsonFieldsGet ms key with
    | some r => some r
    | none => if k = key then some v else none

/-- `o.key` on a parsed JSON value (`none` when absent or not an object). -/
def jsonObjGet (j : Json) (key : String) : Option Json :=
  match j with
  | .obj ms => jsonFieldsGet ms key
  | _ => none

def jsonStr? : Json → Option String
  | .str s => some s
  | _ => none

def jsonInt? : Json → Option Int
  | .num n => some n
  | _ => none

def jsonArr? : Json → Option (List Json)
  | .arr es => some es
  | _ => none

/-- An optional string field: `key` present with a string value. -/
def jsonOptStr (j : Json) (key : String) : Option String :=
  (jsonObjGet j key).bind jsonStr?

def jsonCompactItem? (j : Json) : Option CompactLineItem := do
  let i ← jsonOptStr j "i"
  let n ← jsonOptStr j "n"
  let a ← (jsonObjGet j "a").bind jsonInt?
  pure { i := i, n := n, a := a }

/-- A compact payments object; a non-object `m` reads as field-free, which the
truthiness filter downstream collapses to "no payments" exactly as JS does. -/
def jsonCompactPayments? (j : Json) : Option CompactPaymentMethods :=
  match j with
  | .obj _ => some
    { v := jsonOptStr j "v", z := jsonOptStr j "z", p := jsonOptStr j "p"
      a := jsonOptStr j "a", o := jsonOptStr j "o" }
  | _ => none

def jsonCompactPerson? (j : Json) : Option CompactPerson := do
  let i ← jsonOptStr j "i"
  let n ← jsonOptStr j "n"
  let tj ← (jsonObjGet j "t").bind jsonArr?
  let t ← tj.mapM jsonCompactItem?
  pure { i := i, n := n, t := t
         m := (jsonObjGet j "m").bind jsonCompactPayments? }

def jsonCompactState? (j : Json) : Option CompactState := do
  let pj ← (jsonObjGet j "p").bind jsonArr?
  let ps ← pj.mapM jsonCompactPerson?
  pure { p := ps, c := jsonOptStr j "c", e := jsonOptStr j "e" }

def jsonPaymentMethods? (j : Json) : Option PaymentMethods :=
  match j with
  | .obj _ => some
    { venmo := jsonOptStr j "venmo", zelle := jsonOptStr j "zelle"
      paypal := jsonOptStr j "paypal", cashapp := jsonOptStr j "cashapp"
      other := jsonOptStr j "other" }
  | _ => none

def jsonLineItem? (j : Json) : Option LineItem := do
  let i ← jsonOptStr j "id"
  let n ← jsonOptStr j "name"
  let a ← (jsonObjGet j "amountCents").bind jsonInt?
  pure { id := i, name := n, amountCents := a }

def jsonPerson? (j : Json) : Option Person := do
  let i ← jsonOptStr j "id"
  let n ← jsonOptStr j "name"
  let itemsj ← (jsonObjGet j "items").bind jsonArr?
  let items ← itemsj.mapM jsonLineItem?
  pure { id := i, name := n, items := items
         payments := (jsonObjGet j "payments").bind jsonPaymentMethods? }

def jsonAppState? (j : Json) : Option AppState := do
  let pj ← (jsonObjGet j "people").bind jsonArr?
  let people ← pj.mapM jsonPerson?
  pure { people := people, currency := jsonOptStr j "currency"
         eventName := jsonOptStr j "eventName" }

/-! The public entry points. -/

/-- `encodeState` (lines 142-153): drop a falsy or default (`"$"`) currency,
compact, stringify, URL-safe base64.  Always `some` in fact. -/
def encodeState (state : AppState) : Option String :=
  let stateToEncode : AppState :=
    { state with currency :=
        match state.currency with
        | some c => if c = "" ∨ c = "$" then none else some c
        | none => none }
  let compact := toCompact stateToEncode
  let json := renderJson (compactStateJson compact)
  toBase64Url json

/-- The inner `try` of `decodeState` (lines 159-163): URL-safe decode, then a
`JSON.parse` validation whose result is discarded. -/
def urlSafeAttempt (encoded : String) : Option String :=
  match fromBase64Url encoded with
  | some json => if (jsonParse json).isSome then some json else none
  | none => none

/-- The `catch` fallback of `decodeState` (line 165):
`decodeURIComponent(atob(encoded))`. -/
def legacyAttempt (encoded : String) : Option String :=
  (atobCodes encoded.data).bind
    (fun bytes => (decodeURIComponentL (bytes.map Char.ofNat)).map String.mk)

/-- Lines 168-180: shape detection on the parsed value — a `people` array
means the full (old) format, a `p` array the compact one, anything else is a
failed decode. -/
def decodeParsed (parsed : Json) : Option AppState :=
  if ((jsonObjGet parsed "people").bind jsonArr?).isSome then jsonAppState? parsed
  else if ((jsonObjGet parsed "p").bind jsonArr?).isSome then
    (jsonCompactState? parsed).map fromCompact
  else none

/-- `decodeState` (lines 155-184): try the URL-safe scheme, fall back to the
legacy scheme, parse, detect the shape; every thrown error collapses to
`none`. -/
def decodeState (encoded : String) : Option AppState :=
  match (match urlSafeAttempt encoded with
         | some j => some j
         | none => legacyAttempt encoded) with
  | none => none
  | some json =>
    match jsonParse json with
    | none => none
    | some parsed => decodeParsed parsed

/-! The legacy (pre-URL-safe) producers, for the backward-compatibility
claim: the legacy file's `toCompact` knew no payments and no event name, and
its `encodeState` (lines 486-496) was `btoa(encodeURIComponent(json))`. -/

/-- The legacy file's `toCompact` (lines 456-469): people as `i`/`n`/`t`
only, plus a truthy currency. -/
def toCompactLegacy (state : AppState) : CompactState :=
  { p := state.people.map (fun person =>
      { i := person.id
        n := person.name
        t := person.items.map (fun item => CompactLineItem.mk item.id item.name item.amountCents)
        m := none })
    c := truthyStr state.currency
    e := none }

/-- The legacy `encodeState` (lines 486-496): same currency defaulting, legacy
compaction, then `btoa(encodeURIComponent(json))` — standard padding, no
URL-safe remapping. -/
def encodeStateLegacy (state : AppState) : Option String :=
  let stateToEncode : AppState :=
    { state with currency :=
        match state.currency with
        | some c => if c = "" ∨ c = "$" then none else some c
        | none => none }
  let json := renderJson (compactStateJson (toCompactLegacy stateToEncode))
  (btoa ((encodeURIComponentL json.data).map Char.toNat)).map String.mk

/-- A full-format legacy string, `btoa(encodeURIComponent(JSON.stringify(state)))`
with the original full keys (the "old format" of the decode tests). -/
def encodeLegacyFull (state : AppState) : Option String :=
  let json := renderJson (appStateJson state)
  (btoa ((encodeURIComponentL json.data).map Char.toNat)).map String.mk

/-! Validity: the shapes the UI's state operations actually produce, under
which encoding is lossless.  Optional text is stored as absent rather than
blank; a payments object keeps at least one field and no blank fields; cent
amounts are non-negative integers below 2^53 (exact in a JS number). -/

def validOptionalText : Option String → Bool
  | none => true
  | some s => s != ""

def validPayments : Option PaymentMethods → Bool
  | none => true
  | some pm =>
    (pm.venmo.isSome || pm.zelle.isSome || pm.paypal.isSome
      || pm.cashapp.isSome || pm.other.isSome)
    && validOptionalText pm.venmo && validOptionalText pm.zelle
    && validOptionalText pm.paypal && validOptionalText pm.cashapp
    && validOptionalText pm.other

def validAppState (st : AppState) : Bool :=
  (match st.currency with
   | some c => c != "" && c != "$"
   | none => true)
  && validOptionalText st.eventName
  && st.people.all (fun p =>
      validPayments p.payments
      && p.items.all (fun it =>
          decide (0 ≤ it.amountCents) && decide (it.amountCents < 2 ^ 53)))

/-! ## Persistence adapter (`workers/lib/db.ts`)

The D1 table `settlement_lists` (one row per id, id is the primary key) is
modelled as an association list; `Date.now()` is an explicit parameter.  The
`UPDATE ... WHERE id = ? AND version = ?` statement is a guarded row rewrite
returning the changed-row count. -/

/-- Mirrors `SettlementListRow` (`data` is the JSON text of the state). -/
structure SettlementListRow where
  data : String
  version : Int
  created_at : Int
  updated_at : Int
deriving DecidableEq

/-- Mirrors `SettlementList` (the parsed row returned to callers). -/
structure SettlementList where
  id : String
  data : AppState
  version : Int
  createdAt : Int
  updatedAt : Int
deriving DecidableEq

/-- The two error classes of `db.ts`, as a sum:
`NotFoundError(id)` and `VersionConflictError(expected, actual)`. -/
inductive DbError where
  | notFound (id : String) : DbError
  | versionConflict (expectedVersion actualVersion : Int) : DbError
deriving DecidableEq

/-- The table: rows keyed by id (unique in a well-formed database). -/
def Db : Type := List (String × SettlementListRow)

/-- `SELECT ... WHERE id = ?` on a keyed table. -/
def dbLookup (db : Db) (id : String) : Option SettlementListRow :=
  match db with
  | [] => none
  | (k, row) :: rest => if k = id then some row else dbLookup rest id

/-- `UPDATE settlement_lists SET ... WHERE id = ? AND version = ?`: rewrite
every matching row, and report the new table plus the changed count. -/
def dbUpdateWhere (db : Db) (id : String) (version : Int)
    (f : SettlementListRow → SettlementListRow) : Db × Nat :=
  match db with
  | [] => ([], 0)
  | (k, row) :: rest =>
    let (rest', changes) := dbUpdateWhere rest id version f
    if k = id ∧ row.version = version then ((k, f row) :: rest', changes + 1)
    else ((k, row) :: rest', changes)

/-- `updateList` (lines 131-171): optimistic-locking update.  Returns the
table after the `UPDATE` statement together with either the updated record or
the thrown error; `nowMs` is the `Date.now()` the call observed. -/
def updateList (db : Db) (nowMs : Int) (id : String) (data : AppState)
    (expectedVersion : Int) : Db × Except DbError SettlementList :=
  let jsonData := renderJson (appStateJson data)
  let newVersion := expectedVersion + 1
  let (db', changes) := dbUpdateWhere db id expectedVersion
    (fun row => { row with
        data := jsonData
        version := newVersion
        updated_at := nowMs })
  if changes = 0 then
    match dbLookup db id with
    | none => (db', .error (.notFound id))
    | some existing => (db', .error (.versionConflict expectedVersion existing.version))
  else
    (db', .ok { id := id, data := data, version := newVersion
                createdAt := 0, updatedAt := nowMs })

/-! ## Concrete inputs and shape predicates used by the claims -/

/-- "Absent or the empty string" — the claim's "zero non-empty string
fields" reads every field through this. -/
def blankField : Option String → Bool
  | none => true
  | some s => s == ""

/-- A payments value with zero non-empty string fields (absent counts). -/
def allBlankPayments : Option PaymentMethods → Bool
  | none => true
  | some pm =>
    blankField pm.venmo && blankField pm.zelle && blankField pm.paypal
      && blankField pm.cashapp && blankField pm.other

/-- A state whose currency is explicitly the default symbol. -/
def dollarState : AppState :=
  { people := [{ id := "p1", name := "Test", items := [], payments := none }]
    currency := some "$"
    eventName := none }

/-- `dollarState` with the currency absent — what its round trip returns. -/
def dollarStateStripped : AppState :=
  { people := [{ id := "p1", name := "Test", items := [], payments := none }]
    currency := none
    eventName := none }

/-- A round-trip exercise state: Unicode names, an empty item list, a zero
amount, an 8-digit amount, payment methods, a non-default currency and an
event name. -/
def richState : AppState :=
  { people := [
      { id := "abc1234", name := "José ✓"
        items := [{ id := "i1", name := "Café", amountCents := 0 },
                  { id := "i2", name := "Ski trip", amountCents := 99999999 }]
        payments := some { venmo := some "@José", zelle := none, paypal := none
                           cashapp := none, other := none } },
      { id := "def5678", name := "", items := [], payments := none } ]
    currency := some "€"
    eventName := some "Trip" }

/-- A legacy-shaped state: no payments, no event name. -/
def legacyShapedState : AppState :=
  { people := [
      { id := "p1", name := "Alice"
        items := [{ id := "i1", name := "Lunch", amountCents := 1500 }]
        payments := none },
      { id := "p2", name := "Bob", items := [], payments := none } ]
    currency := some "€"
    eventName := none }

/-- A modern state with payment methods, which the legacy compact scheme
cannot represent. -/
def paymentsState : AppState :=
  { people := [
      { id := "p1", name := "Alice", items := []
        payments := some { venmo := some "@alice", zelle := none, paypal := none
                           cashapp := none, other := none } } ]
    currency := none
    eventName := none }

/-- `paymentsState` as the legacy compact scheme round-trips it: payments
dropped. -/
def paymentsStateStripped : AppState :=
  { people := [{ id := "p1", name := "Alice", items := [], payments := none }]
    currency := none
    eventName := none }

/-- A JSON object carrying neither a `people` nor a `p` array. -/
def junkJson : Json := Json.obj [("foo", Json.str "bar")]

/-- A one-row table at version 3, for the update-protocol witness. -/
def witnessDb : Db :=
  [("L1", { data := "x", version := 3, created_at := 7, updated_at := 7 })]

/-- The shape the legacy compact scheme can represent: no payment methods on
any person and no event name. -/
def legacyShape (st : AppState) : Bool :=
  st.people.all (fun p => p.payments.isNone) && st.eventName.isNone

/-- A list that cannot extend a numeral: empty or headed by a non-digit. -/
def numStop (cs : List Char) : Bool :=
  match cs with
  | [] => true
  | c :: _ => ! isDigitCh c

/-! ## Lemmas about the settlement engine -/

theorem foldl_add_eq_sum_map {α : Type} (f : α → Int) :
    ∀ (l : List α) (a : Int), l.foldl (fun s x => s + f x) a = a + (l.map f).sum
  | [], a => by simp
  | x :: t, a => by
    rw [List.foldl_cons, foldl_add_eq_sum_map f t (a + f x)]
    simp [add_assoc]

theorem totalCentsOf_eq (people : List Person) :
    totalCentsOf people = ((validPeopleOf people).map calculateTotalCents).sum := by
  rw [totalCentsOf, foldl_add_eq_sum_map, zero_add]

theorem balSum_cons (b : PersonBalance) (l : List PersonBalance) :
    balSum (b :: l) = b.balanceCents + balSum l := by
  simp [balSum]

theorem balSum_nonneg {l : List PersonBalance} (h : ∀ b ∈ l, 0 ≤ b.balanceCents) :
    0 ≤ balSum l := by
  refine List.sum_nonneg ?_
  intro x hx
  obtain ⟨b, hb, rfl⟩ := List.mem_map.mp hx
  exact h b hb

theorem balSumName_cons (n : String) (b : PersonBalance) (l : List PersonBalance) :
    balSumName n (b :: l)
      = (if b.name = n then b.balanceCents else 0) + balSumName n l := by
  by_cases h : b.name = n
  · simp [balSumName, List.filter_cons, h]
  · simp [balSumName, List.filter_cons, h]

theorem balSumName_nonneg {l : List PersonBalance} (n : String)
    (h : ∀ b ∈ l, 0 ≤ b.balanceCents) : 0 ≤ balSumName n l := by
  refine List.sum_nonneg ?_
  intro x hx
  obtain ⟨b, hb, rfl⟩ := List.mem_map.mp hx
  exact h b (List.mem_of_mem_filter hb)

theorem insertDescBal_perm (x : PersonBalance) :
    ∀ l : List PersonBalance, List.Perm (insertDescBal x l) (x :: l)
  | [] => List.Perm.refl _
  | h :: t => by
    rw [insertDescBal]
    split
    · exact List.Perm.refl _
    · exact ((insertDescBal_perm x t).cons h).trans (List.Perm.swap x h t)

theorem sortDescBal_perm : ∀ l : List PersonBalance, List.Perm (sortDescBal l) l
  | [] => List.Perm.refl _
  | h :: t => (insertDescBal_perm h (sortDescBal t)).trans ((sortDescBal_perm t).cons h)

theorem settleGreedyAux_cons (fuel : Nat) (d c : PersonBalance)
    (ds cs : List PersonBalance) :
    settleGreedyAux (fuel + 1) (d :: ds) (c :: cs)
      = (if 0 < min d.balanceCents c.balanceCents
          then [Settlement.mk d.name c.name (min d.balanceCents c.balanceCents)]
          else [])
        ++ (if d.balanceCents - min d.balanceCents c.balanceCents = 0 then
              (if c.balanceCents - min d.balanceCents c.balanceCents = 0 then
                settleGreedyAux fuel ds cs
               else
                settleGreedyAux fuel ds
                  ({ name := c.name
                     balanceCents :=
                       c.balanceCents - min d.balanceCents c.balanceCents } :: cs))
            else
              settleGreedyAux fuel
                ({ name := d.name
                   balanceCents :=
                     d.balanceCents - min d.balanceCents c.balanceCents } :: ds) cs) :=
  rfl

theorem settlementsTotal_append (l₁ l₂ : List Settlement) :
    settlementsTotal (l₁ ++ l₂) = settlementsTotal l₁ + settlementsTotal l₂ := by
  simp [settlementsTotal]

theorem settlementsTotal_step (x y : String) (a : Int) (rest : List Settlement)
    (h : 0 ≤ a) :
    settlementsTotal ((if 0 < a then [Settlement.mk x y a] else []) ++ rest)
      = a + settlementsTotal rest := by
  by_cases hp : 0 < a
  · simp [settlementsTotal, hp]
  · have ha : a = 0 := le_antisymm (not_lt.mp hp) h
    simp [settlementsTotal, hp, ha]

theorem receivedBy_step (n x y : String) (a : Int) (rest : List Settlement) :
    receivedBy n ((if 0 < a then [Settlement.mk x y a] else []) ++ rest)
      = (if 0 < a then (if y = n then a else 0) else 0) + receivedBy n rest := by
  by_cases hp : 0 < a
  · by_cases hy : y = n
    · simp [receivedBy, List.filter_append, List.filter_cons, hp, hy]
    · simp [receivedBy, List.filter_append, List.filter_cons, hp, hy]
  · simp [receivedBy, List.filter_append, hp]

theorem settleGreedyAux_total : ∀ (fuel : Nat) (d c : List PersonBalance),
    d.length + c.length ≤ fuel →
    (∀ b ∈ d, 0 ≤ b.balanceCents) →
    (∀ b ∈ c, 0 ≤ b.balanceCents) →
    settlementsTotal (settleGreedyAux fuel d c) = min (balSum d) (balSum c)
  | fuel, [], c, _, _, hc => by
    have h0 : 0 ≤ balSum c := balSum_nonneg hc
    have hmin : min (0 : Int) (balSum c) = 0 := min_eq_left h0
    show settlementsTotal (settleGreedyAux fuel [] c) = min (balSum []) (balSum c)
    rw [show balSum ([] : List PersonBalance) = 0 from rfl, hmin]
    simp [settleGreedyAux, settlementsTotal]
  | fuel, d :: ds, [], _, hd, _ => by
    have h0 : 0 ≤ balSum (d :: ds) := balSum_nonneg hd
    have hmin : min (balSum (d :: ds)) (0 : Int) = 0 := min_eq_right h0
    show settlementsTotal (settleGreedyAux fuel (d :: ds) []) = min (balSum (d :: ds)) (balSum [])
    rw [show balSum ([] : List PersonBalance) = 0 from rfl, hmin]
    simp [settleGreedyAux, settlementsTotal]
  | 0, d :: ds, c :: cs, h, _, _ => by
    simp only [List.length_cons] at h
    omega
  | fuel + 1, d :: ds, c :: cs, h, hd, hc => by
    have hd0 : 0 ≤ d.balanceCents := hd d (List.mem_cons_self d ds)
    have hc0 : 0 ≤ c.balanceCents := hc c (List.mem_cons_self c cs)
    have hmin := min_choice d.balanceCents c.balanceCents
    have hda : min d.balanceCents c.balanceCents ≤ d.balanceCents := min_le_left _ _
    have hca : min d.balanceCents c.balanceCents ≤ c.balanceCents := min_le_right _ _
    have ha0 : 0 ≤ min d.balanceCents c.balanceCents := le_min hd0 hc0
    have hlen : ds.length + cs.length + 2 ≤ fuel + 1 := by
      simpa [Nat.add_assoc, Nat.add_comm, Nat.add_left_comm] using h
    rw [settleGreedyAux_cons, settlementsTotal_step _ _ _ _ ha0]
    by_cases h1 : d.balanceCents - min d.balanceCents c.balanceCents = 0
    · by_cases h2 : c.balanceCents - min d.balanceCents c.balanceCents = 0
      · rw [if_pos h1, if_pos h2,
          settleGreedyAux_total fuel ds cs (by omega)
            (fun b hb => hd b (List.mem_cons_of_mem d hb))
            (fun b hb => hc b (List.mem_cons_of_mem c hb)),
          balSum_cons, balSum_cons, ← min_add_add_left]
        congr 1 <;> omega
      · rw [if_pos h1, if_neg h2,
          settleGreedyAux_total fuel ds
            ({ name := c.name
               balanceCents := c.balanceCents - min d.balanceCents c.balanceCents } :: cs)
            (by simp only [List.length_cons]; omega)
            (fun b hb => hd b (List.mem_cons_of_mem d hb))
            (by
              intro b hb
              rcases List.mem_cons.mp hb with rfl | hb
              · dsimp only
                omega
              · exact hc b (List.mem_cons_of_mem c hb)),
          balSum_cons, balSum_cons, balSum_cons, ← min_add_add_left]
        congr 1 <;> dsimp only <;> omega
    · have h2 : c.balanceCents - min d.balanceCents c.balanceCents = 0 := by omega
      rw [if_neg h1,
        settleGreedyAux_total fuel
          ({ name := d.name
             balanceCents := d.balanceCents - min d.balanceCents c.balanceCents } :: ds) cs
          (by simp only [List.length_cons]; omega)
          (by
            intro b hb
            rcases List.mem_cons.mp hb with rfl | hb
            · dsimp only
              omega
            · exact hd b (List.mem_cons_of_mem d hb))
          (fun b hb => hc b (List.mem_cons_of_mem c hb)),
        balSum_cons, balSum_cons, balSum_cons, ← min_add_add_left]
      congr 1 <;> dsimp only <;> omega

theorem settleGreedyAux_pos : ∀ (fuel : Nat) (d c : List PersonBalance),
    ∀ s ∈ settleGreedyAux fuel d c, 0 < s.amountCents
  | fuel, [], c => by simp [settleGreedyAux]
  | fuel, d :: ds, [] => by simp [settleGreedyAux]
  | 0, d :: ds, c :: cs => by simp [settleGreedyAux]
  | fuel + 1, d :: ds, c :: cs => by
    intro s hs
    rw [settleGreedyAux_cons] at hs
    rcases List.mem_append.mp hs with hstep | hrest
    · by_cases hp : 0 < min d.balanceCents c.balanceCents
      · rw [if_pos hp] at hstep
        rcases List.mem_singleton.mp hstep with rfl
        exact hp
      · rw [if_neg hp] at hstep
        exact absurd hstep (List.not_mem_nil s)
    · by_cases h1 : d.balanceCents - min d.balanceCents c.balanceCents = 0
      · by_cases h2 : c.balanceCents - min d.balanceCents c.balanceCents = 0
        · rw [if_pos h1, if_pos h2] at hrest
          exact settleGreedyAux_pos fuel ds cs s hrest
        · rw [if_pos h1, if_neg h2] at hrest
          exact settleGreedyAux_pos fuel ds _ s hrest
      · rw [if_neg h1] at hrest
        exact settleGreedyAux_pos fuel _ cs s hrest

theorem settleGreedyAux_names : ∀ (fuel : Nat) (d c : List PersonBalance),
    ∀ s ∈ settleGreedyAux fuel d c,
      s.from_ ∈ d.map PersonBalance.name ∧ s.to_ ∈ c.map PersonBalance.name
  | fuel, [], c => by simp [settleGreedyAux]
  | fuel, d :: ds, [] => by simp [settleGreedyAux]
  | 0, d :: ds, c :: cs => by simp [settleGreedyAux]
  | fuel + 1, d :: ds, c :: cs => by
    intro s hs
    rw [settleGreedyAux_cons] at hs
    rcases List.mem_append.mp hs with hstep | hrest
    · by_cases hp : 0 < min d.balanceCents c.balanceCents
      · rw [if_pos hp] at hstep
        rcases List.mem_singleton.mp hstep with rfl
        constructor
        · exact List.mem_map.mpr ⟨d, List.mem_cons_self d ds, rfl⟩
        · exact List.mem_map.mpr ⟨c, List.mem_cons_self c cs, rfl⟩
      · rw [if_neg hp] at hstep
        exact absurd hstep (List.not_mem_nil s)
    · by_cases h1 : d.balanceCents - min d.balanceCents c.balanceCents = 0
      · by_cases h2 : c.balanceCents - min d.balanceCents c.balanceCents = 0
        · rw [if_pos h1, if_pos h2] at hrest
          obtain ⟨hf, ht⟩ := settleGreedyAux_names fuel ds cs s hrest
          exact ⟨by simp only [List.map_cons]; exact List.mem_cons_of_mem _ hf,
                 by simp only [List.map_cons]; exact List.mem_cons_of_mem _ ht⟩
        · rw [if_pos h1, if_neg h2] at hrest
          obtain ⟨hf, ht⟩ := settleGreedyAux_names fuel ds _ s hrest
          refine ⟨by simp only [List.map_cons]; exact List.mem_cons_of_mem _ hf, ?_⟩
          simpa only [List.map_cons] using ht
      · rw [if_neg h1] at hrest
        obtain ⟨hf, ht⟩ := settleGreedyAux_names fuel _ cs s hrest
        refine ⟨?_, by simp only [List.map_cons]; exact List.mem_cons_of_mem _ ht⟩
        simpa only [List.map_cons] using hf

theorem settleGreedyAux_recv : ∀ (fuel : Nat) (d c : List PersonBalance) (n : String),
    (∀ b ∈ d, 0 ≤ b.balanceCents) →
    (∀ b ∈ c, 0 ≤ b.balanceCents) →
    receivedBy n (settleGreedyAux fuel d c) ≤ balSumName n c
  | fuel, [], c, n, _, hc => by
    simpa [settleGreedyAux, receivedBy] using balSumName_nonneg n hc
  | fuel, d :: ds, [], n, _, _ => by
    simp [settleGreedyAux, receivedBy, balSumName]
  | 0, d :: ds, c :: cs, n, _, hc => by
    simpa [settleGreedyAux, receivedBy] using balSumName_nonneg n hc
  | fuel + 1, d :: ds, c :: cs, n, hd, hc => by
    have hd0 : 0 ≤ d.balanceCents := hd d (List.mem_cons_self d ds)
    have hc0 : 0 ≤ c.balanceCents := hc c (List.mem_cons_self c cs)
    have hda : min d.balanceCents c.balanceCents ≤ d.balanceCents := min_le_left _ _
    have hca : min d.balanceCents c.balanceCents ≤ c.balanceCents := min_le_right _ _
    have ha0 : 0 ≤ min d.balanceCents c.balanceCents := le_min hd0 hc0
    have hchoice := min_choice d.balanceCents c.balanceCents
    rw [settleGreedyAux_cons, receivedBy_step, balSumName_cons]
    have IH1 := settleGreedyAux_recv fuel ds cs n
      (fun b hb => hd b (List.mem_cons_of_mem d hb))
      (fun b hb => hc b (List.mem_cons_of_mem c hb))
    by_cases h1 : d.balanceCents - min d.balanceCents c.balanceCents = 0
    · by_cases h2 : c.balanceCents - min d.balanceCents c.balanceCents = 0
      · rw [if_pos h1, if_pos h2]
        by_cases hp : 0 < min d.balanceCents c.balanceCents
        · rw [if_pos hp]
          by_cases hn : c.name = n
          · rw [if_pos hn, if_pos hn]
            omega
          · rw [if_neg hn, if_neg hn]
            omega
        · rw [if_neg hp]
          by_cases hn : c.name = n
          · rw [if_pos hn]
            omega
          · rw [if_neg hn]
            omega
      · rw [if_pos h1, if_neg h2]
        have IH2 := settleGreedyAux_recv fuel ds
          ({ name := c.name
             balanceCents := c.balanceCents - min d.balanceCents c.balanceCents } :: cs) n
          (fun b hb => hd b (List.mem_cons_of_mem d hb))
          (by
            intro b hb
            rcases List.mem_cons.mp hb with rfl | hb
            · dsimp only
              omega
            · exact hc b (List.mem_cons_of_mem c hb))
        rw [balSumName_cons] at IH2
        dsimp only at IH2
        by_cases hp : 0 < min d.balanceCents c.balanceCents
        · rw [if_pos hp]
          by_cases hn : c.name = n
          · rw [if_pos hn]
            rw [if_pos hn] at IH2 ⊢
            omega
          · rw [if_neg hn]
            rw [if_neg hn] at IH2 ⊢
            omega
        · rw [if_neg hp]
          by_cases hn : c.name = n
          · rw [if_pos hn] at IH2 ⊢
            omega
          · rw [if_neg hn] at IH2 ⊢
            omega
    · have h2 : c.balanceCents - min d.balanceCents c.balanceCents = 0 := by omega
      rw [if_neg h1]
      have IH3 := settleGreedyAux_recv fuel
        ({ name := d.name
           balanceCents := d.balanceCents - min d.balanceCents c.balanceCents } :: ds) cs n
        (by
          intro b hb
          rcases List.mem_cons.mp hb with rfl | hb
          · dsimp only
            omega
          · exact hd b (List.mem_cons_of_mem d hb))
        (fun b hb => hc b (List.mem_cons_of_mem c hb))
      by_cases hp : 0 < min d.balanceCents c.balanceCents
      · rw [if_pos hp]
        by_cases hn : c.name = n
        · rw [if_pos hn, if_pos hn]
          omega
        · rw [if_neg hn, if_neg hn]
          omega
      · rw [if_neg hp]
        by_cases hn : c.name = n
        · rw [if_pos hn]
          omega
        · rw [if_neg hn]
          omega

/-! Bridging the sorted debtor/creditor lists back to the balance list. -/

theorem balSum_of_perm {l l' : List PersonBalance} (h : List.Perm l l') :
    balSum l = balSum l' :=
  (h.map PersonBalance.balanceCents).sum_eq

theorem balSumName_of_perm (n : String) {l l' : List PersonBalance}
    (h : List.Perm l l') : balSumName n l = balSumName n l' := by
  unfold balSumName
  exact ((h.filter (fun b => b.name == n)).map PersonBalance.balanceCents).sum_eq

theorem balancesOf_names (people : List Person) :
    (balancesOf people).map PersonBalance.name
      = (validPeopleOf people).map Person.name := by
  simp [balancesOf, List.map_map, Function.comp_def]

theorem sum_map_sub_const {α : Type} (f : α → Int) (k : Int) : ∀ l : List α,
    (l.map (fun x => f x - k)).sum = (l.map f).sum - l.length * k
  | [] => by simp
  | x :: t => by
    simp only [List.map_cons, List.sum_cons, sum_map_sub_const f k t, List.length_cons]
    push_cast
    ring

theorem balSum_balancesOf (people : List Person) :
    balSum (balancesOf people)
      = totalCentsOf people
        - ((validPeopleOf people).length : Int) * fairShareCentsOf people := by
  rw [balSum, balancesOf, List.map_map]
  have : (PersonBalance.balanceCents ∘ fun person => PersonBalance.mk person.name
      (calculateTotalCents person - fairShareCentsOf people))
      = fun person => calculateTotalCents person - fairShareCentsOf people := rfl
  rw [this, sum_map_sub_const, totalCentsOf_eq]

theorem balSum_filter_split : ∀ l : List PersonBalance,
    balSum (l.filter (fun b => 0 < b.balanceCents))
      + balSum (l.filter (fun b => b.balanceCents < 0)) = balSum l
  | [] => by simp [balSum]
  | b :: t => by
    have IH := balSum_filter_split t
    by_cases h1 : 0 < b.balanceCents
    · have h2 : ¬ b.balanceCents < 0 := by omega
      simp [List.filter_cons, h1, h2, balSum_cons]
      omega
    · by_cases h2 : b.balanceCents < 0
      · simp [List.filter_cons, h1, h2, balSum_cons]
        omega
      · have h0 : b.balanceCents = 0 := by omega
        simp [List.filter_cons, h1, h2, balSum_cons]
        omega

theorem filter_neg_abs (k : Int) : ∀ l : List Person,
    ((l.map (fun q => PersonBalance.mk q.name (calculateTotalCents q - k))).filter
        (fun b => b.balanceCents < 0)).map
      (fun b => { b with balanceCents := |b.balanceCents| })
    = (l.filter (fun q => calculateTotalCents q < k)).map
        (fun q => PersonBalance.mk q.name (k - calculateTotalCents q))
  | [] => by simp
  | q :: t => by
    by_cases h : calculateTotalCents q < k
    · have hb : calculateTotalCents q - k < 0 := by omega
      have habs : |calculateTotalCents q - k| = k - calculateTotalCents q := by
        rw [abs_of_neg hb]
        ring
      simp only [List.map_cons, List.filter_cons]
      rw [if_pos (by simpa using hb), if_pos (by simpa using h), List.map_cons,
        filter_neg_abs k t, List.map_cons]
      congr 1
      simp [habs]
    · have hb : ¬ (calculateTotalCents q - k < 0) := by omega
      simp only [List.map_cons, List.filter_cons]
      rw [if_neg (by simpa using hb), if_neg (by simpa using h)]
      exact filter_neg_abs k t

theorem filter_pos_eq (k : Int) : ∀ l : List Person,
    (l.map (fun q => PersonBalance.mk q.name (calculateTotalCents q - k))).filter
        (fun b => 0 < b.balanceCents)
    = (l.filter (fun q => k < calculateTotalCents q)).map
        (fun q => PersonBalance.mk q.name (calculateTotalCents q - k))
  | [] => by simp
  | q :: t => by
    by_cases h : k < calculateTotalCents q
    · have hb : 0 < calculateTotalCents q - k := by omega
      simp only [List.map_cons, List.filter_cons]
      rw [if_pos (by simpa using hb), if_pos (by simpa using h), List.map_cons,
        filter_pos_eq k t]
    · have hb : ¬ (0 < calculateTotalCents q - k) := by omega
      simp only [List.map_cons, List.filter_cons]
      rw [if_neg (by simpa using hb), if_neg (by simpa using h)]
      exact filter_pos_eq k t

theorem debtors_unsorted_eq (people : List Person) :
    ((balancesOf people).filter (fun b => b.balanceCents < 0)).map
      (fun b => { b with balanceCents := |b.balanceCents| })
    = ((validPeopleOf people).filter
        (fun p => calculateTotalCents p < fairShareCentsOf people)).map
        (fun p => PersonBalance.mk p.name
          (fairShareCentsOf people - calculateTotalCents p)) := by
  rw [balancesOf]
  exact filter_neg_abs _ _

theorem creditors_unsorted_eq (people : List Person) :
    (balancesOf people).filter (fun b => 0 < b.balanceCents)
    = ((validPeopleOf people).filter
        (fun p => fairShareCentsOf people < calculateTotalCents p)).map
        (fun p => PersonBalance.mk p.name
          (calculateTotalCents p - fairShareCentsOf people)) := by
  rw [balancesOf]
  exact filter_pos_eq _ _

theorem balSum_debtorsOf (people : List Person) :
    balSum (debtorsOf people)
      = (((validPeopleOf people).filter
          (fun p => calculateTotalCents p < fairShareCentsOf people)).map
          (fun p => fairShareCentsOf people - calculateTotalCents p)).sum := by
  rw [debtorsOf, balSum_of_perm (sortDescBal_perm _), debtors_unsorted_eq, balSum,
    List.map_map]
  rfl

theorem balSum_creditorsOf (people : List Person) :
    balSum (creditorsOf people)
      = (((validPeopleOf people).filter
          (fun p => fairShareCentsOf people < calculateTotalCents p)).map
          (fun p => calculateTotalCents p - fairShareCentsOf people)).sum := by
  rw [creditorsOf, balSum_of_perm (sortDescBal_perm _), creditors_unsorted_eq, balSum,
    List.map_map]
  rfl

theorem balSum_map_abs_neg : ∀ l : List PersonBalance,
    balSum ((l.filter (fun b => b.balanceCents < 0)).map
      (fun b => { b with balanceCents := |b.balanceCents| }))
      = - balSum (l.filter (fun b => b.balanceCents < 0))
  | [] => by simp [balSum]
  | b :: t => by
    by_cases h : b.balanceCents < 0
    · have habs : |b.balanceCents| = - b.balanceCents := abs_of_neg h
      simp only [List.filter_cons]
      rw [if_pos (by simpa using h), List.map_cons, balSum_cons, balSum_cons,
        balSum_map_abs_neg t]
      dsimp only
      omega
    · simp only [List.filter_cons]
      rw [if_neg (by simpa using h)]
      exact balSum_map_abs_neg t

theorem remainder_eq_fmod (people : List Person) :
    totalCentsOf people
      - ((validPeopleOf people).length : Int) * fairShareCentsOf people
      = Int.fmod (totalCentsOf people) ((validPeopleOf people).length : Int) := by
  have h := Int.fmod_add_fdiv (totalCentsOf people)
    ((validPeopleOf people).length : Int)
  rw [fairShareCentsOf]
  omega

theorem remainder_bounds (people : List Person)
    (h : 0 < (validPeopleOf people).length) :
    0 ≤ totalCentsOf people
        - ((validPeopleOf people).length : Int) * fairShareCentsOf people
    ∧ totalCentsOf people
        - ((validPeopleOf people).length : Int) * fairShareCentsOf people
      ≤ ((validPeopleOf people).length : Int) - 1 := by
  rw [remainder_eq_fmod]
  have hpos : (0 : Int) < ((validPeopleOf people).length : Int) := by
    exact_mod_cast h
  exact ⟨Int.fmod_nonneg' _ hpos, by
    have := Int.fmod_lt_of_pos (totalCentsOf people) hpos
    omega⟩

theorem balSum_debtors_le_creditors (people : List Person)
    (h : 0 < (validPeopleOf people).length) :
    balSum (debtorsOf people) ≤ balSum (creditorsOf people) := by
  have hsplit := balSum_filter_split (balancesOf people)
  have hbal := balSum_balancesOf people
  have hrem := (remainder_bounds people h).1
  have hd : balSum (debtorsOf people)
      = - balSum ((balancesOf people).filter (fun b => b.balanceCents < 0)) := by
    rw [debtorsOf, balSum_of_perm (sortDescBal_perm _), balSum_map_abs_neg]
  have hc : balSum (creditorsOf people)
      = balSum ((balancesOf people).filter (fun b => 0 < b.balanceCents)) := by
    rw [creditorsOf, balSum_of_perm (sortDescBal_perm _)]
  omega

theorem calculateTotalCents_nonneg {p : Person}
    (h : ∀ it ∈ p.items, 0 ≤ it.amountCents) : 0 ≤ calculateTotalCents p := by
  rw [calculateTotalCents, foldl_add_eq_sum_map, zero_add]
  refine List.sum_nonneg ?_
  intro x hx
  obtain ⟨it, hit, rfl⟩ := List.mem_map.mp hx
  exact h it hit

theorem debtorsOf_nonneg (people : List Person) :
    ∀ b ∈ debtorsOf people, 0 ≤ b.balanceCents := by
  intro b hb
  rw [debtorsOf] at hb
  rw [(sortDescBal_perm _).mem_iff] at hb
  obtain ⟨b', _, rfl⟩ := List.mem_map.mp hb
  exact abs_nonneg _

theorem creditorsOf_nonneg (people : List Person) :
    ∀ b ∈ creditorsOf people, 0 ≤ b.balanceCents := by
  intro b hb
  rw [creditorsOf] at hb
  rw [(sortDescBal_perm _).mem_iff] at hb
  have := (List.mem_filter.mp hb).2
  have := of_decide_eq_true this
  omega

theorem balSumName_creditorsOf (people : List Person) (n : String) :
    balSumName n (creditorsOf people)
      = (((validPeopleOf people).filter
          (fun p => p.name == n
            && decide (fairShareCentsOf people < calculateTotalCents p))).map
          (fun p => calculateTotalCents p - fairShareCentsOf people)).sum := by
  rw [creditorsOf, balSumName_of_perm n (sortDescBal_perm _), balSumName,
    creditors_unsorted_eq, List.filter_map, List.map_map, List.filter_filter]
  rfl

/-- `calculateSettlements` with at least two valid people runs the greedy
matcher on the sorted lists. -/
theorem calculateSettlements_eq (people : List Person)
    (h2 : 2 ≤ (validPeopleOf people).length) :
    calculateSettlements people
      = settleGreedyAux ((debtorsOf people).length + (creditorsOf people).length)
          (debtorsOf people) (creditorsOf people) := by
  rw [calculateSettlements, if_neg (by omega)]
  rfl

/-- **C3**: for people with non-negative item amounts and at least two
non-blank names, the greedy settlement fully settles every debtor: the total
transferred equals the sum of debtor deficits `fairShare - paidTotal`; every
settlement amount is strictly positive; no creditor name receives more than
the positive balances carried by that name; and the shortfall left to
creditors equals `total - count * floor(total / count)`, which lies between
`0` and `count - 1`. -/
theorem claim_C3 (people : List Person)
    (_hnn : ∀ p ∈ people, ∀ it ∈ p.items, 0 ≤ it.amountCents)
    (h2 : 2 ≤ (validPeopleOf people).length) :
    settlementsTotal (calculateSettlements people)
        = (((validPeopleOf people).filter
            (fun p => calculateTotalCents p < fairShareCentsOf people)).map
            (fun p => fairShareCentsOf people - calculateTotalCents p)).sum
    ∧ (∀ s ∈ calculateSettlements people, 0 < s.amountCents)
    ∧ (∀ n : String,
        receivedBy n (calculateSettlements people)
          ≤ (((validPeopleOf people).filter
              (fun p => p.name == n
                && decide (fairShareCentsOf people < calculateTotalCents p))).map
              (fun p => calculateTotalCents p - fairShareCentsOf people)).sum)
    ∧ (((validPeopleOf people).filter
          (fun p => fairShareCentsOf people < calculateTotalCents p)).map
          (fun p => calculateTotalCents p - fairShareCentsOf people)).sum
        - settlementsTotal (calculateSettlements people)
        = totalCentsOf people
          - ((validPeopleOf people).length : Int) * fairShareCentsOf people
    ∧ 0 ≤ totalCentsOf people
          - ((validPeopleOf people).length : Int) * fairShareCentsOf people
    ∧ totalCentsOf people
          - ((validPeopleOf people).length : Int) * fairShareCentsOf people
        ≤ ((validPeopleOf people).length : Int) - 1 := by
  have hpos : 0 < (validPeopleOf people).length := by omega
  have hde := debtorsOf_nonneg people
  have hce := creditorsOf_nonneg people
  have heq := calculateSettlements_eq people h2
  have htot : settlementsTotal (calculateSettlements people)
      = balSum (debtorsOf people) := by
    rw [heq, settleGreedyAux_total _ _ _ (Nat.le_refl _) hde hce]
    exact min_eq_left (balSum_debtors_le_creditors people hpos)
  refine ⟨?_, ?_, ?_, ?_, (remainder_bounds people hpos).1,
    (remainder_bounds people hpos).2⟩
  · rw [htot, balSum_debtorsOf]
  · intro s hs
    rw [heq] at hs
    exact settleGreedyAux_pos _ _ _ s hs
  · intro n
    rw [heq, ← balSumName_creditorsOf]
    exact settleGreedyAux_recv _ _ _ n hde hce
  · rw [htot]
    have hd : balSum (debtorsOf people)
        = - balSum ((balancesOf people).filter (fun b => b.balanceCents < 0)) := by
      rw [debtorsOf, balSum_of_perm (sortDescBal_perm _), balSum_map_abs_neg]
    have hc : balSum (creditorsOf people)
        = balSum ((balancesOf people).filter (fun b => 0 < b.balanceCents)) := by
      rw [creditorsOf, balSum_of_perm (sortDescBal_perm _)]
    have hsplit := balSum_filter_split (balancesOf people)
    have hbal := balSum_balancesOf people
    have hcr := balSum_creditorsOf people
    rw [← hcr]
    omega

/-- Closed witness for C3 at the spec's concrete scenario. -/
theorem claim_C3_witness :
    ((∀ p ∈ scenarioPeople, ∀ it ∈ p.items, 0 ≤ it.amountCents)
      ∧ 2 ≤ (validPeopleOf scenarioPeople).length)
    ∧ (settlementsTotal (calculateSettlements scenarioPeople)
        = (((validPeopleOf scenarioPeople).filter
            (fun p => calculateTotalCents p < fairShareCentsOf scenarioPeople)).map
            (fun p => fairShareCentsOf scenarioPeople - calculateTotalCents p)).sum
      ∧ (∀ s ∈ calculateSettlements scenarioPeople, 0 < s.amountCents)
      ∧ (∀ n : String,
          receivedBy n (calculateSettlements scenarioPeople)
            ≤ (((validPeopleOf scenarioPeople).filter
                (fun p => p.name == n
                  && decide (fairShareCentsOf scenarioPeople
                      < calculateTotalCents p))).map
                (fun p => calculateTotalCents p
                  - fairShareCentsOf scenarioPeople)).sum)
      ∧ (((validPeopleOf scenarioPeople).filter
            (fun p => fairShareCentsOf scenarioPeople < calculateTotalCents p)).map
            (fun p => calculateTotalCents p - fairShareCentsOf scenarioPeople)).sum
          - settlementsTotal (calculateSettlements scenarioPeople)
          = totalCentsOf scenarioPeople
            - ((validPeopleOf scenarioPeople).length : Int)
              * fairShareCentsOf scenarioPeople
      ∧ 0 ≤ totalCentsOf scenarioPeople
            - ((validPeopleOf scenarioPeople).length : Int)
              * fairShareCentsOf scenarioPeople
      ∧ totalCentsOf scenarioPeople
            - ((validPeopleOf scenarioPeople).length : Int)
              * fairShareCentsOf scenarioPeople
          ≤ ((validPeopleOf scenarioPeople).length : Int) - 1) :=
  ⟨⟨by decide, by decide⟩, claim_C3 scenarioPeople (by decide) (by decide)⟩

/-- **C6**: with at least two valid participants the fair share is the integer
floor of `total / count` — characterised by `count * fair ≤ total <
count * (fair + 1)` — and the division remainder appears in nobody's balance:
every balance is exactly `paidTotal - fairShare`, with the remainder
`total - count * fair` left unassigned (between 0 and `count - 1`). -/
theorem claim_C6 (people : List Person)
    (h2 : 2 ≤ (validPeopleOf people).length) :
    ((validPeopleOf people).length : Int) * fairShareCentsOf people
        ≤ totalCentsOf people
    ∧ totalCentsOf people
        < ((validPeopleOf people).length : Int) * (fairShareCentsOf people + 1)
    ∧ balancesOf people
        = (validPeopleOf people).map (fun p =>
            PersonBalance.mk p.name
              (calculateTotalCents p - fairShareCentsOf people))
    ∧ 0 ≤ totalCentsOf people
          - ((validPeopleOf people).length : Int) * fairShareCentsOf people
    ∧ totalCentsOf people
          - ((validPeopleOf people).length : Int) * fairShareCentsOf people
        ≤ ((validPeopleOf people).length : Int) - 1 := by
  have hpos : 0 < (validPeopleOf people).length := by omega
  obtain ⟨hr0, hr1⟩ := remainder_bounds people hpos
  refine ⟨by omega, ?_, rfl, hr0, hr1⟩
  have hexp : ((validPeopleOf people).length : Int) * (fairShareCentsOf people + 1)
      = ((validPeopleOf people).length : Int) * fairShareCentsOf people
        + ((validPeopleOf people).length : Int) := by ring
  omega

/-- Closed witness for C6: 100 cents split three ways has fair share 33. -/
theorem claim_C6_witness :
    (2 ≤ (validPeopleOf centSplitPeople).length
      ∧ totalCentsOf centSplitPeople = 100
      ∧ (validPeopleOf centSplitPeople).length = 3
      ∧ fairShareCentsOf centSplitPeople = 33)
    ∧ (((validPeopleOf centSplitPeople).length : Int)
          * fairShareCentsOf centSplitPeople ≤ totalCentsOf centSplitPeople
      ∧ totalCentsOf centSplitPeople
          < ((validPeopleOf centSplitPeople).length : Int)
            * (fairShareCentsOf centSplitPeople + 1)
      ∧ balancesOf centSplitPeople
          = (validPeopleOf centSplitPeople).map (fun p =>
              PersonBalance.mk p.name
                (calculateTotalCents p - fairShareCentsOf centSplitPeople))
      ∧ 0 ≤ totalCentsOf centSplitPeople
            - ((validPeopleOf centSplitPeople).length : Int)
              * fairShareCentsOf centSplitPeople
      ∧ totalCentsOf centSplitPeople
            - ((validPeopleOf centSplitPeople).length : Int)
              * fairShareCentsOf centSplitPeople
          ≤ ((validPeopleOf centSplitPeople).length : Int) - 1) :=
  ⟨by decide, claim_C6 centSplitPeople (by decide)⟩

/-- **C7**: people whose trimmed name is blank are excluded from the divisor
count, from the pooled total and from the result: removing them from the
input changes nothing. -/
theorem claim_C7 (people : List Person) :
    calculateSettlements (people.filter (fun p => jsTrim p.name != ""))
        = calculateSettlements people
    ∧ validPeopleOf (people.filter (fun p => jsTrim p.name != ""))
        = validPeopleOf people
    ∧ totalCentsOf (people.filter (fun p => jsTrim p.name != ""))
        = totalCentsOf people
    ∧ fairShareCentsOf (people.filter (fun p => jsTrim p.name != ""))
        = fairShareCentsOf people := by
  have hv : validPeopleOf (people.filter (fun p => jsTrim p.name != ""))
      = validPeopleOf people := by
    rw [validPeopleOf, List.filter_filter]
    refine List.filter_congr ?_
    intro p _
    rw [Bool.and_self]
  refine ⟨?_, hv, ?_, ?_⟩
  · rw [calculateSettlements, calculateSettlements, hv, settleGreedy, settleGreedy,
      debtorsOf, debtorsOf, creditorsOf, creditorsOf, balancesOf, balancesOf, hv,
      fairShareCentsOf, fairShareCentsOf, totalCentsOf, totalCentsOf, hv]
  · rw [totalCentsOf, totalCentsOf, hv]
  · rw [fairShareCentsOf, fairShareCentsOf, totalCentsOf, totalCentsOf, hv]

theorem debtors_name_mem {people : List Person} {n : String}
    (h : n ∈ (debtorsOf people).map PersonBalance.name) :
    ∃ b ∈ balancesOf people, b.name = n ∧ b.balanceCents < 0 := by
  rw [debtorsOf, ((sortDescBal_perm _).map PersonBalance.name).mem_iff,
    List.map_map] at h
  obtain ⟨b, hb, hbn⟩ := List.mem_map.mp h
  obtain ⟨hbmem, hcond⟩ := List.mem_filter.mp hb
  exact ⟨b, hbmem, hbn, of_decide_eq_true hcond⟩

theorem creditors_name_mem {people : List Person} {n : String}
    (h : n ∈ (creditorsOf people).map PersonBalance.name) :
    ∃ b ∈ balancesOf people, b.name = n ∧ 0 < b.balanceCents := by
  rw [creditorsOf, ((sortDescBal_perm _).map PersonBalance.name).mem_iff] at h
  obtain ⟨b, hb, hbn⟩ := List.mem_map.mp h
  obtain ⟨hbmem, hcond⟩ := List.mem_filter.mp hb
  exact ⟨b, hbmem, hbn, of_decide_eq_true hcond⟩

theorem balances_name_in_people {people : List Person} {b : PersonBalance}
    (hb : b ∈ balancesOf people) : b.name ∈ people.map Person.name := by
  rw [balancesOf] at hb
  obtain ⟨p, hp, rfl⟩ := List.mem_map.mp hb
  exact List.mem_map.mpr ⟨p, (List.mem_filter.mp hp).1, rfl⟩

/-- **C10**: the engine keys parties by name alone.  With pairwise-distinct
names, every settlement goes between two distinct names that both belong to
input people; and with duplicated names a self-payment `from = to` really
occurs (so the distinctness hypothesis is required). -/
theorem claim_C10 :
    (∀ (people : List Person),
        people.Pairwise (fun a b => a.name ≠ b.name) →
        ∀ s ∈ calculateSettlements people,
          s.from_ ≠ s.to_
          ∧ s.from_ ∈ people.map Person.name
          ∧ s.to_ ∈ people.map Person.name)
    ∧ (∃ s ∈ calculateSettlements dupNamePeople, s.from_ = s.to_) := by
  constructor
  · intro people hpw s hs
    by_cases hlt : (validPeopleOf people).length < 2
    · rw [calculateSettlements, if_pos hlt] at hs
      exact absurd hs (List.not_mem_nil s)
    · rw [calculateSettlements_eq people (by omega)] at hs
      obtain ⟨hf, ht⟩ := settleGreedyAux_names _ _ _ s hs
      obtain ⟨b, hbmem, hbn, hbneg⟩ := debtors_name_mem hf
      obtain ⟨b', hb'mem, hb'n, hb'pos⟩ := creditors_name_mem ht
      have hnodup : ((balancesOf people).map PersonBalance.name).Nodup := by
        rw [balancesOf_names]
        have hall : (people.map Person.name).Nodup := List.pairwise_map.mpr hpw
        exact hall.sublist ((List.filter_sublist people).map Person.name)
      refine ⟨?_, hbn ▸ balances_name_in_people hbmem,
        hb'n ▸ balances_name_in_people hb'mem⟩
      intro hcontra
      have hbb' : b = b' :=
        List.inj_on_of_nodup_map hnodup hbmem hb'mem (by rw [hbn, hb'n, hcontra])
      rw [hbb'] at hbneg
      omega
  · decide

/-- Closed witness for C10, applying its universal part to the three
distinctly-named scenario people. -/
theorem claim_C10_witness :
    (scenarioPeople.Pairwise (fun a b => a.name ≠ b.name))
    ∧ (∀ s ∈ calculateSettlements scenarioPeople,
        s.from_ ≠ s.to_
        ∧ s.from_ ∈ scenarioPeople.map Person.name
        ∧ s.to_ ∈ scenarioPeople.map Person.name) :=
  ⟨by decide, claim_C10.1 scenarioPeople (by decide)⟩

/-- **C1 (counterexample)**: at the spec's concrete scenario, the settlement
list sums to 2832 cents, not the claimed 3500, and creditor A's net balance
after the transfers is 2 cents, not zero. -/
theorem claim_C1_counterexample :
    settlementsTotal (calculateSettlements scenarioPeople) ≠ 3500
    ∧ residualOf scenarioPeople "A" ≠ 0 := by decide

/-- **C1 (as amended)**: the scenario's fair share is `floor(6500/3) = 2166`
and the balances are A = +2834, B = -666, C = -2166, as claimed; the greedy
settlement produces at most 2 transactions (B→A 666 and C→A 2166), which sum
to 2832 cents and zero both debtors, while creditor A is left with the 2-cent
floor remainder. -/
theorem claim_C1 :
    totalCentsOf scenarioPeople = 6500
    ∧ fairShareCentsOf scenarioPeople = 2166
    ∧ balancesOf scenarioPeople
        = [PersonBalance.mk "A" 2834, PersonBalance.mk "B" (-666),
           PersonBalance.mk "C" (-2166)]
    ∧ calculateSettlements scenarioPeople
        = [Settlement.mk "C" "A" 2166, Settlement.mk "B" "A" 666]
    ∧ settlementsTotal (calculateSettlements scenarioPeople) = 2832
    ∧ residualOf scenarioPeople "B" = 0
    ∧ residualOf scenarioPeople "C" = 0
    ∧ residualOf scenarioPeople "A" = 2
    ∧ (calculateSettlements scenarioPeople).length ≤ 2 := by decide

/-! ## Compaction omission (C8) and the update protocol (C9) -/

theorem truthyStr_of_blank {o : Option String} (h : blankField o = true) :
    truthyStr o = none := by
  match o with
  | none => rfl
  | some s =>
    rw [blankField] at h
    rw [truthyStr, if_pos (by exact eq_of_beq h)]

/-- **C8**: the compact form contains no payments key `m` for a person whose
payment-methods object has zero non-empty string fields: the compacted people
are exactly the per-person compactions, and such a person's compaction omits
`m` entirely. -/
theorem claim_C8 :
    (∀ st : AppState, (toCompact st).p = st.people.map toCompactPerson)
    ∧ (∀ person : Person, allBlankPayments person.payments = true →
        (toCompactPerson person).m = none) := by
  refine ⟨fun st => rfl, ?_⟩
  intro person h
  show toCompactPayments person.payments = none
  match hp : person.payments with
  | none => rfl
  | some pm =>
    rw [hp, allBlankPayments] at h
    simp only [Bool.and_eq_true] at h
    obtain ⟨⟨⟨⟨hv, hz⟩, hpp⟩, hca⟩, ho⟩ := h
    rw [toCompactPayments, truthyStr_of_blank hv, truthyStr_of_blank hz,
      truthyStr_of_blank hpp, truthyStr_of_blank hca, truthyStr_of_blank ho,
      if_pos rfl]

/-- Closed witness for C8: a person whose payment fields are an empty string
and absences compacts with no `m`. -/
theorem claim_C8_witness :
    allBlankPayments (some { venmo := some "", zelle := none, paypal := some ""
                             cashapp := none, other := none }) = true
    ∧ (toCompactPerson
        { id := "p", name := "N", items := []
          payments := some { venmo := some "", zelle := none, paypal := some ""
                             cashapp := none, other := none } }).m = none :=
  ⟨by decide, claim_C8.2 _ (by decide)⟩

theorem dbUpdateWhere_of_lookup_none {db : Db} {id : String}
    (h : dbLookup db id = none) (version : Int)
    (f : SettlementListRow → SettlementListRow) :
    dbUpdateWhere db id version f = (db, 0) := by
  induction db with
  | nil => rfl
  | cons kv rest ih =>
    obtain ⟨k, row⟩ := kv
    rw [dbLookup] at h
    by_cases hk : k = id
    · rw [if_pos hk] at h
      exact absurd h (by simp)
    · rw [if_neg hk] at h
      rw [dbUpdateWhere, ih h]
      dsimp only
      rw [if_neg (by intro hc; exact hk hc.1)]

theorem dbLookup_not_mem {db : Db} {id : String}
    (h : ¬ id ∈ db.map Prod.fst) : dbLookup db id = none := by
  induction db with
  | nil => rfl
  | cons kv rest ih =>
    obtain ⟨k, row⟩ := kv
    simp only [List.map_cons, List.mem_cons] at h
    push_neg at h
    rw [dbLookup, if_neg (fun hc => h.1 hc.symm)]
    exact ih h.2

theorem dbUpdateWhere_cons (k : String) (row : SettlementListRow) (rest : Db)
    (id : String) (version : Int) (f : SettlementListRow → SettlementListRow) :
    dbUpdateWhere ((k, row) :: rest) id version f
      = if k = id ∧ row.version = version
        then ((k, f row) :: (dbUpdateWhere rest id version f).1,
              (dbUpdateWhere rest id version f).2 + 1)
        else ((k, row) :: (dbUpdateWhere rest id version f).1,
              (dbUpdateWhere rest id version f).2) := by
  rcases hres : dbUpdateWhere rest id version f with ⟨r, c⟩
  rw [dbUpdateWhere, hres]

theorem dbUpdateWhere_found {db : Db} {id : String} {row : SettlementListRow}
    (hkeys : (db.map Prod.fst).Nodup)
    (h : dbLookup db id = some row) (version : Int)
    (f : SettlementListRow → SettlementListRow) :
    (row.version = version →
      (dbUpdateWhere db id version f).2 = 1
      ∧ dbLookup (dbUpdateWhere db id version f).1 id = some (f row))
    ∧ (row.version ≠ version → dbUpdateWhere db id version f = (db, 0)) := by
  induction db with
  | nil => exact absurd h (by simp [dbLookup])
  | cons kv rest ih =>
    obtain ⟨k, hrow⟩ := kv
    simp only [List.map_cons, List.nodup_cons] at hkeys
    obtain ⟨hknotin, hrestnodup⟩ := hkeys
    rw [dbLookup] at h
    by_cases hk : k = id
    · rw [if_pos hk] at h
      have hroweq : hrow = row := Option.some.inj h
      subst hroweq
      have hrest : dbLookup rest id = none := dbLookup_not_mem (hk ▸ hknotin)
      have hupd := dbUpdateWhere_of_lookup_none hrest version f
      constructor
      · intro hv
        rw [dbUpdateWhere_cons, if_pos ⟨hk, hv⟩, hupd]
        exact ⟨rfl, by rw [dbLookup, if_pos hk]⟩
      · intro hv
        rw [dbUpdateWhere_cons, if_neg (by intro hc; exact hv hc.2), hupd]
    · rw [if_neg hk] at h
      have hrec := ih hrestnodup h
      constructor
      · intro hv
        obtain ⟨h1, h2⟩ := hrec.1 hv
        rw [dbUpdateWhere_cons, if_neg (by intro hc; exact hk hc.1)]
        exact ⟨h1, by rw [dbLookup, if_neg hk]; exact h2⟩
      · intro hv
        rw [dbUpdateWhere_cons, if_neg (by intro hc; exact hk hc.1), hrec.2 hv]

/-- **C9**: against a well-keyed store, `updateList` has exactly three
outcomes.  If no record has the id, it fails `NotFoundError` and the store is
unchanged.  If the record exists at a different version, it fails
`VersionConflictError` carrying the caller's expected version and the store's
actual one, and the store is unchanged.  If the record exists at the expected
version, it succeeds with version `expectedVersion + 1` and the observed
timestamp, and stores the new data under that version and timestamp. -/
theorem claim_C9 (db : Db) (nowMs : Int) (id : String) (data : AppState)
    (expectedVersion : Int) (hkeys : (db.map Prod.fst).Nodup) :
    (dbLookup db id = none →
      updateList db nowMs id data expectedVersion
        = (db, Except.error (DbError.notFound id)))
    ∧ (∀ row, dbLookup db id = some row → row.version ≠ expectedVersion →
      updateList db nowMs id data expectedVersion
        = (db, Except.error (DbError.versionConflict expectedVersion row.version)))
    ∧ (∀ row, dbLookup db id = some row → row.version = expectedVersion →
      (updateList db nowMs id data expectedVersion).2
          = Except.ok { id := id, data := data, version := expectedVersion + 1
                        createdAt := 0, updatedAt := nowMs }
        ∧ dbLookup (updateList db nowMs id data expectedVersion).1 id
          = some { row with
              data := renderJson (appStateJson data)
              version := expectedVersion + 1
              updated_at := nowMs }) := by
  refine ⟨?_, ?_, ?_⟩
  · intro hnone
    have hupd := dbUpdateWhere_of_lookup_none hnone expectedVersion
      (fun row => { row with
        data := renderJson (appStateJson data)
        version := expectedVersion + 1
        updated_at := nowMs })
    rw [updateList, hupd]
    dsimp only
    rw [if_pos rfl, hnone]
  · intro row hrow hv
    have hupd := (dbUpdateWhere_found hkeys hrow expectedVersion
      (fun row => { row with
        data := renderJson (appStateJson data)
        version := expectedVersion + 1
        updated_at := nowMs })).2 hv
    rw [updateList, hupd]
    dsimp only
    rw [if_pos rfl, hrow]
  · intro row hrow hv
    obtain ⟨h1, h2⟩ := (dbUpdateWhere_found hkeys hrow expectedVersion
      (fun row => { row with
        data := renderJson (appStateJson data)
        version := expectedVersion + 1
        updated_at := nowMs })).1 hv
    rcases hres : dbUpdateWhere db id expectedVersion
      (fun row => { row with
        data := renderJson (appStateJson data)
        version := expectedVersion + 1
        updated_at := nowMs }) with ⟨db', changes⟩
    rw [hres] at h1 h2
    rw [updateList, hres]
    dsimp only at h1 h2 ⊢
    rw [if_neg (by omega)]
    exact ⟨rfl, h2⟩

/-- Closed witness for C9 at a one-row store: a matching update succeeds at
version 4; a mismatching one conflicts reporting actual version 3. -/
theorem claim_C9_witness :
    ((witnessDb.map Prod.fst).Nodup
      ∧ dbLookup witnessDb "L1"
          = some { data := "x", version := 3, created_at := 7, updated_at := 7 })
    ∧ ((updateList witnessDb 99 "L1" dollarStateStripped 3).2
        = Except.ok { id := "L1", data := dollarStateStripped, version := 4
                      createdAt := 0, updatedAt := 99 }
      ∧ dbLookup (updateList witnessDb 99 "L1" dollarStateStripped 3).1 "L1"
        = some { data := renderJson (appStateJson dollarStateStripped)
                 version := 4, created_at := 7, updated_at := 99 }) := by
  refine ⟨⟨by decide, by decide⟩, ?_⟩
  exact (claim_C9 witnessDb 99 "L1" dollarStateStripped 3 (by decide)).2.2
    { data := "x", version := 3, created_at := 7, updated_at := 7 }
    (by decide) (by decide)

/-! ## The JSON codec round trip -/

theorem natDigitsGo_fuel : ∀ (f1 f2 n : Nat) (acc : List Char),
    n < f1 → n < f2 → natDigitsGo f1 n acc = natDigitsGo f2 n acc
  | 0, _, n, _, h1, _ => absurd h1 (Nat.not_lt_zero n)
  | _ + 1, 0, n, _, _, h2 => absurd h2 (Nat.not_lt_zero n)
  | f1 + 1, f2 + 1, n, acc, h1, h2 => by
    rw [natDigitsGo, natDigitsGo]
    by_cases h : n < 10
    · rw [if_pos h, if_pos h]
    · rw [if_neg h, if_neg h]
      exact natDigitsGo_fuel f1 f2 (n / 10) _ (by omega) (by omega)

theorem natDigitsGo_acc : ∀ (fuel n : Nat) (acc : List Char), n < fuel →
    natDigitsGo fuel n acc = natDigitsGo fuel n [] ++ acc
  | 0, n, _, h => absurd h (Nat.not_lt_zero n)
  | fuel + 1, n, acc, _ => by
    rw [natDigitsGo, natDigitsGo]
    by_cases h : n < 10
    · rw [if_pos h, if_pos h]
      rfl
    · rw [if_neg h, if_neg h,
        natDigitsGo_acc fuel (n / 10) _ (by omega),
        natDigitsGo_acc fuel (n / 10) [Char.ofNat (48 + n % 10)] (by omega)]
      simp

/-- One unfolding of `natDecimal`, last digit peeled. -/
theorem natDecimal_unfold (n : Nat) :
    natDecimal n
      = (if n < 10 then [] else natDecimal (n / 10)) ++ [Char.ofNat (48 + n % 10)] := by
  rw [natDecimal, natDigitsGo]
  by_cases h : n < 10
  · rw [if_pos h, if_pos h]
    have : n % 10 = n := Nat.mod_eq_of_lt h
    rw [this]
    rfl
  · rw [if_neg h, if_neg h, natDigitsGo_acc n (n / 10) _ (by omega), natDecimal,
      natDigitsGo_fuel n (n / 10 + 1) (n / 10) [] (by omega) (by omega)]

theorem natDecimal_ne_nil (n : Nat) : natDecimal n ≠ [] := by
  rw [natDecimal_unfold]
  simp

theorem digit_char_val {k : Nat} (h : k < 10) :
    (Char.ofNat (48 + k)).toNat = 48 + k ∧ isDigitCh (Char.ofNat (48 + k)) = true := by
  interval_cases k <;> exact ⟨by decide, by decide⟩

theorem natDecimal_digits (n : Nat) : ∀ c ∈ natDecimal n, isDigitCh c = true := by
  induction n using Nat.strong_induction_on with
  | _ n ih =>
    rw [natDecimal_unfold]
    intro c hc
    rcases List.mem_append.mp hc with h | h
    · by_cases h10 : n < 10
      · rw [if_pos h10] at h
        exact absurd h (List.not_mem_nil c)
      · rw [if_neg h10] at h
        exact ih (n / 10) (by omega) c h
    · rw [List.mem_singleton.mp h]
      exact (digit_char_val (Nat.mod_lt n (by omega))).2

theorem digitsToNat_natDecimal (n : Nat) : digitsToNat (natDecimal n) = n := by
  induction n using Nat.strong_induction_on with
  | _ n ih =>
    rw [natDecimal_unfold, digitsToNat, List.foldl_append]
    by_cases h10 : n < 10
    · rw [if_pos h10]
      simp only [List.foldl_nil, List.foldl_cons]
      rw [(digit_char_val (Nat.mod_lt n (by omega))).1]
      omega
    · rw [if_neg h10]
      have := ih (n / 10) (by omega)
      rw [digitsToNat] at this
      simp only [List.foldl_cons, List.foldl_nil, this]
      rw [(digit_char_val (Nat.mod_lt n (by omega))).1]
      omega

theorem spanDigits_stop {cs : List Char} (h : numStop cs = true) :
    spanDigits cs = ([], cs) := by
  match cs with
  | [] => rfl
  | c :: t =>
    rw [numStop] at h
    have hc : isDigitCh c = false := by
      cases hd : isDigitCh c
      · rfl
      · rw [hd] at h
        exact absurd h (by decide)
    rw [spanDigits]
    simp [hc]

theorem spanDigits_run : ∀ (ds : List Char), (∀ c ∈ ds, isDigitCh c = true) →
    ∀ (rest : List Char), numStop rest = true →
    spanDigits (ds ++ rest) = (ds, rest)
  | [], _, rest, hrest => by
    rw [List.nil_append]
    exact spanDigits_stop hrest
  | c :: t, hds, rest, hrest => by
    rw [List.cons_append, spanDigits,
      if_pos (hds c (List.mem_cons_self c t)),
      spanDigits_run t (fun x hx => hds x (List.mem_cons_of_mem c hx)) rest hrest]

theorem natDecimal_head (n : Nat) :
    ∃ c t, natDecimal n = c :: t ∧ isDigitCh c = true := by
  match h : natDecimal n with
  | [] => exact absurd h (natDecimal_ne_nil n)
  | c :: t =>
    exact ⟨c, t, rfl, natDecimal_digits n c (h ▸ List.mem_cons_self c t)⟩

theorem digit_ne_minus {c : Char} (h : isDigitCh c = true) : c ≠ '-' := by
  intro hc
  rw [hc] at h
  exact absurd h (by decide)

/-- The numeral round trip: parsing a rendered integer recovers it whenever
the remainder cannot extend the numeral. -/
theorem parseJNum_intDecimal (i : Int) (rest : List Char)
    (h : numStop rest = true) :
    parseJNum (intDecimal i ++ rest) = some (i, rest) := by
  obtain ⟨c, t, hct, hcd⟩ := natDecimal_head i.natAbs
  have hdigits := natDecimal_digits i.natAbs
  have hspan := spanDigits_run (natDecimal i.natAbs) hdigits rest h
  have hval := digitsToNat_natDecimal i.natAbs
  have hne : (natDecimal i.natAbs).isEmpty = false := by
    rw [hct]
    rfl
  by_cases hneg : i < 0
  · have harg : intDecimal i ++ rest = '-' :: (natDecimal i.natAbs ++ rest) := by
      rw [intDecimal, if_pos hneg]
      rfl
    rw [harg, parseJNum, hspan]
    dsimp only
    rw [if_neg (by simp [hne]), hval]
    have hi : -(i.natAbs : Int) = i := by omega
    rw [hi]
  · have harg : intDecimal i ++ rest = natDecimal i.natAbs ++ rest := by
      rw [intDecimal, if_neg hneg, List.nil_append]
    rw [harg, parseJNum.eq_def]
    split
    · next rest2 heq =>
      rw [hct, List.cons_append] at heq
      exact absurd (List.cons.injEq .. ▸ heq).1 (digit_ne_minus hcd)
    · dsimp only
      rw [hspan, if_neg (by simp [hne]), hval]
      have hi : (i.natAbs : Int) = i := by omega
      rw [hi]

theorem hexDigitVal_lower {k : Nat} (h : k < 16) :
    hexDigitVal (lowerHexDigit k) = some k := by
  interval_cases k <;> decide

theorem hexDigitVal_upper {k : Nat} (h : k < 16) :
    hexDigitVal (upperHexDigit k) = some k := by
  interval_cases k <;> decide

theorem upperHexVal_upper {k : Nat} (h : k < 16) :
    upperHexVal (upperHexDigit k) = some k := by
  interval_cases k <;> decide

/-- Parsing one escaped character undoes `escapeJsonChar`. -/
theorem parseJStringAux_escape (c : Char) (acc rest : List Char) :
    parseJStringAux acc (escapeJsonChar c ++ rest) = parseJStringAux (c :: acc) rest := by
  have hofnat : ∀ m : Nat, c.toNat = m → c = Char.ofNat m := by
    intro m hm
    rw [← hm, Char.ofNat_toNat]
  rw [escapeJsonChar]
  by_cases h1 : c = '"'
  · rw [if_pos h1, h1]
    rfl
  · rw [if_neg h1]
    by_cases h2 : c = '\\'
    · rw [if_pos h2, h2]
      rfl
    · rw [if_neg h2]
      by_cases h3 : c.toNat = 8
      · rw [if_pos h3, hofnat 8 h3]
        rfl
      · rw [if_neg h3]
        by_cases h4 : c.toNat = 9
        · rw [if_pos h4, hofnat 9 h4]
          rfl
        · rw [if_neg h4]
          by_cases h5 : c.toNat = 10
          · rw [if_pos h5, hofnat 10 h5]
            rfl
          · rw [if_neg h5]
            by_cases h6 : c.toNat = 12
            · rw [if_pos h6, hofnat 12 h6]
              rfl
            · rw [if_neg h6]
              by_cases h7 : c.toNat = 13
              · rw [if_pos h7, hofnat 13 h7]
                rfl
              · rw [if_neg h7]
                by_cases h8 : c.toNat < 0x20
                · rw [if_pos h8]
                  show parseJStringAux acc
                      ('\\' :: 'u' :: '0' :: '0'
                        :: lowerHexDigit (c.toNat / 16) :: lowerHexDigit (c.toNat % 16)
                        :: rest)
                    = parseJStringAux (c :: acc) rest
                  rw [parseJStringAux,
                    show hexDigitVal '0' = some 0 from by decide,
                    hexDigitVal_lower (show c.toNat / 16 < 16 by omega),
                    hexDigitVal_lower (show c.toNat % 16 < 16 by omega)]
                  dsimp only
                  have hn : ((0 * 16 + 0) * 16 + c.toNat / 16) * 16 + c.toNat % 16
                      = c.toNat := by omega
                  rw [hn, if_neg (by omega), Char.ofNat_toNat]
                · rw [if_neg h8]
                  show parseJStringAux acc (c :: rest) = parseJStringAux (c :: acc) rest
                  rw [parseJStringAux.eq_def]
                  split
                  · next heq =>
                    exact absurd (List.cons.injEq .. ▸ heq).1 h1
                  · next heq =>
                    obtain ⟨hc, -⟩ := List.cons.injEq .. ▸ heq
                    exact absurd hc h2
                  · next heq =>
                    obtain ⟨hc, -⟩ := List.cons.injEq .. ▸ heq
                    exact absurd hc h2
                  · next c' rest' heq =>
                    obtain ⟨hc, hr⟩ := List.cons.injEq .. ▸ heq
                    rw [← hc, ← hr, if_neg (by omega)]
                  · next heq =>
                    exact absurd heq (by simp)

theorem parseJStringAux_flatMap : ∀ (cs acc rest : List Char),
    parseJStringAux acc (cs.flatMap escapeJsonChar ++ '"' :: rest)
      = some (String.mk (acc.reverse ++ cs), rest)
  | [], acc, rest => by
    simp [parseJStringAux]
  | c :: cs, acc, rest => by
    rw [List.flatMap_cons, List.append_assoc, parseJStringAux_escape,
      parseJStringAux_flatMap cs (c :: acc) rest]
    simp

/-- The string-literal round trip. -/
theorem parseJString_render (s : String) (rest : List Char) :
    parseJStringAux [] (s.data.flatMap escapeJsonChar ++ '"' :: rest)
      = some (s, rest) := by
  rw [parseJStringAux_flatMap]
  rfl

theorem digit_char_facts {c : Char} (h : isDigitCh c = true) :
    jsonWs c = false ∧ c ≠ 'n' ∧ c ≠ 't' ∧ c ≠ 'f' ∧ c ≠ '"' ∧ c ≠ '['
      ∧ c ≠ lbrace ∧ c ≠ ']' ∧ c ≠ rbrace ∧ c ≠ ',' := by
  rw [isDigitCh] at h
  simp only [Bool.and_eq_true, decide_eq_true_eq] at h
  refine ⟨?_, ?_, ?_, ?_, ?_, ?_, ?_, ?_, ?_, ?_⟩
  · cases hw : jsonWs c
    · rfl
    · rw [jsonWs] at hw
      have := of_decide_eq_true hw
      simp only [List.mem_cons, List.not_mem_nil, or_false] at this
      omega
  all_goals intro hc
  all_goals subst hc
  all_goals exact absurd h (by decide)

/-- Every rendered value starts with a non-whitespace character that closes
nothing and separates nothing. -/
theorem renderJsonL_head (j : Json) :
    ∃ c t, renderJsonL j = c :: t ∧ jsonWs c = false ∧ c ≠ ']'
      ∧ c ≠ rbrace ∧ c ≠ ',' := by
  cases j with
  | null => exact ⟨'n', _, rfl, by decide, by decide, by simp [rbrace], by decide⟩
  | bool b =>
    cases b with
    | true => exact ⟨'t', _, rfl, by decide, by decide, by simp [rbrace], by decide⟩
    | false => exact ⟨'f', _, rfl, by decide, by decide, by simp [rbrace], by decide⟩
  | str s => exact ⟨'"', _, rfl, by decide, by decide, by simp [rbrace], by decide⟩
  | arr es => exact ⟨'[', _, rfl, by decide, by decide, by simp [rbrace], by decide⟩
  | obj ms => exact ⟨lbrace, _, rfl, by decide, by decide, by simp [lbrace, rbrace], by decide⟩
  | num n =>
    by_cases hn : n < 0
    · refine ⟨'-', natDecimal n.natAbs, ?_, by decide, by decide, by simp [rbrace], by decide⟩
      rw [renderJsonL, intDecimal, if_pos hn]
      rfl
    · obtain ⟨c, t, hct, hcd⟩ := natDecimal_head n.natAbs
      obtain ⟨hws, -, -, -, -, -, -, hbk, hbc, hcm⟩ := digit_char_facts hcd
      refine ⟨c, t ++ [], ?_, hws, hbk, hbc, hcm⟩
      rw [renderJsonL, intDecimal, if_neg hn, List.nil_append, hct]
      simp

theorem dropWs_render (j : Json) (x : List Char) :
    (renderJsonL j ++ x).dropWhile jsonWs = renderJsonL j ++ x := by
  obtain ⟨c, t, hren, hws, -, -, -⟩ := renderJsonL_head j
  rw [hren, List.cons_append, List.dropWhile_cons, hws]
  rfl

theorem numStart_facts {c : Char} (h : c = '-' ∨ isDigitCh c = true) :
    jsonWs c = false ∧ c ≠ 'n' ∧ c ≠ 't' ∧ c ≠ 'f' ∧ c ≠ '"' ∧ c ≠ '['
      ∧ c ≠ lbrace := by
  rcases h with rfl | h
  · exact ⟨by decide, by decide, by decide, by decide, by decide, by decide,
      by simp [lbrace]⟩
  · obtain ⟨h1, h2, h3, h4, h5, h6, h7, -, -, -⟩ := digit_char_facts h
    exact ⟨h1, h2, h3, h4, h5, h6, h7⟩

/-- The parser's number entry: an input headed by `-` or a digit goes to
`parseJNum`. -/
theorem parseJVal_num_entry (fuel : Nat) (c0 : Char) (t : List Char)
    (hg : c0 = '-' ∨ isDigitCh c0 = true) :
    parseJVal (fuel + 1) (c0 :: t)
      = (parseJNum (c0 :: t)).map (fun p => (Json.num p.1, p.2)) := by
  obtain ⟨hws, hn, ht, hf, hq, hbk, hbc⟩ := numStart_facts hg
  have hdrop : (c0 :: t).dropWhile jsonWs = c0 :: t := by
    rw [List.dropWhile_cons, hws]
    rfl
  have hstep : parseJVal (fuel + 1) (c0 :: t)
      = (match (c0 :: t).dropWhile jsonWs with
         | 'n' :: 'u' :: 'l' :: 'l' :: r => some (Json.null, r)
         | 't' :: 'r' :: 'u' :: 'e' :: r => some (Json.bool true, r)
         | 'f' :: 'a' :: 'l' :: 's' :: 'e' :: r => some (Json.bool false, r)
         | '"' :: r => (parseJStringAux [] r).map (fun p => (Json.str p.1, p.2))
         | '[' :: r =>
           (match r.dropWhile jsonWs with
            | ']' :: r1 => some (Json.arr [], r1)
            | r1 => (parseJElems fuel r1).map (fun p => (Json.arr p.1, p.2)))
         | c :: r =>
           if c = lbrace then
             (match r.dropWhile jsonWs with
              | c1 :: r1 =>
                if c1 = rbrace then some (Json.obj [], r1)
                else (parseJFields fuel (c1 :: r1)).map (fun p => (Json.obj p.1, p.2))
              | [] => none)
           else if c = '-' || isDigitCh c then
             (parseJNum (c :: r)).map (fun p => (Json.num p.1, p.2))
           else none
         | [] => none) := rfl
  rw [hstep, hdrop]
  split
  · next heq => exact absurd (List.cons.injEq .. ▸ heq).1 hn
  · next heq => exact absurd (List.cons.injEq .. ▸ heq).1 ht
  · next heq => exact absurd (List.cons.injEq .. ▸ heq).1 hf
  · next heq => exact absurd (List.cons.injEq .. ▸ heq).1 hq
  · next heq => exact absurd (List.cons.injEq .. ▸ heq).1 hbk
  · next c r heq =>
    obtain ⟨hc, hr⟩ := List.cons.injEq .. ▸ heq
    rw [if_neg (by rw [← hc]; exact hbc),
      if_pos (by rw [← hc]; rcases hg with hg | hg <;> simp [hg]), ← hc, ← hr]
  · next heq => exact absurd heq (by simp)

/-- The parser's array entry, when the element list is nonempty and does not
begin with `]`. -/
theorem parseJVal_arr_entry (fuel : Nat) (c : Char) (t : List Char)
    (hws : jsonWs c = false) (hne : c ≠ ']') :
    parseJVal (fuel + 1) ('[' :: (c :: t))
      = (parseJElems fuel (c :: t)).map (fun p => (Json.arr p.1, p.2)) := by
  have hstep : parseJVal (fuel + 1) ('[' :: (c :: t))
      = (match (c :: t).dropWhile jsonWs with
         | ']' :: r1 => some (Json.arr [], r1)
         | r1 => (parseJElems fuel r1).map (fun p => (Json.arr p.1, p.2))) := rfl
  rw [hstep]
  have hdrop : (c :: t).dropWhile jsonWs = c :: t := by
    rw [List.dropWhile_cons, hws]
    rfl
  rw [hdrop]
  split
  · next heq => exact absurd (List.cons.injEq .. ▸ heq).1 hne
  · rfl

/-- The parser's object entry, when the member list is nonempty and does not
begin with the closing brace. -/
theorem parseJVal_obj_entry (fuel : Nat) (c : Char) (t : List Char)
    (hws : jsonWs c = false) (hne : c ≠ rbrace) :
    parseJVal (fuel + 1) (lbrace :: (c :: t))
      = (parseJFields fuel (c :: t)).map (fun p => (Json.obj p.1, p.2)) := by
  have hstep : parseJVal (fuel + 1) (lbrace :: (c :: t))
      = (match (c :: t).dropWhile jsonWs with
         | c1 :: r1 =>
           if c1 = rbrace then some (Json.obj [], r1)
           else (parseJFields fuel (c1 :: r1)).map (fun p => (Json.obj p.1, p.2))
         | [] => none) := rfl
  rw [hstep]
  have hdrop : (c :: t).dropWhile jsonWs = c :: t := by
    rw [List.dropWhile_cons, hws]
    rfl
  rw [hdrop]
  dsimp only
  rw [if_neg hne]

theorem parseJElems_step (fuel : Nat) (cs : List Char) :
    parseJElems (fuel + 1) cs
      = (match parseJVal fuel cs with
         | none => none
         | some (v, r) =>
           match r.dropWhile jsonWs with
           | ',' :: r1 => (parseJElems fuel r1).map (fun p => (v :: p.1, p.2))
           | ']' :: r1 => some ([v], r1)
           | _ => none) := rfl

theorem parseJFields_step (fuel : Nat) (cs : List Char) :
    parseJFields (fuel + 1) cs
      = (match cs.dropWhile jsonWs with
         | '"' :: r =>
           (match parseJStringAux [] r with
            | none => none
            | some (k, r1) =>
              match r1.dropWhile jsonWs with
              | ':' :: r2 =>
                (match parseJVal fuel r2 with
                 | none => none
                 | some (v, r3) =>
                   match r3.dropWhile jsonWs with
                   | ',' :: r4 =>
                     (parseJFields fuel r4).map (fun p => ((k, v) :: p.1, p.2))
                   | c4 :: r4 => if c4 = rbrace then some ([(k, v)], r4) else none
                   | [] => none)
              | _ => none)
         | _ => none) := rfl

theorem renderJElems_cons_ex (e : Json) (es : List Json) :
    ∃ tl, renderJElems (e :: es) = renderJsonL e ++ tl := by
  match es with
  | [] => exact ⟨[], by simp [renderJElems]⟩
  | x :: xs => exact ⟨',' :: renderJElems (x :: xs), rfl⟩

mutual

theorem rtVal : ∀ (j : Json) (fuel : Nat) (rest : List Char),
    (renderJsonL j).length < fuel → numStop rest = true →
    parseJVal fuel (renderJsonL j ++ rest) = some (j, rest)
  | .null, fuel, rest, hf, _ => by
    match fuel, hf with
    | f + 1, _ => rfl
  | .bool true, fuel, rest, hf, _ => by
    match fuel, hf with
    | f + 1, _ => rfl
  | .bool false, fuel, rest, hf, _ => by
    match fuel, hf with
    | f + 1, _ => rfl
  | .num n, fuel, rest, hf, hr => by
    match fuel, hf with
    | f + 1, _ =>
      show parseJVal (f + 1) (intDecimal n ++ rest) = some (.num n, rest)
      by_cases hn : n < 0
      · have hshape : intDecimal n ++ rest = '-' :: (natDecimal n.natAbs ++ rest) := by
          rw [intDecimal, if_pos hn]
          rfl
        rw [hshape, parseJVal_num_entry f '-' _ (Or.inl rfl), ← hshape,
          parseJNum_intDecimal n rest hr]
        rfl
      · obtain ⟨c, t, hct, hcd⟩ := natDecimal_head n.natAbs
        have hshape : intDecimal n ++ rest = c :: (t ++ rest) := by
          rw [intDecimal, if_neg hn, List.nil_append, hct]
          rfl
        rw [hshape, parseJVal_num_entry f c _ (Or.inr hcd), ← hshape,
          parseJNum_intDecimal n rest hr]
        rfl
  | .str s, fuel, rest, hf, _ => by
    match fuel, hf with
    | f + 1, _ =>
      have hshape : renderJsonL (.str s) ++ rest
          = '"' :: (s.data.flatMap escapeJsonChar ++ ('"' :: rest)) := by
        show (('"' :: s.data.flatMap escapeJsonChar) ++ ['"']) ++ rest = _
        simp
      rw [hshape]
      have hstep : parseJVal (f + 1) ('"' :: (s.data.flatMap escapeJsonChar ++ ('"' :: rest)))
          = (parseJStringAux [] (s.data.flatMap escapeJsonChar ++ ('"' :: rest))).map
              (fun p => (Json.str p.1, p.2)) := rfl
      rw [hstep, parseJString_render]
      rfl
  | .arr [], fuel, rest, hf, _ => by
    match fuel, hf with
    | f + 1, _ =>
      have hshape : renderJsonL (.arr []) ++ rest = '[' :: (']' :: rest) := by
        show ('[' :: (renderJElems [] ++ [']'])) ++ rest = _
        simp [renderJElems]
      rw [hshape]
      rfl
  | .arr (e :: es), fuel, rest, hf, _ => by
    match fuel, hf with
    | f + 1, hflt =>
      obtain ⟨c, t, hec, hws, hne, -, -⟩ := renderJsonL_head e
      obtain ⟨tl, htl⟩ := renderJElems_cons_ex e es
      have hshape : renderJsonL (.arr (e :: es)) ++ rest
          = '[' :: (renderJElems (e :: es) ++ (']' :: rest)) := by
        show ('[' :: (renderJElems (e :: es) ++ [']'])) ++ rest = _
        simp
      have hcons : renderJElems (e :: es) ++ (']' :: rest)
          = c :: ((t ++ tl) ++ (']' :: rest)) := by
        rw [htl, hec]
        simp
      have hlen : (renderJElems (e :: es)).length + 1 < f := by
        have h2 : (renderJsonL (.arr (e :: es))).length
            = (renderJElems (e :: es)).length + 2 := by
          show (('[' :: (renderJElems (e :: es) ++ [']']))).length = _
          simp
        omega
      rw [hshape, hcons, parseJVal_arr_entry f c _ hws hne, ← hcons,
        rtElems e es f rest hlen]
      rfl
  | .obj [], fuel, rest, hf, _ => by
    match fuel, hf with
    | f + 1, _ =>
      have hshape : renderJsonL (.obj []) ++ rest = lbrace :: (rbrace :: rest) := by
        show (lbrace :: (renderJFields [] ++ [rbrace])) ++ rest = _
        simp [renderJFields]
      rw [hshape]
      have hstep : parseJVal (f + 1) (lbrace :: (rbrace :: rest))
          = (match (rbrace :: rest).dropWhile jsonWs with
             | c1 :: r1 =>
               if c1 = rbrace then some (Json.obj [], r1)
               else (parseJFields f (c1 :: r1)).map (fun p => (Json.obj p.1, p.2))
             | [] => none) := rfl
      rw [hstep]
      have hdrop : (rbrace :: rest).dropWhile jsonWs = rbrace :: rest := by
        rw [List.dropWhile_cons, show jsonWs rbrace = false from by decide]
        rfl
      rw [hdrop]
      dsimp only
      rw [if_pos rfl]
  | .obj ((k, v) :: ms), fuel, rest, hf, _ => by
    match fuel, hf with
    | f + 1, hflt =>
      have hshape : renderJsonL (.obj ((k, v) :: ms)) ++ rest
          = lbrace :: (renderJFields ((k, v) :: ms) ++ (rbrace :: rest)) := by
        show (lbrace :: (renderJFields ((k, v) :: ms) ++ [rbrace])) ++ rest = _
        simp
      have hhead : ∃ t2, renderJFields ((k, v) :: ms) = '"' :: t2 := by
        match ms with
        | [] =>
          refine ⟨k.data.flatMap escapeJsonChar ++ ['"'] ++ (':' :: renderJsonL v), ?_⟩
          show renderJString k ++ ':' :: renderJsonL v = _
          rw [renderJString]
          simp
        | m2 :: ms2 =>
          refine ⟨k.data.flatMap escapeJsonChar ++ ['"']
            ++ (':' :: (renderJsonL v ++ ',' :: renderJFields (m2 :: ms2))), ?_⟩
          simp [renderJFields, renderJString]
      obtain ⟨t2, ht2⟩ := hhead
      have hcons : renderJFields ((k, v) :: ms) ++ (rbrace :: rest)
          = '"' :: (t2 ++ (rbrace :: rest)) := by
        rw [ht2]
        rfl
      have hlen : (renderJFields ((k, v) :: ms)).length + 1 < f := by
        have h2 : (renderJsonL (.obj ((k, v) :: ms))).length
            = (renderJFields ((k, v) :: ms)).length + 2 := by
          show ((lbrace :: (renderJFields ((k, v) :: ms) ++ [rbrace]))).length = _
          simp
        omega
      rw [hshape, hcons, parseJVal_obj_entry f '"' _ (by decide) (by decide), ← hcons,
        rtFields (k, v) ms f rest hlen]
      rfl

theorem rtElems : ∀ (e : Json) (es : List Json) (fuel : Nat) (rest : List Char),
    (renderJElems (e :: es)).length + 1 < fuel →
    parseJElems fuel (renderJElems (e :: es) ++ (']' :: rest)) = some (e :: es, rest)
  | e, [], fuel, rest, hf => by
    match fuel, hf with
    | f + 1, hflt =>
      have hone : renderJElems [e] = renderJsonL e := rfl
      have hlen : (renderJsonL e).length < f := by
        rw [hone] at hflt
        omega
      have hns1 : numStop (']' :: rest) = true := rfl
      rw [hone, parseJElems_step,
        rtVal e f (']' :: rest) hlen hns1]
      have hdrop : (']' :: rest).dropWhile jsonWs = ']' :: rest := by
        rw [List.dropWhile_cons, show jsonWs ']' = false from by decide]
        rfl
      dsimp only
      rw [hdrop]
      rfl
  | e, x :: xs, fuel, rest, hf => by
    match fuel, hf with
    | f + 1, hflt =>
      have htwo : renderJElems (e :: x :: xs) = renderJsonL e ++ ',' :: renderJElems (x :: xs) := rfl
      have hlens : (renderJElems (e :: x :: xs)).length
          = (renderJsonL e).length + 1 + (renderJElems (x :: xs)).length := by
        rw [htwo]
        simp
        omega
      have hlen1 : (renderJsonL e).length < f := by omega
      have hlen2 : (renderJElems (x :: xs)).length + 1 < f := by omega
      have hshape : renderJElems (e :: x :: xs) ++ (']' :: rest)
          = renderJsonL e ++ (',' :: (renderJElems (x :: xs) ++ (']' :: rest))) := by
        rw [htwo]
        simp
      have hns2 : numStop (',' :: (renderJElems (x :: xs) ++ (']' :: rest))) = true := rfl
      rw [hshape, parseJElems_step,
        rtVal e f (',' :: (renderJElems (x :: xs) ++ (']' :: rest))) hlen1 hns2]
      dsimp only
      have hdrop : (',' :: (renderJElems (x :: xs) ++ (']' :: rest))).dropWhile jsonWs
          = ',' :: (renderJElems (x :: xs) ++ (']' :: rest)) := by
        rw [List.dropWhile_cons, show jsonWs ',' = false from by decide]
        rfl
      rw [hdrop]
      show Option.map (fun p => (e :: p.1, p.2))
          (parseJElems f (renderJElems (x :: xs) ++ (']' :: rest)))
        = some (e :: x :: xs, rest)
      rw [rtElems x xs f rest hlen2]
      rfl

theorem rtFields : ∀ (kv : String × Json) (ms : List (String × Json))
    (fuel : Nat) (rest : List Char),
    (renderJFields (kv :: ms)).length + 1 < fuel →
    parseJFields fuel (renderJFields (kv :: ms) ++ (rbrace :: rest)) = some (kv :: ms, rest)
  | (k, v), [], fuel, rest, hf => by
    match fuel, hf with
    | f + 1, hflt =>
      have hone : renderJFields [(k, v)] = renderJString k ++ ':' :: renderJsonL v := rfl
      have hrsl : (renderJString k).length = (k.data.flatMap escapeJsonChar).length + 2 := by
        rw [renderJString]
        simp
      have hlen : (renderJsonL v).length < f := by
        rw [hone] at hflt
        simp only [List.length_append, List.length_cons] at hflt
        omega
      have hshape : renderJFields [(k, v)] ++ (rbrace :: rest)
          = '"' :: (k.data.flatMap escapeJsonChar
              ++ ('"' :: (':' :: (renderJsonL v ++ (rbrace :: rest))))) := by
        rw [hone, renderJString]
        simp
      rw [hshape, parseJFields_step]
      have hdrop : ('"' :: (k.data.flatMap escapeJsonChar
          ++ ('"' :: (':' :: (renderJsonL v ++ (rbrace :: rest)))))).dropWhile jsonWs
          = '"' :: (k.data.flatMap escapeJsonChar
              ++ ('"' :: (':' :: (renderJsonL v ++ (rbrace :: rest))))) := by
        rw [List.dropWhile_cons, show jsonWs '"' = false from by decide]
        rfl
      rw [hdrop]
      split
      · next r heq =>
        obtain ⟨-, hr⟩ := List.cons.injEq .. ▸ heq
        rw [← hr, parseJString_render k (':' :: (renderJsonL v ++ (rbrace :: rest)))]
        dsimp only
        have hdrop2 : (':' :: (renderJsonL v ++ (rbrace :: rest))).dropWhile jsonWs
            = ':' :: (renderJsonL v ++ (rbrace :: rest)) := by
          rw [List.dropWhile_cons, show jsonWs ':' = false from by decide]
          rfl
        rw [hdrop2]
        split
        · next r2 heq2 =>
          obtain ⟨-, hr2⟩ := List.cons.injEq .. ▸ heq2
          have hns3 : numStop (rbrace :: rest) = true := rfl
          rw [← hr2, rtVal v f (rbrace :: rest) hlen hns3]
          dsimp only
          have hdrop3 : (rbrace :: rest).dropWhile jsonWs = rbrace :: rest := by
            rw [List.dropWhile_cons, show jsonWs rbrace = false from by decide]
            rfl
          rw [hdrop3]
          split
          · next heq3 =>
            exact absurd (List.cons.injEq .. ▸ heq3).1 (by decide)
          · next c4 r4 heq3 =>
            obtain ⟨hc4, hr4⟩ := List.cons.injEq .. ▸ heq3
            rw [if_pos hc4.symm, hr4]
          · next heq3 =>
            exact absurd heq3 (by simp)
        · next h =>
          exact absurd rfl (h _)
      · next h =>
        exact absurd rfl (h _)
  | (k, v), (k2, v2) :: ms2, fuel, rest, hf => by
    match fuel, hf with
    | f + 1, hflt =>
      have htwo : renderJFields ((k, v) :: (k2, v2) :: ms2)
          = renderJString k ++ ':' :: renderJsonL v ++ ',' :: renderJFields ((k2, v2) :: ms2) := rfl
      have hrsl : (renderJString k).length = (k.data.flatMap escapeJsonChar).length + 2 := by
        rw [renderJString]
        simp
      have hlens : (renderJFields ((k, v) :: (k2, v2) :: ms2)).length
          = (renderJString k).length + 1 + (renderJsonL v).length + 1
            + (renderJFields ((k2, v2) :: ms2)).length := by
        rw [htwo]
        simp
        omega
      have hlen1 : (renderJsonL v).length < f := by omega
      have hlen2 : (renderJFields ((k2, v2) :: ms2)).length + 1 < f := by omega
      have hshape : renderJFields ((k, v) :: (k2, v2) :: ms2) ++ (rbrace :: rest)
          = '"' :: (k.data.flatMap escapeJsonChar
              ++ ('"' :: (':' :: (renderJsonL v
                ++ (',' :: (renderJFields ((k2, v2) :: ms2) ++ (rbrace :: rest))))))) := by
        rw [htwo, renderJString]
        simp
      rw [hshape, parseJFields_step]
      have hdrop : ('"' :: (k.data.flatMap escapeJsonChar
          ++ ('"' :: (':' :: (renderJsonL v
            ++ (',' :: (renderJFields ((k2, v2) :: ms2) ++ (rbrace :: rest)))))))).dropWhile jsonWs
          = '"' :: (k.data.flatMap escapeJsonChar
              ++ ('"' :: (':' :: (renderJsonL v
                ++ (',' :: (renderJFields ((k2, v2) :: ms2) ++ (rbrace :: rest))))))) := by
        rw [List.dropWhile_cons, show jsonWs '"' = false from by decide]
        rfl
      rw [hdrop]
      split
      · next r heq =>
        obtain ⟨-, hr⟩ := List.cons.injEq .. ▸ heq
        rw [← hr, parseJString_render k
          (':' :: (renderJsonL v ++ (',' :: (renderJFields ((k2, v2) :: ms2) ++ (rbrace :: rest)))))]
        dsimp only
        have hdrop2 : (':' :: (renderJsonL v
            ++ (',' :: (renderJFields ((k2, v2) :: ms2) ++ (rbrace :: rest))))).dropWhile jsonWs
            = ':' :: (renderJsonL v
                ++ (',' :: (renderJFields ((k2, v2) :: ms2) ++ (rbrace :: rest)))) := by
          rw [List.dropWhile_cons, show jsonWs ':' = false from by decide]
          rfl
        rw [hdrop2]
        split
        · next r2 heq2 =>
          obtain ⟨-, hr2⟩ := List.cons.injEq .. ▸ heq2
          have hns4 : numStop (',' :: (renderJFields ((k2, v2) :: ms2)
              ++ (rbrace :: rest))) = true := rfl
          rw [← hr2,
            rtVal v f (',' :: (renderJFields ((k2, v2) :: ms2) ++ (rbrace :: rest))) hlen1 hns4]
          dsimp only
          have hdrop3 : (',' :: (renderJFields ((k2, v2) :: ms2)
              ++ (rbrace :: rest))).dropWhile jsonWs
              = ',' :: (renderJFields ((k2, v2) :: ms2) ++ (rbrace :: rest)) := by
            rw [List.dropWhile_cons, show jsonWs ',' = false from by decide]
            rfl
          rw [hdrop3]
          show (parseJFields f (renderJFields ((k2, v2) :: ms2) ++ (rbrace :: rest))).map
              (fun p => ((k, v) :: p.1, p.2)) = some ((k, v) :: (k2, v2) :: ms2, rest)
          rw [rtFields (k2, v2) ms2 f rest hlen2]
          rfl
        · next h =>
          exact absurd rfl (h _)
      · next h =>
        exact absurd rfl (h _)

end

theorem jsonParse_render (j : Json) : jsonParse (renderJson j) = some j := by
  rw [jsonParse, renderJson]
  have hdata : (String.mk (renderJsonL j)).data = renderJsonL j := rfl
  rw [hdata]
  have hval : parseJVal ((renderJsonL j).length + 1) (renderJsonL j ++ []) = some (j, []) :=
    rtVal j ((renderJsonL j).length + 1) [] (by omega) rfl
  rw [List.append_nil] at hval
  rw [hval]
  rfl

theorem char_toNat_lt (c : Char) : c.toNat < 0x110000 := by
  rcases c.valid with h | h
  · exact Nat.lt_trans h (by norm_num)
  · exact h.2

theorem char_not_surrogate (c : Char) : ¬ (0xD800 ≤ c.toNat ∧ c.toNat < 0xE000) := by
  have he : c.toNat = c.val.toNat := rfl
  rcases c.valid with h | h <;> omega

theorem decodeURIAux_unfold (fuel : Nat) (d1 d2 : Char) (rest : List Char) :
    decodeURIAux (fuel + 1) ('%' :: d1 :: d2 :: rest)
      = (match hexDigitVal d1, hexDigitVal d2 with
        | some hv, some lv =>
          let b0 := 16 * hv + lv
          if b0 < 0x80 then
            (decodeURIAux fuel rest).map (fun t => Char.ofNat b0 :: t)
          else if b0 < 0xC2 then none
          else if b0 < 0xE0 then
            match rest with
            | '%' :: h1 :: l1 :: rest2 =>
              match hexDigitVal h1, hexDigitVal l1 with
              | some hv1, some lv1 =>
                let b1 := 16 * hv1 + lv1
                if 0x80 ≤ b1 ∧ b1 < 0xC0 then
                  (decodeURIAux fuel rest2).map
                    (fun t => Char.ofNat ((b0 - 0xC0) * 64 + (b1 - 0x80)) :: t)
                else none
              | _, _ => none
            | _ => none
          else if b0 < 0xF0 then
            match rest with
            | '%' :: h1 :: l1 :: '%' :: h2 :: l2 :: rest2 =>
              match hexDigitVal h1, hexDigitVal l1, hexDigitVal h2, hexDigitVal l2 with
              | some hv1, some lv1, some hv2, some lv2 =>
                let b1 := 16 * hv1 + lv1
                let b2 := 16 * hv2 + lv2
                let n := (b0 - 0xE0) * 4096 + (b1 - 0x80) * 64 + (b2 - 0x80)
                if (0x80 ≤ b1 ∧ b1 < 0xC0) ∧ (0x80 ≤ b2 ∧ b2 < 0xC0)
                    ∧ 0x800 ≤ n ∧ ¬ (0xD800 ≤ n ∧ n < 0xE000) then
                  (decodeURIAux fuel rest2).map (fun t => Char.ofNat n :: t)
                else none
              | _, _, _, _ => none
            | _ => none
          else if b0 < 0xF5 then
            match rest with
            | '%' :: h1 :: l1 :: '%' :: h2 :: l2 :: '%' :: h3 :: l3 :: rest2 =>
              match hexDigitVal h1, hexDigitVal l1, hexDigitVal h2, hexDigitVal l2,
                  hexDigitVal h3, hexDigitVal l3 with
              | some hv1, some lv1, some hv2, some lv2, some hv3, some lv3 =>
                let b1 := 16 * hv1 + lv1
                let b2 := 16 * hv2 + lv2
                let b3 := 16 * hv3 + lv3
                let n := (b0 - 0xF0) * 262144 + (b1 - 0x80) * 4096
                    + (b2 - 0x80) * 64 + (b3 - 0x80)
                if (0x80 ≤ b1 ∧ b1 < 0xC0) ∧ (0x80 ≤ b2 ∧ b2 < 0xC0)
                    ∧ (0x80 ≤ b3 ∧ b3 < 0xC0)
                    ∧ 0x10000 ≤ n ∧ n < 0x110000 then
                  (decodeURIAux fuel rest2).map (fun t => Char.ofNat n :: t)
                else none
              | _, _, _, _, _, _ => none
            | _ => none
          else none
        | _, _ => none) := rfl

theorem decodeURI_step1 (fuel b : Nat) (d1 d2 : Char) (rest : List Char)
    (h1 : hexDigitVal d1 = some (b / 16)) (h2 : hexDigitVal d2 = some (b % 16))
    (hb : b < 0x80) :
    decodeURIAux (fuel + 1) ('%' :: d1 :: d2 :: rest)
      = (decodeURIAux fuel rest).map (fun t => Char.ofNat b :: t) := by
  rw [decodeURIAux_unfold, h1, h2]
  dsimp only
  have e0 : 16 * (b / 16) + b % 16 = b := by omega
  rw [e0, if_pos hb]

theorem decodeURI_step2 (fuel b0 b1 : Nat) (d1 d2 d3 d4 : Char) (rest : List Char)
    (h1 : hexDigitVal d1 = some (b0 / 16)) (h2 : hexDigitVal d2 = some (b0 % 16))
    (h3 : hexDigitVal d3 = some (b1 / 16)) (h4 : hexDigitVal d4 = some (b1 % 16))
    (hb0 : 0xC2 ≤ b0 ∧ b0 < 0xE0) (hb1 : 0x80 ≤ b1 ∧ b1 < 0xC0) :
    decodeURIAux (fuel + 1) ('%' :: d1 :: d2 :: '%' :: d3 :: d4 :: rest)
      = (decodeURIAux fuel rest).map
          (fun t => Char.ofNat ((b0 - 0xC0) * 64 + (b1 - 0x80)) :: t) := by
  rw [decodeURIAux_unfold, h1, h2]
  dsimp only
  have e0 : 16 * (b0 / 16) + b0 % 16 = b0 := by omega
  have hx1 : ¬ (b0 < 0x80) := by omega
  have hx2 : ¬ (b0 < 0xC2) := by omega
  rw [e0, if_neg hx1, if_neg hx2, if_pos hb0.2]
  split
  · next e1 e2 rest2 heq =>
    obtain ⟨he1, he2, hr⟩ : d3 = e1 ∧ d4 = e2 ∧ rest = rest2 := by
      rw [List.cons.injEq, List.cons.injEq, List.cons.injEq] at heq
      exact ⟨heq.2.1, heq.2.2.1, heq.2.2.2⟩
    subst he1 he2 hr
    rw [h3, h4]
    dsimp only
    have e1 : 16 * (b1 / 16) + b1 % 16 = b1 := by omega
    rw [e1, if_pos hb1]
  · next h =>
    exact absurd rfl (h d3 d4 rest)

theorem decodeURI_step3 (fuel b0 b1 b2 : Nat) (d1 d2 d3 d4 d5 d6 : Char) (rest : List Char)
    (h1 : hexDigitVal d1 = some (b0 / 16)) (h2 : hexDigitVal d2 = some (b0 % 16))
    (h3 : hexDigitVal d3 = some (b1 / 16)) (h4 : hexDigitVal d4 = some (b1 % 16))
    (h5 : hexDigitVal d5 = some (b2 / 16)) (h6 : hexDigitVal d6 = some (b2 % 16))
    (hb0 : 0xE0 ≤ b0 ∧ b0 < 0xF0) (hb1 : 0x80 ≤ b1 ∧ b1 < 0xC0)
    (hb2 : 0x80 ≤ b2 ∧ b2 < 0xC0)
    (hlo : 0x800 ≤ (b0 - 0xE0) * 4096 + (b1 - 0x80) * 64 + (b2 - 0x80))
    (hsur : ¬ (0xD800 ≤ (b0 - 0xE0) * 4096 + (b1 - 0x80) * 64 + (b2 - 0x80)
        ∧ (b0 - 0xE0) * 4096 + (b1 - 0x80) * 64 + (b2 - 0x80) < 0xE000)) :
    decodeURIAux (fuel + 1) ('%' :: d1 :: d2 :: '%' :: d3 :: d4 :: '%' :: d5 :: d6 :: rest)
      = (decodeURIAux fuel rest).map
          (fun t => Char.ofNat ((b0 - 0xE0) * 4096 + (b1 - 0x80) * 64 + (b2 - 0x80)) :: t) := by
  rw [decodeURIAux_unfold, h1, h2]
  dsimp only
  have e0 : 16 * (b0 / 16) + b0 % 16 = b0 := by omega
  have hx1 : ¬ (b0 < 0x80) := by omega
  have hx2 : ¬ (b0 < 0xC2) := by omega
  have hx3 : ¬ (b0 < 0xE0) := by omega
  rw [e0, if_neg hx1, if_neg hx2, if_neg hx3, if_pos hb0.2]
  split
  · next e1 e2 e3 e4 rest2 heq =>
    obtain ⟨he1, he2, he3, he4, hr⟩ : d3 = e1 ∧ d4 = e2 ∧ d5 = e3 ∧ d6 = e4 ∧ rest = rest2 := by
      rw [List.cons.injEq, List.cons.injEq, List.cons.injEq, List.cons.injEq,
        List.cons.injEq, List.cons.injEq] at heq
      exact ⟨heq.2.1, heq.2.2.1, heq.2.2.2.2.1, heq.2.2.2.2.2.1, heq.2.2.2.2.2.2⟩
    subst he1 he2 he3 he4 hr
    rw [h3, h4, h5, h6]
    dsimp only
    have e1 : 16 * (b1 / 16) + b1 % 16 = b1 := by omega
    have e2 : 16 * (b2 / 16) + b2 % 16 = b2 := by omega
    rw [e1, e2, if_pos ⟨hb1, hb2, hlo, hsur⟩]
  · next h =>
    exact absurd rfl (h d3 d4 d5 d6 rest)

theorem decodeURI_step4 (fuel b0 b1 b2 b3 : Nat) (d1 d2 d3 d4 d5 d6 d7 d8 : Char)
    (rest : List Char)
    (h1 : hexDigitVal d1 = some (b0 / 16)) (h2 : hexDigitVal d2 = some (b0 % 16))
    (h3 : hexDigitVal d3 = some (b1 / 16)) (h4 : hexDigitVal d4 = some (b1 % 16))
    (h5 : hexDigitVal d5 = some (b2 / 16)) (h6 : hexDigitVal d6 = some (b2 % 16))
    (h7 : hexDigitVal d7 = some (b3 / 16)) (h8 : hexDigitVal d8 = some (b3 % 16))
    (hb0 : 0xF0 ≤ b0 ∧ b0 < 0xF5) (hb1 : 0x80 ≤ b1 ∧ b1 < 0xC0)
    (hb2 : 0x80 ≤ b2 ∧ b2 < 0xC0) (hb3 : 0x80 ≤ b3 ∧ b3 < 0xC0)
    (hlo : 0x10000 ≤ (b0 - 0xF0) * 262144 + (b1 - 0x80) * 4096 + (b2 - 0x80) * 64 + (b3 - 0x80))
    (hhi : (b0 - 0xF0) * 262144 + (b1 - 0x80) * 4096 + (b2 - 0x80) * 64 + (b3 - 0x80)
        < 0x110000) :
    decodeURIAux (fuel + 1)
        ('%' :: d1 :: d2 :: '%' :: d3 :: d4 :: '%' :: d5 :: d6 :: '%' :: d7 :: d8 :: rest)
      = (decodeURIAux fuel rest).map
          (fun t => Char.ofNat ((b0 - 0xF0) * 262144 + (b1 - 0x80) * 4096
              + (b2 - 0x80) * 64 + (b3 - 0x80)) :: t) := by
  rw [decodeURIAux_unfold, h1, h2]
  dsimp only
  have e0 : 16 * (b0 / 16) + b0 % 16 = b0 := by omega
  have hx1 : ¬ (b0 < 0x80) := by omega
  have hx2 : ¬ (b0 < 0xC2) := by omega
  have hx3 : ¬ (b0 < 0xE0) := by omega
  have hx4 : ¬ (b0 < 0xF0) := by omega
  rw [e0, if_neg hx1, if_neg hx2, if_neg hx3, if_neg hx4, if_pos hb0.2]
  split
  · next e1 e2 e3 e4 e5 e6 rest2 heq =>
    obtain ⟨he1, he2, he3, he4, he5, he6, hr⟩ :
        d3 = e1 ∧ d4 = e2 ∧ d5 = e3 ∧ d6 = e4 ∧ d7 = e5 ∧ d8 = e6 ∧ rest = rest2 := by
      rw [List.cons.injEq, List.cons.injEq, List.cons.injEq, List.cons.injEq,
        List.cons.injEq, List.cons.injEq, List.cons.injEq, List.cons.injEq,
        List.cons.injEq] at heq
      exact ⟨heq.2.1, heq.2.2.1, heq.2.2.2.2.1, heq.2.2.2.2.2.1,
        heq.2.2.2.2.2.2.2.1, heq.2.2.2.2.2.2.2.2.1, heq.2.2.2.2.2.2.2.2.2⟩
    subst he1 he2 he3 he4 he5 he6 hr
    rw [h3, h4, h5, h6, h7, h8]
    dsimp only
    have e1 : 16 * (b1 / 16) + b1 % 16 = b1 := by omega
    have e2 : 16 * (b2 / 16) + b2 % 16 = b2 := by omega
    have e3 : 16 * (b3 / 16) + b3 % 16 = b3 := by omega
    rw [e1, e2, e3, if_pos ⟨hb1, hb2, hb3, hlo, hhi⟩]
  · next h =>
    exact absurd rfl (h d3 d4 d5 d6 d7 d8 rest)

theorem utf8EncodeChar_len_pos (c : Char) : 1 ≤ (utf8EncodeChar c).length := by
  rw [utf8EncodeChar]
  split
  · simp
  · split
    · simp
    · split
      · simp
      · simp

theorem escBytes_triple_length (bs : List Nat) :
    (bs.flatMap (fun b => ['%', lowerHexDigit (b / 16), lowerHexDigit (b % 16)])).length
      = 3 * bs.length := by
  induction bs with
  | nil => rfl
  | cons b bt ih =>
    rw [List.flatMap_cons, List.length_append, ih]
    simp only [List.length_cons, List.length_nil]
    omega

theorem escBytes_length (cs : List Char) :
    cs.length ≤ ((cs.flatMap utf8EncodeChar).flatMap
      (fun b => ['%', lowerHexDigit (b / 16), lowerHexDigit (b % 16)])).length := by
  rw [escBytes_triple_length]
  have h : cs.length ≤ (cs.flatMap utf8EncodeChar).length := by
    induction cs with
    | nil => simp
    | cons c t ih =>
      rw [List.flatMap_cons, List.length_append, List.length_cons]
      have := utf8EncodeChar_len_pos c
      omega
  omega

theorem decodeURIAux_escBytes : ∀ (cs : List Char) (fuel : Nat),
    cs.length ≤ fuel →
    decodeURIAux fuel ((cs.flatMap utf8EncodeChar).flatMap
        (fun b => ['%', lowerHexDigit (b / 16), lowerHexDigit (b % 16)]))
      = some cs
  | [], fuel, _ => by cases fuel <;> rfl
  | c :: t, fuel, hlen => by
    match fuel, hlen with
    | f + 1, hlen =>
      have hlt : t.length ≤ f := by
        simp only [List.length_cons] at hlen
        omega
      have ih := decodeURIAux_escBytes t f hlt
      have hvalid := char_toNat_lt c
      have hsurr := char_not_surrogate c
      by_cases hc1 : c.toNat < 0x80
      · have hu : utf8EncodeChar c = [c.toNat] := by
          rw [utf8EncodeChar]
          rw [if_pos hc1]
        have hshape : ((c :: t).flatMap utf8EncodeChar).flatMap
              (fun b => ['%', lowerHexDigit (b / 16), lowerHexDigit (b % 16)])
            = '%' :: lowerHexDigit (c.toNat / 16) :: lowerHexDigit (c.toNat % 16)
              :: (t.flatMap utf8EncodeChar).flatMap
                (fun b => ['%', lowerHexDigit (b / 16), lowerHexDigit (b % 16)]) := by
          rw [List.flatMap_cons, hu]
          simp [List.flatMap_append]
        rw [hshape, decodeURI_step1 f c.toNat _ _ _
          (hexDigitVal_lower (by omega)) (hexDigitVal_lower (by omega)) hc1, ih]
        simp [Char.ofNat_toNat]
      · by_cases hc2 : c.toNat < 0x800
        · have hu : utf8EncodeChar c = [0xC0 + c.toNat / 64, 0x80 + c.toNat % 64] := by
            rw [utf8EncodeChar]
            rw [if_neg hc1, if_pos hc2]
          have hshape : ((c :: t).flatMap utf8EncodeChar).flatMap
                (fun b => ['%', lowerHexDigit (b / 16), lowerHexDigit (b % 16)])
              = '%' :: lowerHexDigit ((0xC0 + c.toNat / 64) / 16)
                :: lowerHexDigit ((0xC0 + c.toNat / 64) % 16)
                :: '%' :: lowerHexDigit ((0x80 + c.toNat % 64) / 16)
                :: lowerHexDigit ((0x80 + c.toNat % 64) % 16)
                :: (t.flatMap utf8EncodeChar).flatMap
                  (fun b => ['%', lowerHexDigit (b / 16), lowerHexDigit (b % 16)]) := by
            rw [List.flatMap_cons, hu]
            simp [List.flatMap_append]
          rw [hshape, decodeURI_step2 f (0xC0 + c.toNat / 64) (0x80 + c.toNat % 64) _ _ _ _ _
            (hexDigitVal_lower (by omega)) (hexDigitVal_lower (by omega))
            (hexDigitVal_lower (by omega)) (hexDigitVal_lower (by omega))
            (by omega) (by omega)]
          have harg : (0xC0 + c.toNat / 64 - 0xC0) * 64 + (0x80 + c.toNat % 64 - 0x80)
              = c.toNat := by omega
          rw [harg, ih]
          simp [Char.ofNat_toNat]
        · by_cases hc3 : c.toNat < 0x10000
          · have hu : utf8EncodeChar c
                = [0xE0 + c.toNat / 4096, 0x80 + c.toNat / 64 % 64, 0x80 + c.toNat % 64] := by
              rw [utf8EncodeChar]
              rw [if_neg hc1, if_neg hc2, if_pos hc3]
            have hshape : ((c :: t).flatMap utf8EncodeChar).flatMap
                  (fun b => ['%', lowerHexDigit (b / 16), lowerHexDigit (b % 16)])
                = '%' :: lowerHexDigit ((0xE0 + c.toNat / 4096) / 16)
                  :: lowerHexDigit ((0xE0 + c.toNat / 4096) % 16)
                  :: '%' :: lowerHexDigit ((0x80 + c.toNat / 64 % 64) / 16)
                  :: lowerHexDigit ((0x80 + c.toNat / 64 % 64) % 16)
                  :: '%' :: lowerHexDigit ((0x80 + c.toNat % 64) / 16)
                  :: lowerHexDigit ((0x80 + c.toNat % 64) % 16)
                  :: (t.flatMap utf8EncodeChar).flatMap
                    (fun b => ['%', lowerHexDigit (b / 16), lowerHexDigit (b % 16)]) := by
              rw [List.flatMap_cons, hu]
              simp [List.flatMap_append]
            rw [hshape, decodeURI_step3 f (0xE0 + c.toNat / 4096) (0x80 + c.toNat / 64 % 64)
              (0x80 + c.toNat % 64) _ _ _ _ _ _ _
              (hexDigitVal_lower (by omega)) (hexDigitVal_lower (by omega))
              (hexDigitVal_lower (by omega)) (hexDigitVal_lower (by omega))
              (hexDigitVal_lower (by omega)) (hexDigitVal_lower (by omega))
              (by omega) (by omega) (by omega) (by omega) (by omega)]
            have harg : (0xE0 + c.toNat / 4096 - 0xE0) * 4096
                + (0x80 + c.toNat / 64 % 64 - 0x80) * 64 + (0x80 + c.toNat % 64 - 0x80)
                = c.toNat := by omega
            rw [harg, ih]
            simp [Char.ofNat_toNat]
          · have hu : utf8EncodeChar c
                = [0xF0 + c.toNat / 262144, 0x80 + c.toNat / 4096 % 64,
                   0x80 + c.toNat / 64 % 64, 0x80 + c.toNat % 64] := by
              rw [utf8EncodeChar]
              rw [if_neg hc1, if_neg hc2, if_neg hc3]
            have hshape : ((c :: t).flatMap utf8EncodeChar).flatMap
                  (fun b => ['%', lowerHexDigit (b / 16), lowerHexDigit (b % 16)])
                = '%' :: lowerHexDigit ((0xF0 + c.toNat / 262144) / 16)
                  :: lowerHexDigit ((0xF0 + c.toNat / 262144) % 16)
                  :: '%' :: lowerHexDigit ((0x80 + c.toNat / 4096 % 64) / 16)
                  :: lowerHexDigit ((0x80 + c.toNat / 4096 % 64) % 16)
                  :: '%' :: lowerHexDigit ((0x80 + c.toNat / 64 % 64) / 16)
                  :: lowerHexDigit ((0x80 + c.toNat / 64 % 64) % 16)
                  :: '%' :: lowerHexDigit ((0x80 + c.toNat % 64) / 16)
                  :: lowerHexDigit ((0x80 + c.toNat % 64) % 16)
                  :: (t.flatMap utf8EncodeChar).flatMap
                    (fun b => ['%', lowerHexDigit (b / 16), lowerHexDigit (b % 16)]) := by
              rw [List.flatMap_cons, hu]
              simp [List.flatMap_append]
            rw [hshape, decodeURI_step4 f (0xF0 + c.toNat / 262144)
              (0x80 + c.toNat / 4096 % 64) (0x80 + c.toNat / 64 % 64) (0x80 + c.toNat % 64)
              _ _ _ _ _ _ _ _ _
              (hexDigitVal_lower (by omega)) (hexDigitVal_lower (by omega))
              (hexDigitVal_lower (by omega)) (hexDigitVal_lower (by omega))
              (hexDigitVal_lower (by omega)) (hexDigitVal_lower (by omega))
              (hexDigitVal_lower (by omega)) (hexDigitVal_lower (by omega))
              (by omega) (by omega) (by omega) (by omega) (by omega) (by omega)]
            have harg : (0xF0 + c.toNat / 262144 - 0xF0) * 262144
                + (0x80 + c.toNat / 4096 % 64 - 0x80) * 4096
                + (0x80 + c.toNat / 64 % 64 - 0x80) * 64 + (0x80 + c.toNat % 64 - 0x80)
                = c.toNat := by omega
            rw [harg, ih]
            simp [Char.ofNat_toNat]

theorem decodeURI_escBytes (cs : List Char) :
    decodeURIComponentL ((cs.flatMap utf8EncodeChar).flatMap
        (fun b => ['%', lowerHexDigit (b / 16), lowerHexDigit (b % 16)]))
      = some cs := by
  rw [decodeURIComponentL]
  exact decodeURIAux_escBytes cs _ (escBytes_length cs)

theorem rhe_esc (h l : Char) (hv lv : Nat) (rest : List Char)
    (hh : upperHexVal h = some hv) (hl : upperHexVal l = some lv) :
    replaceHexEscapes ('%' :: h :: l :: rest)
      = Char.ofNat (16 * hv + lv) :: replaceHexEscapes rest := by
  rw [replaceHexEscapes, hh, hl]

theorem rhe_pass (c : Char) (rest : List Char) (hc : c ≠ '%') :
    replaceHexEscapes (c :: rest) = c :: replaceHexEscapes rest := by
  rw [replaceHexEscapes]
  intro h l rest1 hceq hrest
  exact hc hceq

theorem utf8EncodeChar_lt256 (c : Char) : ∀ b ∈ utf8EncodeChar c, b < 256 := by
  have hv := char_toNat_lt c
  rw [utf8EncodeChar]
  split
  · next h =>
    intro b hb
    simp only [List.mem_singleton] at hb
    omega
  · next h =>
    split
    · next h2 =>
      intro b hb
      simp only [List.mem_cons, List.not_mem_nil, or_false] at hb
      rcases hb with hb | hb <;> omega
    · next h2 =>
      split
      · next h3 =>
        intro b hb
        simp only [List.mem_cons, List.not_mem_nil, or_false] at hb
        rcases hb with hb | hb | hb <;> omega
      · next h3 =>
        intro b hb
        simp only [List.mem_cons, List.not_mem_nil, or_false] at hb
        rcases hb with hb | hb | hb | hb <;> omega

theorem rhe_escBytes (bs : List Nat) (rest : List Char) (hbs : ∀ b ∈ bs, b < 256) :
    replaceHexEscapes
        (bs.flatMap (fun b => ['%', upperHexDigit (b / 16), upperHexDigit (b % 16)]) ++ rest)
      = bs.map Char.ofNat ++ replaceHexEscapes rest := by
  induction bs with
  | nil => simp
  | cons b bt ih =>
    have hb : b < 256 := hbs b (by simp)
    have hshape : ((b :: bt).flatMap
          (fun b => ['%', upperHexDigit (b / 16), upperHexDigit (b % 16)])) ++ rest
        = '%' :: upperHexDigit (b / 16) :: upperHexDigit (b % 16)
          :: (bt.flatMap (fun b => ['%', upperHexDigit (b / 16), upperHexDigit (b % 16)])
            ++ rest) := by
      rw [List.flatMap_cons]
      simp
    rw [hshape, rhe_esc _ _ (b / 16) (b % 16) _
      (upperHexVal_upper (by omega)) (upperHexVal_upper (by omega))]
    have harg : 16 * (b / 16) + b % 16 = b := by omega
    rw [harg, ih (fun x hx => hbs x (by simp [hx]))]
    simp

theorem uriUnreserved_lt {c : Char} (h : uriUnreserved c = true) : c.toNat < 0x80 := by
  rw [uriUnreserved] at h
  simp only [Bool.or_eq_true, Bool.and_eq_true, decide_eq_true_eq, List.mem_cons,
    List.not_mem_nil, or_false] at h
  rcases h with ((h | h) | h) | h
  · omega
  · omega
  · omega
  · rcases h with h | h | h | h | h | h | h | h | h <;> omega

theorem uriUnreserved_ne {c : Char} (h : uriUnreserved c = true) : c ≠ '%' := by
  intro hc
  subst hc
  exact absurd h (by decide)

theorem rhe_encodeURI (cs : List Char) :
    replaceHexEscapes (encodeURIComponentL cs)
      = (cs.flatMap utf8EncodeChar).map Char.ofNat := by
  induction cs with
  | nil => rfl
  | cons c t ih =>
    rw [encodeURIComponentL, List.flatMap_cons, ← encodeURIComponentL]
    by_cases hc : uriUnreserved c
    · rw [if_pos hc]
      have hlt : c.toNat < 0x80 := uriUnreserved_lt hc
      have hu : utf8EncodeChar c = [c.toNat] := by
        rw [utf8EncodeChar]
        rw [if_pos hlt]
      rw [List.singleton_append, rhe_pass c _ (uriUnreserved_ne hc), ih,
        List.flatMap_cons, List.map_append, hu]
      simp [Char.ofNat_toNat]
    · rw [if_neg hc, rhe_escBytes _ _ (utf8EncodeChar_lt256 c), ih,
        List.flatMap_cons, List.map_append]

theorem char_toNat_ofNat {b : Nat} (h : b < 256) : (Char.ofNat b).toNat = b := by
  have hv : b.isValidChar := Or.inl (by omega)
  simp [Char.ofNat, hv, Char.toNat, Char.ofNatAux, UInt32.toNat, BitVec.toNat_ofNatLt]

theorem map_ofNat_toNat (bs : List Nat) (h : ∀ b ∈ bs, b < 256) :
    (bs.map Char.ofNat).map Char.toNat = bs := by
  induction bs with
  | nil => rfl
  | cons b bt ih =>
    rw [List.map_cons, List.map_cons, char_toNat_ofNat (h b (by simp)),
      ih (fun x hx => h x (by simp [hx]))]

theorem string_mk_data (s : String) : String.mk s.data = s := by
  cases s
  rfl

theorem b64Index_b64Char {i : Nat} (h : i < 64) : b64Index (b64Char i) = some i := by
  interval_cases i <;> rfl

theorem b64Char_ne_eq {i : Nat} (h : i < 64) : b64Char i ≠ '=' := by
  interval_cases i <;> decide

theorem b64_remap_unremap {i : Nat} (h : i < 64) :
    b64UrlUnremapChar (b64UrlRemapChar (b64Char i)) = b64Char i := by
  interval_cases i <;> rfl

theorem b64_remap_ne_eq {i : Nat} (h : i < 64) : b64UrlRemapChar (b64Char i) ≠ '=' := by
  interval_cases i <;> decide

theorem b64_not_ws {i : Nat} (h : i < 64) : b64Whitespace (b64Char i) = false := by
  interval_cases i <;> rfl

theorem b64EncodeCore_mem : ∀ (bs : List Nat), (∀ b ∈ bs, b < 256) →
    ∀ c ∈ b64EncodeCore bs, ∃ i, i < 64 ∧ c = b64Char i
  | [], _, c, hc => by simp [b64EncodeCore] at hc
  | [b0], h, c, hc => by
    have hb0 : b0 < 256 := h b0 (by simp)
    simp only [b64EncodeCore, List.mem_cons, List.not_mem_nil, or_false] at hc
    rcases hc with rfl | rfl
    · exact ⟨b0 / 4, by omega, rfl⟩
    · exact ⟨b0 % 4 * 16, by omega, rfl⟩
  | [b0, b1], h, c, hc => by
    have hb0 : b0 < 256 := h b0 (by simp)
    have hb1 : b1 < 256 := h b1 (by simp)
    simp only [b64EncodeCore, List.mem_cons, List.not_mem_nil, or_false] at hc
    rcases hc with rfl | rfl | rfl
    · exact ⟨b0 / 4, by omega, rfl⟩
    · exact ⟨b0 % 4 * 16 + b1 / 16, by omega, rfl⟩
    · exact ⟨b1 % 16 * 4, by omega, rfl⟩
  | b0 :: b1 :: b2 :: rest, h, c, hc => by
    have hb0 : b0 < 256 := h b0 (by simp)
    have hb1 : b1 < 256 := h b1 (by simp)
    have hb2 : b2 < 256 := h b2 (by simp)
    have henc : b64EncodeCore (b0 :: b1 :: b2 :: rest)
        = b64Char (b0 / 4) :: b64Char (b0 % 4 * 16 + b1 / 16)
          :: b64Char (b1 % 16 * 4 + b2 / 64) :: b64Char (b2 % 64)
          :: b64EncodeCore rest := rfl
    rw [henc] at hc
    simp only [List.mem_cons] at hc
    rcases hc with rfl | rfl | rfl | rfl | hc
    · exact ⟨b0 / 4, by omega, rfl⟩
    · exact ⟨b0 % 4 * 16 + b1 / 16, by omega, rfl⟩
    · exact ⟨b1 % 16 * 4 + b2 / 64, by omega, rfl⟩
    · exact ⟨b2 % 64, by omega, rfl⟩
    · exact b64EncodeCore_mem rest (fun x hx => h x (by simp [hx])) c hc

theorem b64DecodeChunks_encodeCore : ∀ (bs : List Nat), (∀ b ∈ bs, b < 256) →
    b64DecodeChunks (b64EncodeCore bs) = some bs
  | [], _ => rfl
  | [b0], h => by
    have hb0 : b0 < 256 := h b0 (by simp)
    have henc : b64EncodeCore [b0] = [b64Char (b0 / 4), b64Char (b0 % 4 * 16)] := rfl
    rw [henc, b64DecodeChunks, b64Index_b64Char (by omega), b64Index_b64Char (by omega)]
    show some [b0 / 4 * 4 + b0 % 4 * 16 / 16] = some [b0]
    have e0 : b0 / 4 * 4 + b0 % 4 * 16 / 16 = b0 := by omega
    rw [e0]
  | [b0, b1], h => by
    have hb0 : b0 < 256 := h b0 (by simp)
    have hb1 : b1 < 256 := h b1 (by simp)
    have henc : b64EncodeCore [b0, b1]
        = [b64Char (b0 / 4), b64Char (b0 % 4 * 16 + b1 / 16), b64Char (b1 % 16 * 4)] := rfl
    rw [henc, b64DecodeChunks, b64Index_b64Char (by omega), b64Index_b64Char (by omega),
      b64Index_b64Char (by omega)]
    dsimp only
    have e0 : b0 / 4 * 4 + (b0 % 4 * 16 + b1 / 16) / 16 = b0 := by omega
    have e1 : (b0 % 4 * 16 + b1 / 16) % 16 * 16 + b1 % 16 * 4 / 4 = b1 := by omega
    rw [e0, e1]
  | b0 :: b1 :: b2 :: rest, h => by
    have hb0 : b0 < 256 := h b0 (by simp)
    have hb1 : b1 < 256 := h b1 (by simp)
    have hb2 : b2 < 256 := h b2 (by simp)
    have ih := b64DecodeChunks_encodeCore rest (fun x hx => h x (by simp [hx]))
    have henc : b64EncodeCore (b0 :: b1 :: b2 :: rest)
        = b64Char (b0 / 4) :: b64Char (b0 % 4 * 16 + b1 / 16)
          :: b64Char (b1 % 16 * 4 + b2 / 64) :: b64Char (b2 % 64)
          :: b64EncodeCore rest := rfl
    rw [henc, b64DecodeChunks, b64Index_b64Char (by omega), b64Index_b64Char (by omega),
      b64Index_b64Char (by omega), b64Index_b64Char (by omega)]
    dsimp only
    rw [ih]
    simp only [Option.map]
    have e0 : b0 / 4 * 4 + (b0 % 4 * 16 + b1 / 16) / 16 = b0 := by omega
    have e1 : (b0 % 4 * 16 + b1 / 16) % 16 * 16 + (b1 % 16 * 4 + b2 / 64) / 4 = b1 := by omega
    have e2 : (b1 % 16 * 4 + b2 / 64) % 4 * 64 + b2 % 64 = b2 := by omega
    rw [e0, e1, e2]

theorem b64EncodeCore_len_mod : ∀ (bs : List Nat),
    (b64EncodeCore bs).length = bs.length / 3 * 4
      + (if bs.length % 3 = 0 then 0 else bs.length % 3 + 1)
  | [] => rfl
  | [b0] => by
    rw [show b64EncodeCore [b0] = [b64Char (b0 / 4), b64Char (b0 % 4 * 16)] from rfl]
    simp
  | [b0, b1] => by
    rw [show b64EncodeCore [b0, b1]
        = [b64Char (b0 / 4), b64Char (b0 % 4 * 16 + b1 / 16), b64Char (b1 % 16 * 4)] from rfl]
    simp
  | b0 :: b1 :: b2 :: rest => by
    have ih := b64EncodeCore_len_mod rest
    have henc : (b64EncodeCore (b0 :: b1 :: b2 :: rest)).length
        = 4 + (b64EncodeCore rest).length := by
      rw [show b64EncodeCore (b0 :: b1 :: b2 :: rest)
          = b64Char (b0 / 4) :: b64Char (b0 % 4 * 16 + b1 / 16)
            :: b64Char (b1 % 16 * 4 + b2 / 64) :: b64Char (b2 % 64)
            :: b64EncodeCore rest from rfl]
      simp only [List.length_cons]
      omega
    rw [henc, ih]
    simp only [List.length_cons]
    have h3 : rest.length % 3 = 0 ∨ rest.length % 3 = 1 ∨ rest.length % 3 = 2 := by omega
    rcases h3 with h3 | h3 | h3
    · have ho : (rest.length + 1 + 1 + 1) % 3 = 0 := by omega
      rw [if_pos ho, if_pos h3]
      omega
    · have ho : ¬ ((rest.length + 1 + 1 + 1) % 3 = 0) := by omega
      have hi : ¬ (rest.length % 3 = 0) := by omega
      rw [if_neg ho, if_neg hi]
      omega
    · have ho : ¬ ((rest.length + 1 + 1 + 1) % 3 = 0) := by omega
      have hi : ¬ (rest.length % 3 = 0) := by omega
      rw [if_neg ho, if_neg hi]
      omega

theorem mem_b64Pad {c : Char} {n : Nat} (hc : c ∈ b64Pad n) : c = '=' := by
  rw [b64Pad] at hc
  split at hc
  · simp at hc
    exact hc
  · split at hc
    · simp at hc
      exact hc
    · simp at hc

theorem b64_filter_noop (bs : List Nat) (h : ∀ b ∈ bs, b < 256) :
    (b64EncodeCore bs ++ b64Pad bs.length).filter (fun c => ! b64Whitespace c)
      = b64EncodeCore bs ++ b64Pad bs.length := by
  apply List.filter_eq_self.mpr
  intro c hc
  rcases List.mem_append.mp hc with hc | hc
  · obtain ⟨i, hi, rfl⟩ := b64EncodeCore_mem bs h c hc
    simp [b64_not_ws hi]
  · rw [mem_b64Pad hc]
    decide

theorem dropWhile_append_all (p : Char → Bool) : ∀ (l1 l2 : List Char),
    (∀ c ∈ l1, p c = true) → (l1 ++ l2).dropWhile p = l2.dropWhile p
  | [], l2, _ => by simp
  | c :: t, l2, h => by
    rw [List.cons_append, List.dropWhile_cons, h c (by simp), if_pos rfl]
    exact dropWhile_append_all p t l2 (fun x hx => h x (by simp [hx]))

theorem dropWhile_eq_self_of_head (p : Char → Bool) (l : List Char)
    (h : ∀ c ∈ l, p c = false) : l.dropWhile p = l := by
  cases l with
  | nil => rfl
  | cons c t =>
    rw [List.dropWhile_cons, h c (by simp)]
    simp

theorem stripTrailingEq_append_pad (A : List Char) (n : Nat)
    (hA : ∀ c ∈ A, c ≠ '=') :
    stripTrailingEq (A ++ b64Pad n) = A := by
  rw [stripTrailingEq, List.reverse_append]
  rw [dropWhile_append_all _ (b64Pad n).reverse A.reverse
    (fun c hc => by rw [mem_b64Pad (List.mem_reverse.mp hc)]; rfl)]
  rw [dropWhile_eq_self_of_head _ A.reverse
    (fun c hc => beq_eq_false_iff_ne.mpr (hA c (List.mem_reverse.mp hc)))]
  exact List.reverse_reverse A

theorem stripB64Pad_enc_pad (bs : List Nat) (h : ∀ b ∈ bs, b < 256) :
    stripB64Pad (b64EncodeCore bs ++ b64Pad bs.length) = b64EncodeCore bs := by
  have hne : ∀ c ∈ b64EncodeCore bs, c ≠ '=' := fun c hc => by
    obtain ⟨i, hi, rfl⟩ := b64EncodeCore_mem bs h c hc
    exact b64Char_ne_eq hi
  have hlen := b64EncodeCore_len_mod bs
  have h3 : bs.length % 3 = 0 ∨ bs.length % 3 = 1 ∨ bs.length % 3 = 2 := by omega
  rcases h3 with h3 | h3 | h3
  · -- no padding
    have hpad : b64Pad bs.length = [] := by
      rw [b64Pad, if_neg (by omega), if_neg (by omega)]
    rw [hpad, List.append_nil]
    rw [if_pos h3] at hlen
    have h4 : (b64EncodeCore bs).length % 4 = 0 := by omega
    rw [stripB64Pad, if_pos h4]
    split
    · rename_i r heq
      have hmem : '=' ∈ b64EncodeCore bs := by
        rw [← List.mem_reverse, heq]
        simp
      exact absurd rfl (hne '=' hmem)
    · rename_i hall heq
      have hmem : '=' ∈ b64EncodeCore bs := by
        rw [← List.mem_reverse, heq]
        simp
      exact absurd rfl (hne '=' hmem)
    · rfl
  · -- two characters of padding
    have hpad : b64Pad bs.length = ['=', '='] := by
      rw [b64Pad, if_pos h3]
    rw [if_neg (by omega)] at hlen
    have h4 : (b64EncodeCore bs ++ b64Pad bs.length).length % 4 = 0 := by
      rw [hpad]
      simp only [List.length_append, List.length_cons, List.length_nil]
      omega
    rw [stripB64Pad, if_pos h4, hpad]
    have hrev : (b64EncodeCore bs ++ ['=', '=']).reverse
        = '=' :: '=' :: (b64EncodeCore bs).reverse := by
      simp
    rw [hrev]
    split
    · rename_i r heq
      have hr : (b64EncodeCore bs).reverse = r := by
        rw [List.cons.injEq, List.cons.injEq] at heq
        exact heq.2.2
      rw [← hr, List.reverse_reverse]
    · rename_i hall heq
      rw [List.cons.injEq] at heq
      exact ((hall _ heq.2.symm).elim)
    · rename_i h1 h2
      exact ((h1 (b64EncodeCore bs).reverse rfl).elim)
  · -- one character of padding
    have hpad : b64Pad bs.length = ['='] := by
      rw [b64Pad, if_neg (by omega), if_pos h3]
    rw [if_neg (by omega)] at hlen
    have h4 : (b64EncodeCore bs ++ b64Pad bs.length).length % 4 = 0 := by
      rw [hpad]
      simp only [List.length_append, List.length_cons, List.length_nil]
      omega
    have hpos : 0 < (b64EncodeCore bs).length := by omega
    obtain ⟨c, t, hct⟩ : ∃ c t, (b64EncodeCore bs).reverse = c :: t := by
      cases hrv : (b64EncodeCore bs).reverse with
      | nil =>
        have hz : (b64EncodeCore bs).length = 0 := by
          rw [← List.length_reverse, hrv]
          rfl
        omega
      | cons c t => exact ⟨c, t, rfl⟩
    have hcne : c ≠ '=' := by
      apply hne
      rw [← List.mem_reverse, hct]
      simp
    rw [stripB64Pad, if_pos h4, hpad]
    have hrev : (b64EncodeCore bs ++ ['=']).reverse = '=' :: c :: t := by
      rw [List.reverse_append, hct]
      rfl
    rw [hrev]
    split
    · rename_i r heq
      have hc : c = '=' := by
        rw [List.cons.injEq, List.cons.injEq] at heq
        exact heq.2.1
      exact absurd hc hcne
    · rename_i hall heq
      rw [List.cons.injEq] at heq
      rw [← heq.2, ← hct, List.reverse_reverse]
    · rename_i h1 h2
      exact ((h2 (c :: t) rfl).elim)

theorem padB64_encodeCore (bs : List Nat) :
    padB64 (b64EncodeCore bs) = b64EncodeCore bs ++ b64Pad bs.length := by
  have hlen := b64EncodeCore_len_mod bs
  have h3 : bs.length % 3 = 0 ∨ bs.length % 3 = 1 ∨ bs.length % 3 = 2 := by omega
  rcases h3 with h3 | h3 | h3
  · rw [if_pos h3] at hlen
    have h4 : (b64EncodeCore bs).length % 4 = 0 := by omega
    rw [padB64, if_pos h4, b64Pad, if_neg (by omega), if_neg (by omega), List.append_nil]
  · rw [if_neg (by omega)] at hlen
    have h4 : (b64EncodeCore bs).length % 4 = 2 := by omega
    rw [padB64, if_neg (by omega), b64Pad, if_pos h3, h4]
    rfl
  · rw [if_neg (by omega)] at hlen
    have h4 : (b64EncodeCore bs).length % 4 = 3 := by omega
    rw [padB64, if_neg (by omega), b64Pad, if_neg (by omega), if_pos h3, h4]
    rfl

theorem map_remap_pad (n : Nat) : (b64Pad n).map b64UrlRemapChar = b64Pad n := by
  rw [b64Pad]
  split
  · rfl
  · split
    · rfl
    · rfl

theorem map_unremap_remap_enc (bs : List Nat) (h : ∀ b ∈ bs, b < 256) :
    ((b64EncodeCore bs).map b64UrlRemapChar).map b64UrlUnremapChar = b64EncodeCore bs := by
  rw [List.map_map]
  have hpt : ∀ c ∈ b64EncodeCore bs, (b64UrlUnremapChar ∘ b64UrlRemapChar) c = c := by
    intro c hc
    obtain ⟨i, hi, rfl⟩ := b64EncodeCore_mem bs h c hc
    exact b64_remap_unremap hi
  rw [List.map_congr_left hpt]
  simp

theorem enc_remap_ne_eq (bs : List Nat) (h : ∀ b ∈ bs, b < 256) :
    ∀ c ∈ (b64EncodeCore bs).map b64UrlRemapChar, c ≠ '=' := by
  intro c hc
  rcases List.mem_map.mp hc with ⟨d, hd, rfl⟩
  obtain ⟨i, hi, rfl⟩ := b64EncodeCore_mem bs h d hd
  exact b64_remap_ne_eq hi

theorem fromBase64Url_toBase64Url (s : String) :
    ∃ t, toBase64Url s = some t ∧ fromBase64Url t = some s := by
  have hbytes : ∀ b ∈ s.data.flatMap utf8EncodeChar, b < 256 := by
    intro b hb
    rcases List.mem_flatMap.mp hb with ⟨c, hc, hbc⟩
    exact utf8EncodeChar_lt256 c b hbc
  refine ⟨String.mk ((b64EncodeCore (s.data.flatMap utf8EncodeChar)).map b64UrlRemapChar),
    ?_, ?_⟩
  · rw [toBase64Url]
    rw [rhe_encodeURI, map_ofNat_toNat _ hbytes, btoa,
      if_pos (List.all_eq_true.mpr (fun b hb => by simp [hbytes b hb]))]
    rw [Option.map]
    rw [List.map_append, map_remap_pad,
      stripTrailingEq_append_pad _ _ (enc_remap_ne_eq _ hbytes)]
  · rw [fromBase64Url]
    have hdata : (String.mk ((b64EncodeCore (s.data.flatMap utf8EncodeChar)).map
        b64UrlRemapChar)).data
        = (b64EncodeCore (s.data.flatMap utf8EncodeChar)).map b64UrlRemapChar := rfl
    rw [hdata, map_unremap_remap_enc _ hbytes, padB64_encodeCore]
    rw [atobCodes]
    rw [b64_filter_noop _ hbytes, stripB64Pad_enc_pad _ hbytes]
    have hlen := b64EncodeCore_len_mod (s.data.flatMap utf8EncodeChar)
    have hmod : ¬ ((b64EncodeCore (s.data.flatMap utf8EncodeChar)).length % 4 = 1) := by
      have h3 : (s.data.flatMap utf8EncodeChar).length % 3 = 0
          ∨ (s.data.flatMap utf8EncodeChar).length % 3 = 1
          ∨ (s.data.flatMap utf8EncodeChar).length % 3 = 2 := by omega
      rcases h3 with h3 | h3 | h3
      · rw [if_pos h3] at hlen
        omega
      · rw [if_neg (by omega)] at hlen
        omega
      · rw [if_neg (by omega)] at hlen
        omega
    rw [if_neg hmod, b64DecodeChunks_encodeCore _ hbytes]
    dsimp only
    rw [decodeURI_escBytes]
    simp only [Option.map]


theorem mapM_map_some {α β : Type} (f : α → β) (g : β → Option α)
    (h : ∀ x, g (f x) = some x) : ∀ (l : List α), (l.map f).mapM g = some l
  | [] => rfl
  | x :: t => by
    rw [List.map_cons, List.mapM_cons, h x, mapM_map_some f g h t]
    rfl

theorem jsonCompactItem_round (it : CompactLineItem) :
    jsonCompactItem? (compactItemJson it) = some it := by
  cases it
  rfl

theorem jsonCompactPayments_round (m : CompactPaymentMethods) :
    jsonCompactPayments? (compactPaymentsJson m) = some m := by
  cases m with
  | mk v z p a o => cases v <;> cases z <;> cases p <;> cases a <;> cases o <;> rfl

theorem jsonCompactPerson_round (cp : CompactPerson) :
    jsonCompactPerson? (compactPersonJson cp) = some cp := by
  cases cp with
  | mk i n t m =>
    have hm := mapM_map_some compactItemJson jsonCompactItem? jsonCompactItem_round t
    cases m with
    | none =>
      have hstep : jsonCompactPerson? (compactPersonJson ⟨i, n, t, none⟩)
          = ((t.map compactItemJson).mapM jsonCompactItem?).bind
              (fun ts => some { i := i, n := n, t := ts, m := none }) := rfl
      rw [hstep, hm]
      rfl
    | some pm =>
      have hstep : jsonCompactPerson? (compactPersonJson ⟨i, n, t, some pm⟩)
          = ((t.map compactItemJson).mapM jsonCompactItem?).bind
              (fun ts => some { i := i, n := n, t := ts
                                m := jsonCompactPayments? (compactPaymentsJson pm) }) := rfl
      rw [hstep, hm, jsonCompactPayments_round]
      rfl

theorem jsonCompactState_round (cs : CompactState) :
    jsonCompactState? (compactStateJson cs) = some cs := by
  cases cs with
  | mk p c e =>
    have hm := mapM_map_some compactPersonJson jsonCompactPerson? jsonCompactPerson_round p
    cases c <;> cases e
    · have hstep : jsonCompactState? (compactStateJson ⟨p, none, none⟩)
          = ((p.map compactPersonJson).mapM jsonCompactPerson?).bind
              (fun ps => some { p := ps, c := none, e := none }) := rfl
      rw [hstep, hm]
      rfl
    · next e =>
      have hstep : jsonCompactState? (compactStateJson ⟨p, none, some e⟩)
          = ((p.map compactPersonJson).mapM jsonCompactPerson?).bind
              (fun ps => some { p := ps, c := none, e := some e }) := rfl
      rw [hstep, hm]
      rfl
    · next c =>
      have hstep : jsonCompactState? (compactStateJson ⟨p, some c, none⟩)
          = ((p.map compactPersonJson).mapM jsonCompactPerson?).bind
              (fun ps => some { p := ps, c := some c, e := none }) := rfl
      rw [hstep, hm]
      rfl
    · next c e =>
      have hstep : jsonCompactState? (compactStateJson ⟨p, some c, some e⟩)
          = ((p.map compactPersonJson).mapM jsonCompactPerson?).bind
              (fun ps => some { p := ps, c := some c, e := some e }) := rfl
      rw [hstep, hm]
      rfl

theorem compactStateJson_people (cs : CompactState) :
    jsonObjGet (compactStateJson cs) "people" = none := by
  cases cs with
  | mk p c e => cases c <;> cases e <;> rfl

theorem compactStateJson_p (cs : CompactState) :
    jsonObjGet (compactStateJson cs) "p" = some (Json.arr (cs.p.map compactPersonJson)) := by
  cases cs with
  | mk p c e => cases c <;> cases e <;> rfl

theorem truthyStr_of_valid {o : Option String} (h : validOptionalText o = true) :
    truthyStr o = o := by
  match o with
  | none => rfl
  | some s =>
    rw [validOptionalText] at h
    rw [truthyStr, if_neg (by simpa using h)]

theorem payments_round (p : Option PaymentMethods) (hv : validPayments p = true) :
    fromCompactPayments (toCompactPayments p) = p := by
  match p with
  | none => rfl
  | some pm =>
    rw [validPayments] at hv
    simp only [Bool.and_eq_true, Bool.or_eq_true] at hv
    obtain ⟨⟨⟨⟨⟨hsome, h1⟩, h2⟩, h3⟩, h4⟩, h5⟩ := hv
    have e1 := truthyStr_of_valid h1
    have e2 := truthyStr_of_valid h2
    have e3 := truthyStr_of_valid h3
    have e4 := truthyStr_of_valid h4
    have e5 := truthyStr_of_valid h5
    have hcompact : toCompactPayments (some pm)
        = some { v := pm.venmo, z := pm.zelle, p := pm.paypal
                 a := pm.cashapp, o := pm.other } := by
      show (if ({ v := truthyStr pm.venmo, z := truthyStr pm.zelle
                  p := truthyStr pm.paypal, a := truthyStr pm.cashapp
                  o := truthyStr pm.other } : CompactPaymentMethods)
            = { v := none, z := none, p := none, a := none, o := none } then none
        else some ({ v := truthyStr pm.venmo, z := truthyStr pm.zelle
                     p := truthyStr pm.paypal, a := truthyStr pm.cashapp
                     o := truthyStr pm.other } : CompactPaymentMethods))
          = some { v := pm.venmo, z := pm.zelle, p := pm.paypal
                   a := pm.cashapp, o := pm.other }
      rw [e1, e2, e3, e4, e5]
      rw [if_neg ?hne]
      case hne =>
        intro heq
        rw [CompactPaymentMethods.mk.injEq] at heq
        rcases hsome with ((((hs | hs) | hs) | hs) | hs)
        · rw [heq.1] at hs
          simp at hs
        · rw [heq.2.1] at hs
          simp at hs
        · rw [heq.2.2.1] at hs
          simp at hs
        · rw [heq.2.2.2.1] at hs
          simp at hs
        · rw [heq.2.2.2.2] at hs
          simp at hs
    rw [hcompact]
    show (if ({ venmo := truthyStr pm.venmo, zelle := truthyStr pm.zelle
                paypal := truthyStr pm.paypal, cashapp := truthyStr pm.cashapp
                other := truthyStr pm.other } : PaymentMethods)
          = { venmo := none, zelle := none, paypal := none
              cashapp := none, other := none } then none
      else some { venmo := truthyStr pm.venmo, zelle := truthyStr pm.zelle
                  paypal := truthyStr pm.paypal, cashapp := truthyStr pm.cashapp
                  other := truthyStr pm.other }) = some pm
    rw [e1, e2, e3, e4, e5]
    rw [if_neg ?hne2]
    case hne2 =>
      intro heq
      rw [PaymentMethods.mk.injEq] at heq
      rcases hsome with ((((hs | hs) | hs) | hs) | hs)
      · rw [heq.1] at hs
        simp at hs
      · rw [heq.2.1] at hs
        simp at hs
      · rw [heq.2.2.1] at hs
        simp at hs
      · rw [heq.2.2.2.1] at hs
        simp at hs
      · rw [heq.2.2.2.2] at hs
        simp at hs

theorem person_round (p : Person) (hv : validPayments p.payments = true) :
    fromCompactPerson (toCompactPerson p) = p := by
  have hitems : (p.items.map
        (fun item => CompactLineItem.mk item.id item.name item.amountCents)).map
        (fun item => LineItem.mk item.i item.n item.a) = p.items := by
    rw [List.map_map]
    have hpt : ∀ it ∈ p.items,
        ((fun item => LineItem.mk item.i item.n item.a)
          ∘ (fun item => CompactLineItem.mk item.id item.name item.amountCents)) it = it := by
      intro it hit
      rfl
    rw [List.map_congr_left hpt]
    simp
  show ({ id := p.id, name := p.name
          items := (p.items.map
            (fun item => CompactLineItem.mk item.id item.name item.amountCents)).map
            (fun item => LineItem.mk item.i item.n item.a)
          payments := fromCompactPayments (toCompactPayments p.payments) } : Person) = p
  rw [hitems, payments_round p.payments hv]

theorem fromCompact_toCompact (st : AppState) (hv : validAppState st = true) :
    fromCompact (toCompact st) = st := by
  rw [validAppState] at hv
  simp only [Bool.and_eq_true] at hv
  obtain ⟨⟨hcur, hev⟩, hppl⟩ := hv
  have hpeople : (st.people.map toCompactPerson).map fromCompactPerson = st.people := by
    rw [List.map_map]
    have hpt : ∀ p ∈ st.people, (fromCompactPerson ∘ toCompactPerson) p = p := by
      intro p hp
      have hvp : validPayments p.payments = true := by
        have := List.all_eq_true.mp hppl p hp
        simp only [Bool.and_eq_true] at this
        exact this.1
      exact person_round p hvp
    rw [List.map_congr_left hpt]
    simp
  have hcur2 : truthyStr (truthyStr st.currency) = st.currency := by
    match hc : st.currency with
    | none => rfl
    | some c =>
      rw [hc] at hcur
      simp only [Bool.and_eq_true] at hcur
      have hne : ¬ (c = "") := by simpa using hcur.1
      rw [truthyStr, if_neg hne, truthyStr, if_neg hne]
  have hev2 : truthyStr (truthyStr st.eventName) = st.eventName := by
    rw [truthyStr_of_valid hev, truthyStr_of_valid hev]
  show ({ people := (st.people.map toCompactPerson).map fromCompactPerson
          currency := truthyStr (truthyStr st.currency)
          eventName := truthyStr (truthyStr st.eventName) } : AppState) = st
  rw [hpeople, hcur2, hev2]

theorem encodeState_of_valid (st : AppState) (hv : validAppState st = true) :
    encodeState st = toBase64Url (renderJson (compactStateJson (toCompact st))) := by
  rw [validAppState] at hv
  simp only [Bool.and_eq_true] at hv
  obtain ⟨⟨hcur, -⟩, -⟩ := hv
  have hc : (match st.currency with
      | some c => if c = "" ∨ c = "$" then none else some c
      | none => none) = st.currency := by
    match hcc : st.currency with
    | none => rfl
    | some c =>
      rw [hcc] at hcur
      simp only [Bool.and_eq_true] at hcur
      have h1 : ¬ (c = "") := by simpa using hcur.1
      have h2 : ¬ (c = "$") := by simpa using hcur.2
      dsimp only
      rw [if_neg (by tauto)]
  rw [encodeState, hc]

/-- C2: for every valid `AppState` (optional text stored as absent rather than
blank, a non-default currency, payment objects with at least one non-blank
field), `decodeState (encodeState x)` returns exactly `x`; this covers empty
item lists, zero and 8-digit amounts and Unicode names, but NOT the default
currency `"$"`, which `encodeState` strips (see the counterexample). -/
theorem claim_C2 (st : AppState) (hv : validAppState st = true) :
    (encodeState st).bind decodeState = some st := by
  rw [encodeState_of_valid st hv]
  obtain ⟨t, ht, hback⟩ :=
    fromBase64Url_toBase64Url (renderJson (compactStateJson (toCompact st)))
  rw [ht]
  show decodeState t = some st
  rw [decodeState]
  have hurl : urlSafeAttempt t = some (renderJson (compactStateJson (toCompact st))) := by
    rw [urlSafeAttempt, hback]
    dsimp only
    rw [jsonParse_render]
    rfl
  rw [hurl]
  dsimp only
  rw [jsonParse_render]
  dsimp only
  rw [decodeParsed, compactStateJson_people]
  have h1 : ¬ (((none : Option Json).bind jsonArr?).isSome = true) := by simp
  rw [if_neg h1]
  have h2 : (((jsonObjGet (compactStateJson (toCompact st)) "p").bind jsonArr?).isSome
      = true) := by
    rw [compactStateJson_p]
    rfl
  rw [if_pos h2, jsonCompactState_round]
  simp only [Option.map]
  rw [fromCompact_toCompact st hv]

/-- C2 witness: the round trip holds for a concrete rich state (Unicode names,
zero and 8-digit amounts, payments, currency `€`, an event name). -/
theorem claim_C2_witness :
    validAppState richState = true
      ∧ (encodeState richState).bind decodeState = some richState :=
  ⟨by decide, claim_C2 richState (by decide)⟩

/-- C2 counterexample: for the supported default currency `'$'` the round trip
is NOT the identity — `encodeState` silently drops the `'$'` currency, so the
decoded state has no currency at all. -/
theorem claim_C2_counterexample :
    (encodeState dollarState).bind decodeState ≠ some dollarState
      ∧ (encodeState dollarState).bind decodeState = some dollarStateStripped := by
  constructor
  · decide
  · decide

theorem decodeURIAux_step (fuel : Nat) (c : Char) (rest : List Char) :
    decodeURIAux (fuel + 1) (c :: rest)
      = (if c = '%' then
          match rest with
          | h :: l :: rest1 =>
            match hexDigitVal h, hexDigitVal l with
            | some hv, some lv =>
              let b0 := 16 * hv + lv
              if b0 < 0x80 then
                (decodeURIAux fuel rest1).map (fun t => Char.ofNat b0 :: t)
              else if b0 < 0xC2 then none
              else if b0 < 0xE0 then
                match rest1 with
                | '%' :: h1 :: l1 :: rest2 =>
                  match hexDigitVal h1, hexDigitVal l1 with
                  | some hv1, some lv1 =>
                    let b1 := 16 * hv1 + lv1
                    if 0x80 ≤ b1 ∧ b1 < 0xC0 then
                      (decodeURIAux fuel rest2).map
                        (fun t => Char.ofNat ((b0 - 0xC0) * 64 + (b1 - 0x80)) :: t)
                    else none
                  | _, _ => none
                | _ => none
              else if b0 < 0xF0 then
                match rest1 with
                | '%' :: h1 :: l1 :: '%' :: h2 :: l2 :: rest2 =>
                  match hexDigitVal h1, hexDigitVal l1, hexDigitVal h2, hexDigitVal l2 with
                  | some hv1, some lv1, some hv2, some lv2 =>
                    let b1 := 16 * hv1 + lv1
                    let b2 := 16 * hv2 + lv2
                    let n := (b0 - 0xE0) * 4096 + (b1 - 0x80) * 64 + (b2 - 0x80)
                    if (0x80 ≤ b1 ∧ b1 < 0xC0) ∧ (0x80 ≤ b2 ∧ b2 < 0xC0)
                        ∧ 0x800 ≤ n ∧ ¬ (0xD800 ≤ n ∧ n < 0xE000) then
                      (decodeURIAux fuel rest2).map (fun t => Char.ofNat n :: t)
                    else none
                  | _, _, _, _ => none
                | _ => none
              else if b0 < 0xF5 then
                match rest1 with
                | '%' :: h1 :: l1 :: '%' :: h2 :: l2 :: '%' :: h3 :: l3 :: rest2 =>
                  match hexDigitVal h1, hexDigitVal l1, hexDigitVal h2, hexDigitVal l2,
                      hexDigitVal h3, hexDigitVal l3 with
                  | some hv1, some lv1, some hv2, some lv2, some hv3, some lv3 =>
                    let b1 := 16 * hv1 + lv1
                    let b2 := 16 * hv2 + lv2
                    let b3 := 16 * hv3 + lv3
                    let n := (b0 - 0xF0) * 262144 + (b1 - 0x80) * 4096
                        + (b2 - 0x80) * 64 + (b3 - 0x80)
                    if (0x80 ≤ b1 ∧ b1 < 0xC0) ∧ (0x80 ≤ b2 ∧ b2 < 0xC0)
                        ∧ (0x80 ≤ b3 ∧ b3 < 0xC0)
                        ∧ 0x10000 ≤ n ∧ n < 0x110000 then
                      (decodeURIAux fuel rest2).map (fun t => Char.ofNat n :: t)
                    else none
                  | _, _, _, _, _, _ => none
                | _ => none
              else none
            | _, _ => none
          | _ => none
        else (decodeURIAux fuel rest).map (fun t => c :: t)) := rfl

theorem decodeURI_pass (fuel : Nat) (c : Char) (rest : List Char) (hc : c ≠ '%') :
    decodeURIAux (fuel + 1) (c :: rest)
      = (decodeURIAux fuel rest).map (fun t => c :: t) := by
  rw [decodeURIAux_step, if_neg hc]

theorem upperHexDigit_lt {n : Nat} (h : n < 16) : (upperHexDigit n).toNat < 0x80 := by
  interval_cases n <;> decide

theorem encodeURI_ascii (cs : List Char) :
    ∀ c ∈ encodeURIComponentL cs, c.toNat < 0x80 := by
  intro c hc
  rw [encodeURIComponentL] at hc
  rcases List.mem_flatMap.mp hc with ⟨x, hx, hcx⟩
  by_cases hu : uriUnreserved x
  · rw [if_pos hu] at hcx
    simp only [List.mem_singleton] at hcx
    subst hcx
    exact uriUnreserved_lt hu
  · rw [if_neg hu] at hcx
    rcases List.mem_flatMap.mp hcx with ⟨b, hb, hcb⟩
    have hblt : b < 256 := utf8EncodeChar_lt256 x b hb
    simp only [List.mem_cons, List.not_mem_nil, or_false] at hcb
    rcases hcb with rfl | rfl | rfl
    · decide
    · exact upperHexDigit_lt (by omega)
    · exact upperHexDigit_lt (by omega)

theorem encodeURI_length (cs : List Char) :
    cs.length ≤ (encodeURIComponentL cs).length := by
  induction cs with
  | nil => simp [encodeURIComponentL]
  | cons c t ih =>
    rw [encodeURIComponentL, List.flatMap_cons, ← encodeURIComponentL, List.length_append]
    by_cases hu : uriUnreserved c
    · rw [if_pos hu]
      simp only [List.length_cons, List.length_nil]
      omega
    · rw [if_neg hu]
      have h1 := utf8EncodeChar_len_pos c
      have h2 : ((utf8EncodeChar c).flatMap
          (fun b => ['%', upperHexDigit (b / 16), upperHexDigit (b % 16)])).length
          = 3 * (utf8EncodeChar c).length := by
        induction (utf8EncodeChar c) with
        | nil => rfl
        | cons b bt ihb =>
          rw [List.flatMap_cons, List.length_append, ihb]
          simp only [List.length_cons, List.length_nil]
          omega
      simp only [List.length_cons] at *
      omega

theorem decodeURIAux_encodeURI : ∀ (cs : List Char) (fuel : Nat),
    cs.length ≤ fuel →
    decodeURIAux fuel (encodeURIComponentL cs) = some cs
  | [], fuel, _ => by cases fuel <;> rfl
  | c :: t, fuel, hlen => by
    match fuel, hlen with
    | f + 1, hlen =>
      have hlt : t.length ≤ f := by
        simp only [List.length_cons] at hlen
        omega
      have ih := decodeURIAux_encodeURI t f hlt
      have hvalid := char_toNat_lt c
      have hsurr := char_not_surrogate c
      rw [encodeURIComponentL, List.flatMap_cons, ← encodeURIComponentL]
      by_cases hu : uriUnreserved c
      · rw [if_pos hu, List.singleton_append,
          decodeURI_pass f c _ (uriUnreserved_ne hu), ih]
        rfl
      · rw [if_neg hu]
        by_cases hc1 : c.toNat < 0x80
        · have hsh : (utf8EncodeChar c).flatMap
                (fun b => ['%', upperHexDigit (b / 16), upperHexDigit (b % 16)])
                ++ encodeURIComponentL t
              = '%' :: upperHexDigit (c.toNat / 16) :: upperHexDigit (c.toNat % 16)
                :: encodeURIComponentL t := by
            rw [show utf8EncodeChar c = [c.toNat] from by rw [utf8EncodeChar, if_pos hc1]]
            simp
          rw [hsh, decodeURI_step1 f c.toNat _ _ _
            (hexDigitVal_upper (by omega)) (hexDigitVal_upper (by omega)) hc1, ih]
          simp [Char.ofNat_toNat]
        · by_cases hc2 : c.toNat < 0x800
          · have hsh : (utf8EncodeChar c).flatMap
                  (fun b => ['%', upperHexDigit (b / 16), upperHexDigit (b % 16)])
                  ++ encodeURIComponentL t
                = '%' :: upperHexDigit ((0xC0 + c.toNat / 64) / 16)
                  :: upperHexDigit ((0xC0 + c.toNat / 64) % 16)
                  :: '%' :: upperHexDigit ((0x80 + c.toNat % 64) / 16)
                  :: upperHexDigit ((0x80 + c.toNat % 64) % 16)
                  :: encodeURIComponentL t := by
              rw [show utf8EncodeChar c = [0xC0 + c.toNat / 64, 0x80 + c.toNat % 64] from by
                rw [utf8EncodeChar, if_neg hc1, if_pos hc2]]
              simp
            rw [hsh, decodeURI_step2 f (0xC0 + c.toNat / 64) (0x80 + c.toNat % 64) _ _ _ _ _
              (hexDigitVal_upper (by omega)) (hexDigitVal_upper (by omega))
              (hexDigitVal_upper (by omega)) (hexDigitVal_upper (by omega))
              (by omega) (by omega)]
            have harg : (0xC0 + c.toNat / 64 - 0xC0) * 64 + (0x80 + c.toNat % 64 - 0x80)
                = c.toNat := by omega
            rw [harg, ih]
            simp [Char.ofNat_toNat]
          · by_cases hc3 : c.toNat < 0x10000
            · have hsh : (utf8EncodeChar c).flatMap
                    (fun b => ['%', upperHexDigit (b / 16), upperHexDigit (b % 16)])
                    ++ encodeURIComponentL t
                  = '%' :: upperHexDigit ((0xE0 + c.toNat / 4096) / 16)
                    :: upperHexDigit ((0xE0 + c.toNat / 4096) % 16)
                    :: '%' :: upperHexDigit ((0x80 + c.toNat / 64 % 64) / 16)
                    :: upperHexDigit ((0x80 + c.toNat / 64 % 64) % 16)
                    :: '%' :: upperHexDigit ((0x80 + c.toNat % 64) / 16)
                    :: upperHexDigit ((0x80 + c.toNat % 64) % 16)
                    :: encodeURIComponentL t := by
                rw [show utf8EncodeChar c
                    = [0xE0 + c.toNat / 4096, 0x80 + c.toNat / 64 % 64, 0x80 + c.toNat % 64]
                  from by rw [utf8EncodeChar, if_neg hc1, if_neg hc2, if_pos hc3]]
                simp
              rw [hsh, decodeURI_step3 f (0xE0 + c.toNat / 4096) (0x80 + c.toNat / 64 % 64)
                (0x80 + c.toNat % 64) _ _ _ _ _ _ _
                (hexDigitVal_upper (by omega)) (hexDigitVal_upper (by omega))
                (hexDigitVal_upper (by omega)) (hexDigitVal_upper (by omega))
                (hexDigitVal_upper (by omega)) (hexDigitVal_upper (by omega))
                (by omega) (by omega) (by omega) (by omega) (by omega)]
              have harg : (0xE0 + c.toNat / 4096 - 0xE0) * 4096
                  + (0x80 + c.toNat / 64 % 64 - 0x80) * 64 + (0x80 + c.toNat % 64 - 0x80)
                  = c.toNat := by omega
              rw [harg, ih]
              simp [Char.ofNat_toNat]
            · have hsh : (utf8EncodeChar c).flatMap
                    (fun b => ['%', upperHexDigit (b / 16), upperHexDigit (b % 16)])
                    ++ encodeURIComponentL t
                  = '%' :: upperHexDigit ((0xF0 + c.toNat / 262144) / 16)
                    :: upperHexDigit ((0xF0 + c.toNat / 262144) % 16)
                    :: '%' :: upperHexDigit ((0x80 + c.toNat / 4096 % 64) / 16)
                    :: upperHexDigit ((0x80 + c.toNat / 4096 % 64) % 16)
                    :: '%' :: upperHexDigit ((0x80 + c.toNat / 64 % 64) / 16)
                    :: upperHexDigit ((0x80 + c.toNat / 64 % 64) % 16)
                    :: '%' :: upperHexDigit ((0x80 + c.toNat % 64) / 16)
                    :: upperHexDigit ((0x80 + c.toNat % 64) % 16)
                    :: encodeURIComponentL t := by
                rw [show utf8EncodeChar c
                    = [0xF0 + c.toNat / 262144, 0x80 + c.toNat / 4096 % 64,
                       0x80 + c.toNat / 64 % 64, 0x80 + c.toNat % 64]
                  from by rw [utf8EncodeChar, if_neg hc1, if_neg hc2, if_neg hc3]]
                simp
              rw [hsh, decodeURI_step4 f (0xF0 + c.toNat / 262144)
                (0x80 + c.toNat / 4096 % 64) (0x80 + c.toNat / 64 % 64) (0x80 + c.toNat % 64)
                _ _ _ _ _ _ _ _ _
                (hexDigitVal_upper (by omega)) (hexDigitVal_upper (by omega))
                (hexDigitVal_upper (by omega)) (hexDigitVal_upper (by omega))
                (hexDigitVal_upper (by omega)) (hexDigitVal_upper (by omega))
                (hexDigitVal_upper (by omega)) (hexDigitVal_upper (by omega))
                (by omega) (by omega) (by omega) (by omega) (by omega) (by omega)]
              have harg : (0xF0 + c.toNat / 262144 - 0xF0) * 262144
                  + (0x80 + c.toNat / 4096 % 64 - 0x80) * 4096
                  + (0x80 + c.toNat / 64 % 64 - 0x80) * 64 + (0x80 + c.toNat % 64 - 0x80)
                  = c.toNat := by omega
              rw [harg, ih]
              simp [Char.ofNat_toNat]

theorem decodeURI_encodeURI (cs : List Char) :
    decodeURIComponentL (encodeURIComponentL cs) = some cs := by
  rw [decodeURIComponentL]
  exact decodeURIAux_encodeURI cs _ (encodeURI_length cs)

theorem ascii_flatMap_utf8 (cs : List Char) (h : ∀ c ∈ cs, c.toNat < 0x80) :
    cs.flatMap utf8EncodeChar = cs.map Char.toNat := by
  induction cs with
  | nil => rfl
  | cons c t ih =>
    rw [List.flatMap_cons, List.map_cons,
      show utf8EncodeChar c = [c.toNat] from by
        rw [utf8EncodeChar, if_pos (h c (by simp))],
      ih (fun x hx => h x (by simp [hx]))]
    rfl

theorem b64_unremap_id {i : Nat} (h : i < 64) :
    b64UrlUnremapChar (b64Char i) = b64Char i := by
  interval_cases i <;> rfl

theorem enc_pad_len_mod4 (bs : List Nat) :
    (b64EncodeCore bs ++ b64Pad bs.length).length % 4 = 0 := by
  have hlen := b64EncodeCore_len_mod bs
  rw [List.length_append]
  have h3 : bs.length % 3 = 0 ∨ bs.length % 3 = 1 ∨ bs.length % 3 = 2 := by omega
  rcases h3 with h3 | h3 | h3
  · rw [if_pos h3] at hlen
    rw [show b64Pad bs.length = [] from by
      rw [b64Pad, if_neg (by omega), if_neg (by omega)]]
    simp only [List.length_nil]
    omega
  · rw [if_neg (by omega)] at hlen
    rw [show b64Pad bs.length = ['=', '='] from by rw [b64Pad, if_pos h3]]
    simp only [List.length_cons, List.length_nil]
    omega
  · rw [if_neg (by omega)] at hlen
    rw [show b64Pad bs.length = ['='] from by
      rw [b64Pad, if_neg (by omega), if_pos h3]]
    simp only [List.length_cons, List.length_nil]
    omega

theorem map_unremap_enc_pad (bs : List Nat) (h : ∀ b ∈ bs, b < 256) :
    (b64EncodeCore bs ++ b64Pad bs.length).map b64UrlUnremapChar
      = b64EncodeCore bs ++ b64Pad bs.length := by
  have hpt : ∀ c ∈ b64EncodeCore bs ++ b64Pad bs.length, b64UrlUnremapChar c = c := by
    intro c hc
    rcases List.mem_append.mp hc with hc | hc
    · obtain ⟨i, hi, rfl⟩ := b64EncodeCore_mem bs h c hc
      exact b64_unremap_id hi
    · rw [mem_b64Pad hc]
      rfl
  rw [List.map_congr_left hpt]
  simp

theorem atobCodes_enc_pad (bs : List Nat) (h : ∀ b ∈ bs, b < 256) :
    atobCodes (b64EncodeCore bs ++ b64Pad bs.length) = some bs := by
  rw [atobCodes]
  rw [b64_filter_noop _ h, stripB64Pad_enc_pad _ h]
  have hlen := b64EncodeCore_len_mod bs
  have hmod : ¬ ((b64EncodeCore bs).length % 4 = 1) := by
    have h3 : bs.length % 3 = 0 ∨ bs.length % 3 = 1 ∨ bs.length % 3 = 2 := by omega
    rcases h3 with h3 | h3 | h3
    · rw [if_pos h3] at hlen
      omega
    · rw [if_neg (by omega)] at hlen
      omega
    · rw [if_neg (by omega)] at hlen
      omega
  rw [if_neg hmod, b64DecodeChunks_encodeCore _ h]

theorem legacy_fromBase64Url (j : String) :
    fromBase64Url (String.mk (b64EncodeCore ((encodeURIComponentL j.data).map Char.toNat)
        ++ b64Pad ((encodeURIComponentL j.data).map Char.toNat).length))
      = some (String.mk (encodeURIComponentL j.data)) := by
  have hascii : ∀ c ∈ encodeURIComponentL j.data, c.toNat < 0x80 := encodeURI_ascii j.data
  have hbytes : ∀ b ∈ (encodeURIComponentL j.data).map Char.toNat, b < 256 := by
    intro b hb
    rcases List.mem_map.mp hb with ⟨c, hc, rfl⟩
    have := hascii c hc
    omega
  rw [fromBase64Url]
  have hdata : (String.mk (b64EncodeCore ((encodeURIComponentL j.data).map Char.toNat)
      ++ b64Pad ((encodeURIComponentL j.data).map Char.toNat).length)).data
      = b64EncodeCore ((encodeURIComponentL j.data).map Char.toNat)
        ++ b64Pad ((encodeURIComponentL j.data).map Char.toNat).length := rfl
  rw [hdata, map_unremap_enc_pad _ hbytes, padB64,
    if_pos (enc_pad_len_mod4 ((encodeURIComponentL j.data).map Char.toNat)),
    atobCodes_enc_pad _ hbytes]
  dsimp only
  rw [show (encodeURIComponentL j.data).map Char.toNat
      = (encodeURIComponentL j.data).flatMap utf8EncodeChar from
    (ascii_flatMap_utf8 _ hascii).symm]
  rw [decodeURI_escBytes]
  rfl

theorem legacyAttempt_enc_pad (j : String) :
    legacyAttempt (String.mk (b64EncodeCore ((encodeURIComponentL j.data).map Char.toNat)
        ++ b64Pad ((encodeURIComponentL j.data).map Char.toNat).length))
      = some j := by
  have hascii : ∀ c ∈ encodeURIComponentL j.data, c.toNat < 0x80 := encodeURI_ascii j.data
  have hbytes : ∀ b ∈ (encodeURIComponentL j.data).map Char.toNat, b < 256 := by
    intro b hb
    rcases List.mem_map.mp hb with ⟨c, hc, rfl⟩
    have := hascii c hc
    omega
  rw [legacyAttempt]
  have hdata : (String.mk (b64EncodeCore ((encodeURIComponentL j.data).map Char.toNat)
      ++ b64Pad ((encodeURIComponentL j.data).map Char.toNat).length)).data
      = b64EncodeCore ((encodeURIComponentL j.data).map Char.toNat)
        ++ b64Pad ((encodeURIComponentL j.data).map Char.toNat).length := rfl
  rw [hdata, atobCodes_enc_pad _ hbytes]
  simp only [Option.bind]
  have hmap : ((encodeURIComponentL j.data).map Char.toNat).map Char.ofNat
      = encodeURIComponentL j.data := by
    rw [List.map_map]
    have hpt : ∀ c ∈ encodeURIComponentL j.data, (Char.ofNat ∘ Char.toNat) c = c := by
      intro c hc
      exact Char.ofNat_toNat c
    rw [List.map_congr_left hpt]
    simp
  rw [hmap, decodeURI_encodeURI]
  simp only [Option.map]


theorem parseJVal_percent (fuel : Nat) (rest : List Char) :
    parseJVal (fuel + 1) ('%' :: rest) = none := rfl

theorem jsonParse_percent (rest : List Char) :
    jsonParse (String.mk ('%' :: rest)) = none := by
  rw [jsonParse]
  have hdata : (String.mk ('%' :: rest)).data = '%' :: rest := rfl
  rw [hdata]
  have hlen : ('%' :: rest).length + 1 = rest.length + 1 + 1 := by simp
  rw [hlen, parseJVal_percent]

theorem encodeURI_renderJson_obj (j : Json) (ms : List (String × Json))
    (hj : j = Json.obj ms) :
    encodeURIComponentL (renderJson j).data
      = '%' :: ('7' :: 'B' :: encodeURIComponentL (renderJFields ms ++ [rbrace])) := by
  subst hj
  rfl

theorem urlSafeAttempt_legacy (j : Json) (ms : List (String × Json))
    (hj : j = Json.obj ms) :
    urlSafeAttempt (String.mk
        (b64EncodeCore ((encodeURIComponentL (renderJson j).data).map Char.toNat)
          ++ b64Pad ((encodeURIComponentL (renderJson j).data).map Char.toNat).length))
      = none := by
  rw [urlSafeAttempt, legacy_fromBase64Url]
  rw [show String.mk (encodeURIComponentL (renderJson j).data)
      = String.mk ('%' :: ('7' :: 'B' :: encodeURIComponentL (renderJFields ms ++ [rbrace])))
    from by rw [encodeURI_renderJson_obj j ms hj]]
  dsimp only
  rw [jsonParse_percent]
  rfl

theorem decodeState_legacy_obj (j : Json) (ms : List (String × Json)) (hj : j = Json.obj ms) :
    decodeState (String.mk
        (b64EncodeCore ((encodeURIComponentL (renderJson j).data).map Char.toNat)
          ++ b64Pad ((encodeURIComponentL (renderJson j).data).map Char.toNat).length))
      = decodeParsed j := by
  rw [decodeState, urlSafeAttempt_legacy j ms hj]
  dsimp only
  rw [legacyAttempt_enc_pad (renderJson j)]
  dsimp only
  rw [jsonParse_render]

theorem jsonLineItem_round (it : LineItem) :
    jsonLineItem? (lineItemJson it) = some it := by
  cases it
  rfl

theorem jsonPaymentMethods_round (pm : PaymentMethods) :
    jsonPaymentMethods? (paymentMethodsJson pm) = some pm := by
  cases pm with
  | mk v z p a o => cases v <;> cases z <;> cases p <;> cases a <;> cases o <;> rfl

theorem jsonPerson_round (p : Person) : jsonPerson? (personJson p) = some p := by
  cases p with
  | mk i n items payments =>
    have hm := mapM_map_some lineItemJson jsonLineItem? jsonLineItem_round items
    cases payments with
    | none =>
      have hstep : jsonPerson? (personJson ⟨i, n, items, none⟩)
          = ((items.map lineItemJson).mapM jsonLineItem?).bind
              (fun its => some { id := i, name := n, items := its, payments := none }) := rfl
      rw [hstep, hm]
      rfl
    | some pm =>
      have hstep : jsonPerson? (personJson ⟨i, n, items, some pm⟩)
          = ((items.map lineItemJson).mapM jsonLineItem?).bind
              (fun its => some { id := i, name := n, items := its
                                 payments := jsonPaymentMethods? (paymentMethodsJson pm) }) := rfl
      rw [hstep, hm, jsonPaymentMethods_round]
      rfl

theorem jsonAppState_round (st : AppState) :
    jsonAppState? (appStateJson st) = some st := by
  cases st with
  | mk p c e =>
    have hm := mapM_map_some personJson jsonPerson? jsonPerson_round p
    cases c <;> cases e
    · have hstep : jsonAppState? (appStateJson ⟨p, none, none⟩)
          = ((p.map personJson).mapM jsonPerson?).bind
              (fun ps => some { people := ps, currency := none, eventName := none }) := rfl
      rw [hstep, hm]
      rfl
    · next e =>
      have hstep : jsonAppState? (appStateJson ⟨p, none, some e⟩)
          = ((p.map personJson).mapM jsonPerson?).bind
              (fun ps => some { people := ps, currency := none, eventName := some e }) := rfl
      rw [hstep, hm]
      rfl
    · next c =>
      have hstep : jsonAppState? (appStateJson ⟨p, some c, none⟩)
          = ((p.map personJson).mapM jsonPerson?).bind
              (fun ps => some { people := ps, currency := some c, eventName := none }) := rfl
      rw [hstep, hm]
      rfl
    · next c e =>
      have hstep : jsonAppState? (appStateJson ⟨p, some c, some e⟩)
          = ((p.map personJson).mapM jsonPerson?).bind
              (fun ps => some { people := ps, currency := some c, eventName := some e }) := rfl
      rw [hstep, hm]
      rfl

theorem appStateJson_people (st : AppState) :
    jsonObjGet (appStateJson st) "people" = some (Json.arr (st.people.map personJson)) := by
  cases st with
  | mk p c e => cases c <;> cases e <;> rfl

theorem decodeParsed_appState (st : AppState) :
    decodeParsed (appStateJson st) = some st := by
  rw [decodeParsed]
  have h1 : (((jsonObjGet (appStateJson st) "people").bind jsonArr?).isSome = true) := by
    rw [appStateJson_people]
    rfl
  rw [if_pos h1, jsonAppState_round]

theorem decodeParsed_compact (cs : CompactState) :
    decodeParsed (compactStateJson cs) = some (fromCompact cs) := by
  rw [decodeParsed, compactStateJson_people]
  have h1 : ¬ (((none : Option Json).bind jsonArr?).isSome = true) := by simp
  rw [if_neg h1]
  have h2 : (((jsonObjGet (compactStateJson cs) "p").bind jsonArr?).isSome = true) := by
    rw [compactStateJson_p]
    rfl
  rw [if_pos h2, jsonCompactState_round]
  rfl

theorem toCompactLegacy_eq (st : AppState) (hl : legacyShape st = true) :
    toCompactLegacy st = toCompact st := by
  rw [legacyShape] at hl
  simp only [Bool.and_eq_true] at hl
  obtain ⟨hp, he⟩ := hl
  rw [toCompactLegacy, toCompact]
  have hppl : st.people.map (fun person =>
      ({ i := person.id
         n := person.name
         t := person.items.map (fun item => CompactLineItem.mk item.id item.name item.amountCents)
         m := none } : CompactPerson))
      = st.people.map toCompactPerson := by
    apply List.map_congr_left
    intro p hp2
    have hnone : p.payments = none :=
      Option.isNone_iff_eq_none.mp (List.all_eq_true.mp hp p hp2)
    rw [toCompactPerson, hnone]
    rfl
  have hev : truthyStr st.eventName = none := by
    rw [Option.isNone_iff_eq_none.mp he]
    rfl
  rw [hppl, hev]

theorem encodeStateLegacy_of_valid (st : AppState) (hv : validAppState st = true) :
    encodeStateLegacy st = some (String.mk
      (b64EncodeCore ((encodeURIComponentL
          (renderJson (compactStateJson (toCompactLegacy st))).data).map Char.toNat)
        ++ b64Pad ((encodeURIComponentL
          (renderJson (compactStateJson (toCompactLegacy st))).data).map Char.toNat).length)) := by
  rw [validAppState] at hv
  simp only [Bool.and_eq_true] at hv
  obtain ⟨⟨hcur, -⟩, -⟩ := hv
  have hc : (match st.currency with
      | some c => if c = "" ∨ c = "$" then none else some c
      | none => none) = st.currency := by
    match hcc : st.currency with
    | none => rfl
    | some c =>
      rw [hcc] at hcur
      simp only [Bool.and_eq_true] at hcur
      have h1 : ¬ (c = "") := by simpa using hcur.1
      have h2 : ¬ (c = "$") := by simpa using hcur.2
      dsimp only
      rw [if_neg (by tauto)]
  rw [encodeStateLegacy, hc]
  have hbytes : ∀ b ∈ ((encodeURIComponentL
      (renderJson (compactStateJson (toCompactLegacy st))).data).map Char.toNat), b < 256 := by
    intro b hb
    rcases List.mem_map.mp hb with ⟨x, hx, rfl⟩
    have := encodeURI_ascii _ x hx
    omega
  rw [btoa, if_pos (List.all_eq_true.mpr (fun b hb => by simp [hbytes b hb]))]
  rfl

theorem encodeLegacyFull_eq (st : AppState) :
    encodeLegacyFull st = some (String.mk
      (b64EncodeCore ((encodeURIComponentL
          (renderJson (appStateJson st)).data).map Char.toNat)
        ++ b64Pad ((encodeURIComponentL
          (renderJson (appStateJson st)).data).map Char.toNat).length)) := by
  rw [encodeLegacyFull]
  have hbytes : ∀ b ∈ ((encodeURIComponentL
      (renderJson (appStateJson st)).data).map Char.toNat), b < 256 := by
    intro b hb
    rcases List.mem_map.mp hb with ⟨x, hx, rfl⟩
    have := encodeURI_ascii _ x hx
    omega
  rw [btoa, if_pos (List.all_eq_true.mpr (fun b hb => by simp [hbytes b hb]))]
  rfl

/-- C4: a legacy-scheme string — percent-encode the JSON text, then standard
base64 with padding and no URL-safe remapping — decodes correctly: the
URL-safe attempt fails (the percent-encoded text is not JSON) and the legacy
fallback recovers the state.  For the legacy compact format this requires the
state to carry no payment methods and no event name (the legacy compact
schema has no fields for them — see the counterexample); the full-key format
round-trips every state. -/
theorem claim_C4 (st : AppState) (hv : validAppState st = true)
    (hl : legacyShape st = true) :
    (∃ enc, encodeStateLegacy st = some enc
        ∧ urlSafeAttempt enc = none ∧ decodeState enc = some st)
      ∧ ∀ st2 : AppState, ∃ enc2, encodeLegacyFull st2 = some enc2
          ∧ urlSafeAttempt enc2 = none ∧ decodeState enc2 = some st2 := by
  constructor
  · refine ⟨_, encodeStateLegacy_of_valid st hv, ?_, ?_⟩
    · exact urlSafeAttempt_legacy (compactStateJson (toCompactLegacy st)) _ rfl
    · rw [decodeState_legacy_obj (compactStateJson (toCompactLegacy st)) _ rfl,
        toCompactLegacy_eq st hl, decodeParsed_compact, fromCompact_toCompact st hv]
  · intro st2
    refine ⟨_, encodeLegacyFull_eq st2, ?_, ?_⟩
    · exact urlSafeAttempt_legacy (appStateJson st2) _ rfl
    · rw [decodeState_legacy_obj (appStateJson st2) _ rfl, decodeParsed_appState]

/-- C4 witness: a concrete legacy-shaped state (two people, one item, currency
`€`, no payments, no event name) encodes under both legacy schemes and decodes
back, with the URL-safe attempt failing first. -/
theorem claim_C4_witness :
    validAppState legacyShapedState = true ∧ legacyShape legacyShapedState = true
      ∧ ((∃ enc, encodeStateLegacy legacyShapedState = some enc
            ∧ urlSafeAttempt enc = none ∧ decodeState enc = some legacyShapedState)
        ∧ ∀ st2 : AppState, ∃ enc2, encodeLegacyFull st2 = some enc2
            ∧ urlSafeAttempt enc2 = none ∧ decodeState enc2 = some st2) :=
  ⟨by decide, by decide, claim_C4 legacyShapedState (by decide) (by decide)⟩

set_option maxRecDepth 4000 in
/-- C4 counterexample: a valid state with payment methods is NOT recovered by
the legacy compact scheme — its `toCompact` has no `m` field, so the payments
are silently dropped. -/
theorem claim_C4_counterexample :
    (encodeStateLegacy paymentsState).bind decodeState ≠ some paymentsState
      ∧ (encodeStateLegacy paymentsState).bind decodeState = some paymentsStateStripped := by
  constructor
  · decide
  · decide

set_option maxRecDepth 4000 in
/-- C5: `decodeState` returns `none` for a structurally invalid base64 string,
for valid base64 whose payload is not JSON, and for any encoded JSON value
that carries neither a `people` array nor a `p` array; every failure path
collapses to an absent result rather than an exception. -/
theorem claim_C5 :
    decodeState "not-valid-base64!!!" = none
      ∧ decodeState "bm90IGpzb24gYXQgYWxs" = none
      ∧ ∀ (j : Json), (jsonObjGet j "people").bind jsonArr? = none →
          (jsonObjGet j "p").bind jsonArr? = none →
          (toBase64Url (renderJson j)).bind decodeState = none := by
  refine ⟨by decide, by decide, ?_⟩
  intro j h1 h2
  obtain ⟨t, ht, hback⟩ := fromBase64Url_toBase64Url (renderJson j)
  rw [ht]
  show decodeState t = none
  rw [decodeState]
  have hurl : urlSafeAttempt t = some (renderJson j) := by
    rw [urlSafeAttempt, hback]
    dsimp only
    rw [jsonParse_render]
    rfl
  rw [hurl]
  dsimp only
  rw [jsonParse_render]
  dsimp only
  rw [decodeParsed, h1]
  rw [if_neg (show ¬ ((none : Option (List Json)).isSome = true) from by simp)]
  rw [h2]
  rw [if_neg (show ¬ ((none : Option (List Json)).isSome = true) from by simp)]

/-- C5 witness: the junk-JSON branch applied to the concrete object
`\x7b "foo": "bar" \x7d`, which has neither a `people` nor a `p` array. -/
theorem claim_C5_witness :
    (jsonObjGet junkJson "people").bind jsonArr? = none
      ∧ (jsonObjGet junkJson "p").bind jsonArr? = none
      ∧ (toBase64Url (renderJson junkJson)).bind decodeState = none :=
  ⟨rfl, rfl, claim_C5.2.2 junkJson rfl rfl⟩
